import Mathlib

/-!
# MPC-BE `TorrentInfo.cpp`: bencode decoder and magnet builder

A shallow embedding of `src/apps/mplayerc/TorrentInfo.cpp`.

* A byte is its unsigned value, a `Nat` in `0..255`; the file contents
  `m_data` and every `std::string` are lists of bytes.
* The cursor `m_offset` is threaded explicitly: every reader takes the cursor
  and returns the new cursor next to its result.
* A `bt_node*` that may be `nullptr` is an `Option bt_node`.
* `Decode` is recursive and loops without a bound of its own, so it takes a
  fuel argument; the outer `Option` of its result is `none` exactly when the
  fuel ran out before the call returned. One unit of fuel is used per nested
  call and per pass of a `while` loop. The fuel of `Decode` stands for a
  native stack with room for any nesting; `DecodeOnStack` is the same function
  on a stack with room for a given number of nested calls, where `none` is
  also the overflow of the stack.
* The C runtime functions `atoi`, `_atoi64`, `isspace`, `isalnum` and
  `_stricmp` are modelled for the "C" locale, `atoi` and `_atoi64` with the
  saturating overflow behaviour of the Microsoft runtime; `atof` followed by
  the cast to `__int64`, and the SHA-1 primitive, are parameters.
* `CalcInfoHash`, `GetAnnounceList` and `Magnet` return an `Option`: `none`
  stands for a call that leaves defined behaviour (a read outside `m_data`,
  the type of a null item, a `swprintf_s` into a buffer that is too small).

The first part holds the definitions taken from the source, then the
reference side (values, their standard text, the tree expected from it); the
theorems follow.
-/

namespace TorrentInfo

/-- The bytes of an ASCII string literal. -/
def bytes (s : String) : List Nat := s.toList.map Char.toNat

/-- The node type `bt_node`: the two span fields and the payload of the
type tag. A list holds its children in order, and a child pointer may be
null; a dictionary is a `std::map<std::string, bt_node*>`, kept as the list
of its entries in the map's iteration order (ascending keys). -/
inductive bt_node where
  | dt_string (offset length : Nat) (string : List Nat)
  | dt_integer (offset length : Nat) (integer : Int)
  | dt_list (offset length : Nat) (list : List (Option bt_node))
  | dt_dictionary (offset length : Nat) (dict : List (List Nat × Option bt_node))

/-- Field `offset` of a node. -/
def bt_node.offset : bt_node → Nat
  | .dt_string o _ _ => o
  | .dt_integer o _ _ => o
  | .dt_list o _ _ => o
  | .dt_dictionary o _ _ => o

/-- Field `length` of a node. -/
def bt_node.length : bt_node → Nat
  | .dt_string _ l _ => l
  | .dt_integer _ l _ => l
  | .dt_list _ l _ => l
  | .dt_dictionary _ l _ => l

/-! ## `std::map<std::string, bt_node*>` -/

/-- The order `std::less<std::string>`: lexicographic on unsigned bytes, a
proper prefix being smaller. -/
def strLess : List Nat → List Nat → Bool
  | [], [] => false
  | [], _ :: _ => true
  | _ :: _, [] => false
  | a :: as, b :: bs => if a < b then true else if b < a then false else strLess as bs

/-- The call `std::map::insert(make_pair(k, v))`: the entry goes to its place
in ascending key order, and nothing changes when the key is already there. -/
def mapInsert {V : Type} : List (List Nat × V) → List Nat → V → List (List Nat × V)
  | [], k, v => [(k, v)]
  | (k', v') :: rest, k, v =>
    if strLess k k' then (k, v) :: (k', v') :: rest
    else if strLess k' k then (k', v') :: mapInsert rest k v
    else (k', v') :: rest

/-! ## C runtime: `atoi`, `_atoi64` -/

/-- The test `isspace` in the "C" locale. -/
def isspace (b : Nat) : Bool := b == 32 || (9 ≤ b && b ≤ 13)

/-- The test `'0' <= b && b <= '9'`. -/
def isDigit (b : Nat) : Bool := 48 ≤ b && b ≤ 57

/-- Value of the leading run of decimal digits, continuing from `acc`. -/
def digitsValue : Nat → List Nat → Nat
  | acc, [] => acc
  | acc, b :: bs => if isDigit b then digitsValue (acc * 10 + (b - 48)) bs else acc

/-- The number a C `ato*` function reads before range handling: leading
white space is skipped, one sign is taken, then the digit run. A NUL byte
ends the text like any other byte that is not a digit. -/
def strToInt (s : List Nat) : Int :=
  match s.dropWhile isspace with
  | 45 :: r => - (digitsValue 0 r : Int)
  | 43 :: r => (digitsValue 0 r : Int)
  | r => (digitsValue 0 r : Int)

/-- Saturation of `x` to the range `lo..hi`. -/
def clamp (lo hi x : Int) : Int := if x < lo then lo else if hi < x then hi else x

/-- The function `atoi` (result type `int`, 32 bits). -/
def atoi (s : List Nat) : Int := clamp (-(2 ^ 31)) (2 ^ 31 - 1) (strToInt s)

/-- The function `_atoi64` (result type `__int64`). -/
def _atoi64 (s : List Nat) : Int := clamp (-(2 ^ 63)) (2 ^ 63 - 1) (strToInt s)

/-- The conversion `static_cast<int>` of an integer value: reduction modulo
`2^32` into the signed range. -/
def toInt32 (x : Int) : Int := (x + 2 ^ 31) % 2 ^ 32 - 2 ^ 31

/-! ## The readers -/

/-- The function `CTorrentInfo::ReadString`: result and new cursor. -/
def ReadString (m_data : List Nat) (m_offset : Nat) : List Nat × Nat :=
  let len := (m_data.drop m_offset).takeWhile (fun b => b != 58)
  let m_offset := m_offset + len.length + 1
  let str_len := atoi len
  if str_len ≤ 0 ∨ str_len ≥ toInt32 ((m_data.length : Int) - (m_offset : Int)) then
    ([], m_offset)
  else
    ((m_data.drop m_offset).take str_len.toNat, m_offset + str_len.toNat)

/-- The function `CTorrentInfo::ReadInteger`: result and new cursor. The
parameter `atofInt` stands for `static_cast<__int64>(atof(num.c_str()))`. -/
def ReadInteger (atofInt : List Nat → Int) (m_data : List Nat) (m_offset : Nat) :
    Int × Nat :=
  let num := (m_data.drop m_offset).takeWhile (fun b => b != 101)
  let m_offset := m_offset + num.length + 1
  if num.any (fun b => b == 100 || b == 68 || b == 101 || b == 69) then
    (atofInt num, m_offset)
  else
    (_atoi64 num, m_offset)

/-- The `while` loop of the list branch of `Decode`, `dec` being the
recursive call; `none` when the fuel runs out. -/
def listLoop (dec : Nat → Option (Option bt_node × Nat)) (m_data : List Nat) :
    Nat → Nat → List (Option bt_node) → Option (List (Option bt_node) × Nat)
  | 0, _, _ => none
  | fuel + 1, m_offset, list =>
    if m_offset < m_data.length ∧ m_data.getD m_offset 0 ≠ 101 then
      match dec m_offset with
      | none => none
      | some (val, m_offset) => listLoop dec m_data fuel m_offset (list ++ [val])
    else some (list, m_offset)

/-- The `while` loop of the dictionary branch of `Decode`. -/
def dictLoop (dec : Nat → Option (Option bt_node × Nat)) (m_data : List Nat) :
    Nat → Nat → List (List Nat × Option bt_node) →
      Option (List (List Nat × Option bt_node) × Nat)
  | 0, _, _ => none
  | fuel + 1, m_offset, dict =>
    if m_offset < m_data.length ∧ m_data.getD m_offset 0 ≠ 101 then
      let (name, m_offset) := ReadString m_data m_offset
      match dec m_offset with
      | none => none
      | some (val, m_offset) => dictLoop dec m_data fuel m_offset (mapInsert dict name val)
    else some (dict, m_offset)

/-- The function `CTorrentInfo::Decode` at cursor `m_offset`: the node (or
`nullptr`) and the new cursor; `none` when the fuel runs out. The fuel also
pays for the nested calls, as on a native stack with room for any nesting;
`DecodeOnStack` below counts the frames of the stack. -/
def Decode (atofInt : List Nat → Int) (m_data : List Nat) :
    Nat → Nat → Option (Option bt_node × Nat)
  | 0, _ => none
  | fuel + 1, m_offset =>
    if m_offset ≥ m_data.length then some (none, m_offset)
    else if m_data.getD m_offset 0 ≥ 48 ∧ m_data.getD m_offset 0 ≤ 57 then
      let (s, off) := ReadString m_data m_offset
      some (some (.dt_string m_offset (off - m_offset) s), off)
    else if m_data.getD m_offset 0 = 105 then
      let (i, off) := ReadInteger atofInt m_data (m_offset + 1)
      some (some (.dt_integer m_offset (off - m_offset) i), off)
    else if m_data.getD m_offset 0 = 108 then
      match listLoop (Decode atofInt m_data fuel) m_data fuel (m_offset + 1) [] with
      | none => none
      | some (list, off) => some (some (.dt_list m_offset (off + 1 - m_offset) list), off + 1)
    else if m_data.getD m_offset 0 = 100 then
      match dictLoop (Decode atofInt m_data fuel) m_data fuel (m_offset + 1) [] with
      | none => none
      | some (dict, off) =>
        some (some (.dt_dictionary m_offset (off + 1 - m_offset) dict), off + 1)
    else some (none, m_offset)

/-- The function `CTorrentInfo::Decode` on a native stack with room for
`frames` nested calls of `Decode`. The steps are those of `Decode`; each
nested call is made with one frame less, and a call that finds no room left
overflows the stack, which ends the process: the result is `none`, as it is
when a loop runs out of `fuel`. The source sets no limit to the nesting, the
stack of the thread is the only one. -/
def DecodeOnStack (atofInt : List Nat → Int) (m_data : List Nat) (fuel : Nat) :
    Nat → Nat → Option (Option bt_node × Nat)
  | 0, _ => none
  | frames + 1, m_offset =>
    if m_offset ≥ m_data.length then some (none, m_offset)
    else if m_data.getD m_offset 0 ≥ 48 ∧ m_data.getD m_offset 0 ≤ 57 then
      let (s, off) := ReadString m_data m_offset
      some (some (.dt_string m_offset (off - m_offset) s), off)
    else if m_data.getD m_offset 0 = 105 then
      let (i, off) := ReadInteger atofInt m_data (m_offset + 1)
      some (some (.dt_integer m_offset (off - m_offset) i), off)
    else if m_data.getD m_offset 0 = 108 then
      match listLoop (DecodeOnStack atofInt m_data fuel frames) m_data fuel (m_offset + 1) [] with
      | none => none
      | some (list, off) => some (some (.dt_list m_offset (off + 1 - m_offset) list), off + 1)
    else if m_data.getD m_offset 0 = 100 then
      match dictLoop (DecodeOnStack atofInt m_data fuel frames) m_data fuel (m_offset + 1) [] with
      | none => none
      | some (dict, off) =>
        some (some (.dt_dictionary m_offset (off + 1 - m_offset) dict), off + 1)
    else some (none, m_offset)

/-! ## Lookup, hash, trackers, magnet -/

/-- The function `tolower` in the "C" locale. -/
def tolower (b : Nat) : Nat := if 65 ≤ b ∧ b ≤ 90 then b + 32 else b

/-- The text that `c_str()` shows to a C function: the bytes before the
first NUL. -/
def c_str (s : List Nat) : List Nat := s.takeWhile (fun b => b != 0)

/-- The test `_stricmp(a, b) == 0` in the "C" locale. -/
def stricmpEq (a b : List Nat) : Bool := (c_str a).map tolower == (c_str b).map tolower

/-- The function `CTorrentInfo::Search`. -/
def Search (nodeName : List Nat) (nodeParent : Option bt_node) : Option bt_node :=
  match nodeParent with
  | some (.dt_dictionary _ _ dict) =>
    if c_str nodeName = [] then none
    else
      match dict.find? (fun item => stricmpEq item.1 nodeName) with
      | some (_, node) => node
      | none => none
  | _ => none

mutual
/-- The body of the `for` loop of `GetAnnounceList` for one item that is not
null: a string is appended, a list is handed to the recursive call, anything
else is skipped. -/
def announceItem : bt_node → List (List Nat) → Option (List (List Nat))
  | .dt_string _ _ s, list => some (list ++ [s])
  | .dt_list _ _ items, list => announceItems items list
  | _, list => some list
/-- The `for` loop of `GetAnnounceList` over the items that are left; `none`
when the loop reads the type of a null item. -/
def announceItems : List (Option bt_node) → List (List Nat) → Option (List (List Nat))
  | [], list => some list
  | none :: _, _ => none
  | some item :: rest, list =>
    match announceItem item list with
    | none => none
    | some list => announceItems rest list
end

/-- The function `CTorrentInfo::GetAnnounceList`: the list after the call;
`none` when the loop reads the type of a null item. -/
def GetAnnounceList (nodeAnnounce : Option bt_node) (list : List (List Nat)) :
    Option (List (List Nat)) :=
  match nodeAnnounce with
  | some (.dt_list _ _ items) => announceItems items list
  | _ => some list

/-- The wide string type `std::wstring`, as its characters. -/
abbrev wstring := List Char

/-- One hexadecimal digit in lower case (`%x`). -/
def hexLower (n : Nat) : Char := "0123456789abcdef".toList.getD n '0'

/-- One hexadecimal digit in upper case (`%X`). -/
def hexUpper (n : Nat) : Char := "0123456789ABCDEF".toList.getD n '0'

/-- The text `swprintf_s(d, L"%02x", b)` writes for a `UCHAR`. -/
def hex02x (b : Nat) : wstring := [hexLower (b / 16 % 16), hexLower (b % 16)]

/-- The slice `m_data[offset .. offset + length]`. -/
def slice (m_data : List Nat) (offset length : Nat) : List Nat :=
  (m_data.drop offset).take length

/-- The function `CTorrentInfo::CalcInfoHash`, the hash provider calls
succeeding and `sha1` giving the 20 bytes of the digest. The result is `none`
when `BCryptHashData` is handed a range that leaves `m_data`, which is a read
outside the vector. -/
def CalcInfoHash (sha1 : List Nat → List Nat) (m_data : List Nat)
    (m_root : Option bt_node) : Option wstring :=
  match Search (bytes "info") m_root with
  | some (.dt_dictionary offset length _) =>
    if offset + length ≤ m_data.length then
      some ((sha1 (slice m_data offset length)).flatMap hex02x)
    else none
  | _ => some []

/-- One step of sorting by insertion: the string goes before the first
element that is not smaller. -/
def sortedInsert (s : List Nat) : List (List Nat) → List (List Nat)
  | [] => [s]
  | t :: rest => if strLess t s then t :: sortedInsert s rest else s :: t :: rest

/-- The member `std::list<std::string>::sort()`, written as an insertion
sort. Equal strings cannot be told apart, so the sorted list does not depend
on the sorting method. -/
def sort : List (List Nat) → List (List Nat)
  | [] => []
  | s :: rest => sortedInsert s (sort rest)

/-- The member `std::list<std::string>::unique()`: of each run of equal
neighbours the first stays. -/
def unique : List (List Nat) → List (List Nat)
  | [] => []
  | [s] => [s]
  | s :: t :: rest => if s = t then unique (t :: rest) else s :: unique (t :: rest)

/-- The test `isalnum` in the "C" locale. -/
def isalnum (b : Nat) : Bool :=
  isDigit b || (65 ≤ b && b ≤ 90) || (97 ≤ b && b ≤ 122)

/-- What one pass of the encode loop appends for the `char` with byte value
`b`. The element type of `std::string` is the signed `char`: a byte from
`0x80` on is a negative `ch`, outside the domain of `isalnum`, and promoted
to a negative `int` for `%02X`, which then needs eight digits where `d` has
room for two; `swprintf_s` reports an invalid parameter. That case is `none`. -/
def encodeChar (b : Nat) : Option wstring :=
  if b ≥ 128 then none
  else if isalnum b then some [Char.ofNat b]
  else some ['%', hexUpper (b / 16 % 16), hexUpper (b % 16)]

/-- The inner loop of `Magnet` over the characters of one tracker. -/
def encodeItem : List Nat → Option wstring
  | [] => some []
  | ch :: rest =>
    match encodeChar ch, encodeItem rest with
    | some d, some tail => some (d ++ tail)
    | _, _ => none

/-- The outer loop of `Magnet` over the trackers. -/
def encodeList : List (List Nat) → Option wstring
  | [] => some []
  | item :: rest =>
    match encodeItem item, encodeList rest with
    | some e, some tail => some ("&tr=".toList ++ e ++ tail)
    | _, _ => none

/-- The strings `Magnet` collects before sorting. -/
def collectAnnounce (m_root : Option bt_node) : Option (List (List Nat)) :=
  let list : List (List Nat) :=
    match Search (bytes "announce") m_root with
    | some (.dt_string _ _ s) => [s]
    | _ => []
  match Search (bytes "announce-list") m_root with
  | some (.dt_list o l items) => GetAnnounceList (some (.dt_list o l items)) list
  | _ => some list

/-- The function `CTorrentInfo::Magnet`; `none` when the call does not come
back with a string (see `CalcInfoHash`, `GetAnnounceList`, `encodeChar`). -/
def Magnet (sha1 : List Nat → List Nat) (m_data : List Nat)
    (m_root : Option bt_node) : Option wstring :=
  match CalcInfoHash sha1 m_data m_root with
  | none => none
  | some hashCode =>
    if hashCode = [] then some []
    else
      match collectAnnounce m_root with
      | none => none
      | some list =>
        match encodeList (unique (sort list)) with
        | none => none
        | some trackers => some ("magnet:?xt=urn:btih:".toList ++ hashCode ++ trackers)

/-- Modelled from the spec: the constant `MEGABYTE`, defined outside the
given sources; the spec gives the ceiling as 5 MiB. -/
def MEGABYTE : Nat := 1048576

/-- The function `CTorrentInfo::Read` once the file is open and `ReadFile`
has filled `m_data` with the contents `file`: the returned flag, and `none`
when `Decode` runs out of fuel. -/
def Read (atofInt : List Nat → Int) (fuel : Nat) (file : List Nat) : Option Bool :=
  if file.length = 0 ∨ file.length > 5 * MEGABYTE then some false
  else
    match Decode atofInt file fuel 0 with
    | none => none
    | some (some (.dt_dictionary _ _ dict), _) => some (!dict.isEmpty)
    | some _ => some false

/-- The function `CTorrentInfo::Read`, as `Read` above, on a native stack with
room for `frames` nested calls of `Decode`: `none` when the stack overflows
or a loop runs out of fuel. -/
def ReadOnStack (atofInt : List Nat → Int) (fuel frames : Nat) (file : List Nat) :
    Option Bool :=
  if file.length = 0 ∨ file.length > 5 * MEGABYTE then some false
  else
    match DecodeOnStack atofInt file fuel frames 0 with
    | none => none
    | some (some (.dt_dictionary _ _ dict), _) => some (!dict.isEmpty)
    | some _ => some false

/-! ## Reference side: values and their standard encoding -/

/-- The decimal text of a natural number, as bytes. -/
def decimal (n : Nat) : List Nat := (Nat.toDigits 10 n).map Char.toNat

/-- The decimal text of an integer, as bytes: a minus sign before the digits
of a negative number. -/
def decimalInt : Int → List Nat
  | Int.ofNat n => decimal n
  | Int.negSucc n => 45 :: decimal (n + 1)

/-- A bencode value. -/
inductive Value where
  | str (s : List Nat)
  | int (i : Int)
  | list (items : List Value)
  | dict (entries : List (List Nat × Value))

/-- The bencode text of a byte string: `<length>:<bytes>`. -/
def encodeStr (s : List Nat) : List Nat := decimal s.length ++ 58 :: s

mutual
/-- The bencode text of a value; a dictionary writes its entries in the order
of the list. -/
def encode : Value → List Nat
  | .str s => encodeStr s
  | .int i => 105 :: (decimalInt i ++ [101])
  | .list items => 108 :: (encodeItems items ++ [101])
  | .dict entries => 100 :: (encodeEntries entries ++ [101])
/-- The texts of the items of a list, one after the other. -/
def encodeItems : List Value → List Nat
  | [] => []
  | v :: vs => encode v ++ encodeItems vs
/-- The texts of the entries of a dictionary: key, then value. -/
def encodeEntries : List (List Nat × Value) → List Nat
  | [] => []
  | (k, v) :: es => encodeStr k ++ (encode v ++ encodeEntries es)
end

mutual
/-- The node expected for value `v` when its text starts at offset `off`. -/
def treeAt : Value → Nat → bt_node
  | .str s, off => .dt_string off (encodeStr s).length s
  | .int i, off => .dt_integer off ((decimalInt i).length + 2) i
  | .list items, off => .dt_list off ((encodeItems items).length + 2) (itemsAt items (off + 1))
  | .dict entries, off =>
    .dt_dictionary off ((encodeEntries entries).length + 2) (entriesAt entries (off + 1))
/-- The nodes expected for the items of a list starting at `off`. -/
def itemsAt : List Value → Nat → List (Option bt_node)
  | [], _ => []
  | v :: vs, off => some (treeAt v off) :: itemsAt vs (off + (encode v).length)
/-- The entries expected for the entries of a dictionary starting at `off`. -/
def entriesAt : List (List Nat × Value) → Nat → List (List Nat × Option bt_node)
  | [], _ => []
  | (k, v) :: es, off =>
    (k, some (treeAt v (off + (encodeStr k).length))) ::
      entriesAt es (off + (encodeStr k).length + (encode v).length)
end

mutual
/-- Well-formed value: every integer fits `__int64` and every dictionary has
its keys in strictly ascending byte order (so they are pairwise distinct and
the text of `encode` is the standard one). -/
def Value.wf : Value → Bool
  | .str _ => true
  | .int i => decide (-(2 ^ 63) ≤ i ∧ i < 2 ^ 63)
  | .list items => wfItems items
  | .dict entries => wfEntries entries && decide ((keysOf entries).Pairwise (fun a b => strLess a b = true))
/-- All items well-formed. -/
def wfItems : List Value → Bool
  | [] => true
  | v :: vs => v.wf && wfItems vs
/-- All entry values well-formed. -/
def wfEntries : List (List Nat × Value) → Bool
  | [] => true
  | (_, v) :: es => v.wf && wfEntries es
/-- The keys of the entries. -/
def keysOf : List (List Nat × Value) → List (List Nat)
  | [] => []
  | (k, _) :: es => k :: keysOf es
end

mutual
/-- The value a node stands for, spans dropped; a null child stands for
nothing. -/
def bt_node.value : bt_node → Value
  | .dt_string _ _ s => .str s
  | .dt_integer _ _ i => .int i
  | .dt_list _ _ items => .list (valueItems items)
  | .dt_dictionary _ _ dict => .dict (valueEntries dict)
/-- The values of the children of a list. -/
def valueItems : List (Option bt_node) → List Value
  | [] => []
  | none :: rest => valueItems rest
  | some n :: rest => n.value :: valueItems rest
/-- The values of the entries of a dictionary. -/
def valueEntries : List (List Nat × Option bt_node) → List (List Nat × Value)
  | [] => []
  | (_, none) :: rest => valueEntries rest
  | (k, some n) :: rest => (k, n.value) :: valueEntries rest
end

mutual
/-- The node and all nodes below it. -/
def bt_node.nodes : bt_node → List bt_node
  | .dt_string o l s => [.dt_string o l s]
  | .dt_integer o l i => [.dt_integer o l i]
  | .dt_list o l items => .dt_list o l items :: nodesItems items
  | .dt_dictionary o l dict => .dt_dictionary o l dict :: nodesEntries dict
/-- All nodes below the children of a list. -/
def nodesItems : List (Option bt_node) → List bt_node
  | [] => []
  | none :: rest => nodesItems rest
  | some n :: rest => n.nodes ++ nodesItems rest
/-- All nodes below the entries of a dictionary. -/
def nodesEntries : List (List Nat × Option bt_node) → List bt_node
  | [] => []
  | (_, none) :: rest => nodesEntries rest
  | (_, some n) :: rest => n.nodes ++ nodesEntries rest
end

/-! ## Reference side: helpers for the statements -/

/-- The value of a digit text read from the left, starting from `acc`. -/
def digitsFold (acc : Nat) (ds : List Nat) : Nat := ds.foldl (fun a b => a * 10 + (b - 48)) acc

/-- A map in ascending key order. -/
abbrev KeySorted {V : Type} (d : List (List Nat × V)) : Prop :=
  d.Pairwise (fun a b => strLess a.1 b.1 = true)

/-- The buffer of the end-to-end scenario. -/
def minimalTorrent : List Nat :=
  bytes "d4:infod4:name3:abce8:announce20:http://tracker.test/e"

/-- The `info` node expected for `minimalTorrent`. -/
def minimalTorrentInfo : bt_node :=
  .dt_dictionary 7 13 [(bytes "name", some (.dt_string 14 5 (bytes "abc")))]

/-- The root node expected for `minimalTorrent`. -/
def minimalTorrentRoot : bt_node :=
  .dt_dictionary 0 54
    [(bytes "announce", some (.dt_string 30 23 (bytes "http://tracker.test/"))),
     (bytes "info", some minimalTorrentInfo)]

/-! ## Reference side: what every decoded tree satisfies, and the trackers -/

mutual
/-- The shape every node made by `Decode` on `m_data` has: it starts inside
the buffer at the byte that selects its branch, it is at least one byte long,
no child of a list is null, and the nodes below it have the same shape. -/
def nodeInv (m_data : List Nat) : bt_node → Bool
  | .dt_string o l _ => decide (o < m_data.length) && decide (1 ≤ l) && isDigit (m_data.getD o 0)
  | .dt_integer o l _ => decide (o < m_data.length) && decide (1 ≤ l) && m_data.getD o 0 == 105
  | .dt_list o l items =>
    decide (o < m_data.length) && decide (1 ≤ l) && m_data.getD o 0 == 108 &&
      itemsInv m_data items
  | .dt_dictionary o l dict =>
    decide (o < m_data.length) && decide (1 ≤ l) && m_data.getD o 0 == 100 &&
      entriesInv m_data dict
/-- The shape of the children of a list: none is null. -/
def itemsInv (m_data : List Nat) : List (Option bt_node) → Bool
  | [] => true
  | none :: _ => false
  | some n :: rest => nodeInv m_data n && itemsInv m_data rest
/-- The shape of the entries of a dictionary: a value may be null. -/
def entriesInv (m_data : List Nat) : List (List Nat × Option bt_node) → Bool
  | [] => true
  | (_, none) :: rest => entriesInv m_data rest
  | (_, some n) :: rest => nodeInv m_data n && entriesInv m_data rest
end

mutual
/-- The string leaves below a node, depth-first in list order through nested
lists; an integer or a dictionary gives nothing. -/
def stringLeaves : bt_node → List (List Nat)
  | .dt_string _ _ s => [s]
  | .dt_list _ _ items => stringLeavesItems items
  | _ => []
/-- The string leaves below the children of a list, in list order. -/
def stringLeavesItems : List (Option bt_node) → List (List Nat)
  | [] => []
  | none :: rest => stringLeavesItems rest
  | some n :: rest => stringLeaves n ++ stringLeavesItems rest
end

/-- The announce strings as the specification words them: the string under
`announce`, when the lookup finds a String, then the string leaves of the
List that the lookup of `announce-list` finds. -/
def announceStrings (m_root : Option bt_node) : List (List Nat) :=
  (match Search (bytes "announce") m_root with
    | some (.dt_string _ _ s) => [s]
    | _ => []) ++
  (match Search (bytes "announce-list") m_root with
    | some (.dt_list _ _ items) => stringLeavesItems items
    | _ => [])

/-- The percent-encoding of one byte as the specification words it: a letter
or digit as it is, any other byte as `%` and two upper-case hex digits. -/
def percentByte (b : Nat) : wstring :=
  if isalnum b then [Char.ofNat b] else ['%', hexUpper (b / 16 % 16), hexUpper (b % 16)]

/-- A file with a tracker that holds the byte `0x80`:
`d8:announce1:<0x80>4:infodee`. -/
def highByteTorrent : List Nat := bytes "d8:announce1:" ++ [128] ++ bytes "4:infodee"

/-- The test of `Read` on the root: a node, of dictionary type, not empty. -/
def acceptRoot : Option bt_node → Bool
  | some (.dt_dictionary _ _ dict) => !dict.isEmpty
  | _ => false

/-- The test `type == bt_node::dt_dictionary`. -/
def isDict : bt_node → Bool
  | .dt_dictionary _ _ _ => true
  | _ => false

/-- A file of exactly 5 MiB: the dictionary with the one key `a` and a
string of 5242867 zero bytes. -/
def ceilingValue : Value := .dict [([97], .str (List.replicate 5242867 0))]

/-- A file with both tracker keys: `announce` is `z`, and `announce-list`
holds the list of `a` and the integer 5, the list of `b`, and a dictionary. -/
def announceTorrent : List Nat :=
  bytes "d8:announce1:z13:announce-listll1:ai5eel1:bed1:c1:deee"

/-- The root node expected for `announceTorrent`. -/
def announceTorrentRoot : bt_node :=
  .dt_dictionary 0 54
    [(bytes "announce", some (.dt_string 11 3 (bytes "z"))),
     (bytes "announce-list", some (.dt_list 30 23
       [some (.dt_list 31 8 [some (.dt_string 32 3 (bytes "a")), some (.dt_integer 35 3 5)]),
        some (.dt_list 39 5 [some (.dt_string 40 3 (bytes "b"))]),
        some (.dt_dictionary 44 8 [(bytes "c", some (.dt_string 48 3 (bytes "d")))])]))]

/-! ## Reference side: nesting, hash text, further files -/

mutual
/-- The number of nested calls of `Decode` that the text of a value takes:
one for the value, and those of its deepest child. -/
def Value.depth : Value → Nat
  | .str _ => 1
  | .int _ => 1
  | .list items => depthItems items + 1
  | .dict entries => depthEntries entries + 1
/-- The largest depth among the items of a list. -/
def depthItems : List Value → Nat
  | [] => 0
  | v :: vs => max v.depth (depthItems vs)
/-- The largest depth among the values of the entries of a dictionary. -/
def depthEntries : List (List Nat × Value) → Nat
  | [] => 0
  | (_, v) :: es => max v.depth (depthEntries es)
end

/-- The value of `n + 1` lists, each the only item of the one around it; its
text is `n + 1` times `l`, then `n + 1` times `e`. -/
def nestedLists : Nat → Value
  | 0 => .list []
  | n + 1 => .list [nestedLists n]

/-- The dictionary with the one key `a` that holds `nestedLists n`; its text
is `d1:a`, the text of the lists, `e`. -/
def deepValue (n : Nat) : Value := .dict [([97], nestedLists n)]

/-- The value of one lower-case hexadecimal digit; no value for any other
character, an upper-case letter included. -/
def hexDigitValue (c : Char) : Option Nat :=
  if 48 ≤ c.toNat ∧ c.toNat ≤ 57 then some (c.toNat - 48)
  else if 97 ≤ c.toNat ∧ c.toNat ≤ 102 then some (c.toNat - 87)
  else none

/-- The bytes that a text of lower-case hexadecimal digits writes, two digits
for a byte, the high one first; none when the text is not of that form. -/
def unhexLower : List Char → Option (List Nat)
  | [] => some []
  | [_] => none
  | hi :: lo :: rest =>
    match hexDigitValue hi, hexDigitValue lo, unhexLower rest with
    | some h, some l, some tail => some ((16 * h + l) :: tail)
    | _, _, _ => none

/-- The SHA-1 digest of the 13 bytes `d4:name3:abce`, worked out apart from
this development: `0c3b1833b425f70628722acc387340ffe0214cf5`. -/
def infoDigest : List Nat :=
  [12, 59, 24, 51, 180, 37, 247, 6, 40, 114, 42, 204, 56, 115, 64, 255, 224, 33, 76, 245]

/-- The root node expected for `highByteTorrent`. -/
def highByteTorrentRoot : bt_node :=
  .dt_dictionary 0 23
    [(bytes "announce", some (.dt_string 11 3 [128])),
     (bytes "info", some (.dt_dictionary 20 2 []))]

/-- A file whose `announce-list` holds the trackers `b` and the single byte
`0x80`: `d13:announce-listl1:b1:<0x80>e4:infodee`. -/
def highByteListTorrent : List Nat :=
  bytes "d13:announce-listl1:b1:" ++ [128] ++ bytes "e4:infodee"

/-- The root node expected for `highByteListTorrent`. -/
def highByteListRoot : bt_node :=
  .dt_dictionary 0 34
    [(bytes "announce-list", some (.dt_list 17 8
       [some (.dt_string 18 3 [98]), some (.dt_string 21 3 [128])])),
     (bytes "info", some (.dt_dictionary 31 2 []))]

/-- A file whose `announce-list` holds two lists, each with the single byte
`0x80` as its tracker: `d13:announce-listll1:<0x80>el1:<0x80>ee4:infodee`. -/
def highByteNestedTorrent : List Nat :=
  bytes "d13:announce-listll1:" ++ [128] ++ bytes "el1:" ++ [128] ++ bytes "ee4:infodee"

/-- The root node expected for `highByteNestedTorrent`. -/
def highByteNestedRoot : bt_node :=
  .dt_dictionary 0 38
    [(bytes "announce-list", some (.dt_list 17 12
       [some (.dt_list 18 5 [some (.dt_string 19 3 [128])]),
        some (.dt_list 23 5 [some (.dt_string 24 3 [128])])])),
     (bytes "info", some (.dt_dictionary 35 2 []))]

/-- A file with the trackers `http://b`, `http://a`, `http://a` in its
`announce-list`. -/
def sortTorrent : List Nat :=
  bytes "d13:announce-listl8:http://b8:http://a8:http://ae4:infodee"

/-- The root node expected for `sortTorrent`. -/
def sortTorrentRoot : bt_node :=
  .dt_dictionary 0 58
    [(bytes "announce-list", some (.dt_list 17 32
       [some (.dt_string 18 10 (bytes "http://b")), some (.dt_string 28 10 (bytes "http://a")),
        some (.dt_string 38 10 (bytes "http://a"))])),
     (bytes "info", some (.dt_dictionary 55 2 []))]

/-- A file with `http://a` under `announce` and, in its `announce-list`, the
list of `http://b` and the list of `http://a`. -/
def splitTorrent : List Nat :=
  bytes "d8:announce8:http://a13:announce-listll8:http://bel8:http://aee4:infodee"

/-- The root node expected for `splitTorrent`. -/
def splitTorrentRoot : bt_node :=
  .dt_dictionary 0 72
    [(bytes "announce", some (.dt_string 11 10 (bytes "http://a"))),
     (bytes "announce-list", some (.dt_list 37 26
       [some (.dt_list 38 12 [some (.dt_string 39 10 (bytes "http://b"))]),
        some (.dt_list 50 12 [some (.dt_string 51 10 (bytes "http://a"))])])),
     (bytes "info", some (.dt_dictionary 69 2 []))]

/-- A file with `http://a` and `http://b` in its `announce-list` and no
`announce`. -/
def flatTorrent : List Nat :=
  bytes "d13:announce-listl8:http://a8:http://be4:infodee"

/-- The root node expected for `flatTorrent`. -/
def flatTorrentRoot : bt_node :=
  .dt_dictionary 0 48
    [(bytes "announce-list", some (.dt_list 17 22
       [some (.dt_string 18 10 (bytes "http://a")), some (.dt_string 28 10 (bytes "http://b"))])),
     (bytes "info", some (.dt_dictionary 45 2 []))]

/-! # Theorems -/

/-! ## Fuel -/

theorem listLoop_mono {dec dec' : Nat → Option (Option bt_node × Nat)} (m_data : List Nat)
    (h : ∀ off r, dec off = some r → dec' off = some r) :
    ∀ (fuel fuel' : Nat) (off : Nat) (acc : List (Option bt_node)) r, fuel ≤ fuel' →
      listLoop dec m_data fuel off acc = some r → listLoop dec' m_data fuel' off acc = some r := by
  intro fuel
  induction fuel with
  | zero => intro fuel' off acc r _ hr; simp [listLoop] at hr
  | succ n ih =>
    intro fuel' off acc r hle hr
    obtain ⟨m, rfl⟩ : ∃ m, fuel' = m + 1 := ⟨fuel' - 1, by omega⟩
    simp only [listLoop] at hr ⊢
    split at hr
    · rename_i hc
      rw [if_pos hc]
      cases hd : dec off with
      | none => simp [hd] at hr
      | some p =>
        obtain ⟨val, off'⟩ := p
        rw [hd] at hr
        rw [h off _ hd]
        exact ih m off' _ r (by omega) hr
    · rename_i hc
      rw [if_neg hc]
      exact hr

theorem dictLoop_mono {dec dec' : Nat → Option (Option bt_node × Nat)} (m_data : List Nat)
    (h : ∀ off r, dec off = some r → dec' off = some r) :
    ∀ (fuel fuel' : Nat) (off : Nat) (acc : List (List Nat × Option bt_node)) r, fuel ≤ fuel' →
      dictLoop dec m_data fuel off acc = some r → dictLoop dec' m_data fuel' off acc = some r := by
  intro fuel
  induction fuel with
  | zero => intro fuel' off acc r _ hr; simp [dictLoop] at hr
  | succ n ih =>
    intro fuel' off acc r hle hr
    obtain ⟨m, rfl⟩ : ∃ m, fuel' = m + 1 := ⟨fuel' - 1, by omega⟩
    simp only [dictLoop] at hr ⊢
    split at hr
    · rename_i hc
      rw [if_pos hc]
      cases hd : dec (ReadString m_data off).2 with
      | none => simp [hd] at hr
      | some p =>
        obtain ⟨val, off'⟩ := p
        simp only [hd] at hr
        simp only [h _ _ hd]
        exact ih m off' _ r (by omega) hr
    · rename_i hc
      rw [if_neg hc]
      exact hr

theorem Decode_mono (atofInt : List Nat → Int) (m_data : List Nat) :
    ∀ (fuel fuel' : Nat) (off : Nat) r, fuel ≤ fuel' →
      Decode atofInt m_data fuel off = some r → Decode atofInt m_data fuel' off = some r := by
  intro fuel
  induction fuel with
  | zero => intro fuel' off r _ hr; simp [Decode] at hr
  | succ n ih =>
    intro fuel' off r hle hr
    obtain ⟨m, rfl⟩ : ∃ m, fuel' = m + 1 := ⟨fuel' - 1, by omega⟩
    have hm : n ≤ m := by omega
    have hdec : ∀ off r, Decode atofInt m_data n off = some r →
        Decode atofInt m_data m off = some r := fun off r => ih m off r hm
    simp only [Decode] at hr ⊢
    split_ifs at hr ⊢ with h1 h2 h3 h4 h5
    · exact hr
    · exact hr
    · exact hr
    · cases hl : listLoop (Decode atofInt m_data n) m_data n (off + 1) [] with
      | none => simp [hl] at hr
      | some p =>
        rw [hl] at hr
        rw [listLoop_mono m_data hdec n m _ _ _ hm hl]
        exact hr
    · cases hl : dictLoop (Decode atofInt m_data n) m_data n (off + 1) [] with
      | none => simp [hl] at hr
      | some p =>
        rw [hl] at hr
        rw [dictLoop_mono m_data hdec n m _ _ _ hm hl]
        exact hr
    · exact hr

/-! ## Decimal texts and the C number readers -/

theorem digitChar_toNat (d : Nat) (h : d < 10) : (Nat.digitChar d).toNat = 48 + d := by
  interval_cases d <;> rfl

theorem isDigit_iff (b : Nat) : isDigit b = true ↔ 48 ≤ b ∧ b ≤ 57 := by
  simp [isDigit]

theorem digitsFold_append (acc : Nat) (xs ys : List Nat) :
    digitsFold acc (xs ++ ys) = digitsFold (digitsFold acc xs) ys := by
  simp [digitsFold, List.foldl_append]

theorem toDigitsCore_spec : ∀ (fuel n : Nat) (ds : List Char), n < fuel →
    ∃ pre : List Char, Nat.toDigitsCore 10 fuel n ds = pre ++ ds ∧ pre ≠ [] ∧
      (∀ c ∈ pre, isDigit c.toNat = true) ∧ digitsFold 0 (pre.map Char.toNat) = n := by
  intro fuel
  induction fuel with
  | zero => intro n ds h; omega
  | succ f ih =>
    intro n ds h
    have hd : (Nat.digitChar (n % 10)).toNat = 48 + n % 10 :=
      digitChar_toNat _ (Nat.mod_lt _ (by decide))
    simp only [Nat.toDigitsCore]
    by_cases h0 : n / 10 = 0
    · rw [if_pos h0]
      refine ⟨[Nat.digitChar (n % 10)], rfl, by simp, ?_, ?_⟩
      · intro c hc
        simp only [List.mem_singleton] at hc
        subst hc
        rw [hd, isDigit_iff]
        omega
      · simp only [List.map, digitsFold, List.foldl, hd]
        omega
    · rw [if_neg h0]
      obtain ⟨pre, hpre, hne, hdig, hval⟩ := ih (n / 10) (Nat.digitChar (n % 10) :: ds) (by omega)
      refine ⟨pre ++ [Nat.digitChar (n % 10)], by simp [hpre], by simp, ?_, ?_⟩
      · intro c hc
        rcases List.mem_append.1 hc with hc | hc
        · exact hdig c hc
        · simp only [List.mem_singleton] at hc
          subst hc
          rw [hd, isDigit_iff]
          omega
      · rw [List.map_append, digitsFold_append, hval]
        simp only [List.map, digitsFold, List.foldl, hd]
        omega

theorem decimal_ne_nil (n : Nat) : decimal n ≠ [] := by
  obtain ⟨pre, hpre, hne, -, -⟩ := toDigitsCore_spec (n + 1) n [] (by omega)
  simp only [decimal, Nat.toDigits, hpre, List.append_nil]
  simpa using hne

theorem decimal_isDigit (n : Nat) : ∀ b ∈ decimal n, isDigit b = true := by
  obtain ⟨pre, hpre, -, hdig, -⟩ := toDigitsCore_spec (n + 1) n [] (by omega)
  simp only [decimal, Nat.toDigits, hpre, List.append_nil]
  intro b hb
  obtain ⟨c, hc, rfl⟩ := List.mem_map.1 hb
  exact hdig c hc

theorem digitsFold_decimal (n : Nat) : digitsFold 0 (decimal n) = n := by
  obtain ⟨pre, hpre, -, -, hval⟩ := toDigitsCore_spec (n + 1) n [] (by omega)
  simpa only [decimal, Nat.toDigits, hpre, List.append_nil] using hval

theorem digitsValue_digits : ∀ (ds : List Nat) (acc : Nat), (∀ b ∈ ds, isDigit b = true) →
    digitsValue acc ds = digitsFold acc ds := by
  intro ds
  induction ds with
  | nil => intro acc _; rfl
  | cons b bs ih =>
    intro acc h
    have hb : isDigit b = true := h b (by simp)
    simp only [digitsValue, hb, if_true]
    rw [ih _ (fun c hc => h c (by simp [hc]))]
    rfl

theorem strToInt_digits (ds : List Nat) (hne : ds ≠ []) (h : ∀ b ∈ ds, isDigit b = true) :
    strToInt ds = (digitsFold 0 ds : Int) := by
  cases ds with
  | nil => exact absurd rfl hne
  | cons b bs =>
    have hb : 48 ≤ b ∧ b ≤ 57 := (isDigit_iff b).1 (h b (by simp))
    have hsp : isspace b = false := by
      simp only [isspace, Bool.or_eq_false_iff, beq_eq_false_iff_ne, Bool.and_eq_false_imp,
        decide_eq_true_eq, decide_eq_false_iff_not]
      omega
    have hdrop : (b :: bs).dropWhile isspace = b :: bs := by
      simp [List.dropWhile, hsp]
    unfold strToInt
    rw [hdrop]
    split
    · rename_i r heq
      injection heq with h1 h2
      omega
    · rename_i r heq
      injection heq with h1 h2
      omega
    · rw [digitsValue_digits _ _ h]

theorem strToInt_minus_digits (ds : List Nat) (h : ∀ b ∈ ds, isDigit b = true) :
    strToInt (45 :: ds) = - (digitsFold 0 ds : Int) := by
  have hdrop : (45 :: ds).dropWhile isspace = 45 :: ds := by
    simp [List.dropWhile, isspace]
  unfold strToInt
  rw [hdrop]
  simp only
  rw [digitsValue_digits _ _ h]

theorem clamp_of_mem (lo hi x : Int) (h1 : lo ≤ x) (h2 : x ≤ hi) : clamp lo hi x = x := by
  unfold clamp
  rw [if_neg (by omega), if_neg (by omega)]

theorem atoi_digits (ds : List Nat) (hne : ds ≠ []) (h : ∀ b ∈ ds, isDigit b = true) :
    atoi ds = min (digitsFold 0 ds : Int) (2 ^ 31 - 1) := by
  unfold atoi
  rw [strToInt_digits ds hne h]
  unfold clamp
  have : (0 : Int) ≤ (digitsFold 0 ds : Int) := Int.ofNat_nonneg _
  split_ifs <;> omega

theorem atoi_decimal (n : Nat) (h : n < 2 ^ 31) : atoi (decimal n) = (n : Int) := by
  rw [atoi_digits _ (decimal_ne_nil n) (decimal_isDigit n), digitsFold_decimal]
  omega

theorem _atoi64_decimalInt (i : Int) (h1 : -(2 ^ 63) ≤ i) (h2 : i < 2 ^ 63) :
    _atoi64 (decimalInt i) = i := by
  unfold _atoi64
  cases i with
  | ofNat n =>
    simp only [decimalInt]
    rw [strToInt_digits _ (decimal_ne_nil n) (decimal_isDigit n), digitsFold_decimal]
    exact clamp_of_mem _ _ _ (by simpa using h1) (by simp at h2 ⊢; omega)
  | negSucc n =>
    simp only [decimalInt]
    rw [strToInt_minus_digits _ (decimal_isDigit (n + 1)), digitsFold_decimal]
    have e : Int.negSucc n = -((n + 1 : Nat) : Int) := rfl
    rw [e] at h1 h2 ⊢
    exact clamp_of_mem _ _ _ h1 (by omega)

theorem takeWhile_append_stop (c : Nat) (ds rest : List Nat) (h : ∀ b ∈ ds, b ≠ c) :
    (ds ++ c :: rest).takeWhile (fun b => b != c) = ds := by
  induction ds with
  | nil => simp [List.takeWhile]
  | cons b bs ih =>
    have hb : b ≠ c := h b (by simp)
    have hb' : (b != c) = true := by simpa using hb
    rw [List.cons_append, List.takeWhile_cons, hb', if_pos rfl,
      ih (fun x hx => h x (by simp [hx]))]

theorem getD_eq_headD_drop (data : List Nat) (off : Nat) :
    data.getD off 0 = (data.drop off).headD 0 := by
  induction data generalizing off with
  | nil => simp
  | cons b bs ih =>
    cases off with
    | zero => simp
    | succ n => simp

theorem length_of_drop_eq (data : List Nat) (off : Nat) (xs : List Nat)
    (h : data.drop off = xs) (hne : xs ≠ []) : data.length = off + xs.length := by
  have h1 : (data.drop off).length = xs.length := by rw [h]
  rw [List.length_drop] at h1
  have : xs.length ≠ 0 := by
    intro h0
    exact hne (List.length_eq_zero.1 h0)
  omega

theorem drop_add_of_drop_eq (data : List Nat) (off : Nat) (xs ys : List Nat)
    (h : data.drop off = xs ++ ys) : data.drop (off + xs.length) = ys := by
  have := congrArg (List.drop xs.length) h
  rw [List.drop_drop, List.drop_left] at this
  rw [← this, Nat.add_comm]

/-! ## The readers on well-delimited text -/

theorem toInt32_of_small (x : Int) (h0 : 0 ≤ x) (h1 : x < 2 ^ 31) : toInt32 x = x := by
  unfold toInt32
  omega

/-- What `ReadString` does on a digit run `ds` followed by `':'` and `rest`. -/
theorem ReadString_digits (data : List Nat) (off : Nat) (ds rest : List Nat)
    (hd : data.drop off = ds ++ 58 :: rest) (hne : ds ≠ [])
    (hdig : ∀ b ∈ ds, isDigit b = true) (hlen : data.length < 2 ^ 31) :
    ReadString data off =
      if digitsFold 0 ds = 0 ∨ rest.length ≤ digitsFold 0 ds then ([], off + ds.length + 1)
      else (rest.take (digitsFold 0 ds), off + ds.length + 1 + digitsFold 0 ds) := by
  have htw : (data.drop off).takeWhile (fun b => b != 58) = ds := by
    rw [hd]
    apply takeWhile_append_stop
    intro b hb
    have := (isDigit_iff b).1 (hdig b hb)
    omega
  have hlen2 : data.length = off + (ds ++ 58 :: rest).length :=
    length_of_drop_eq data off _ hd (by simp)
  simp only [List.length_append, List.length_cons] at hlen2
  have hdrop : data.drop (off + ds.length + 1) = rest := by
    have h1 : data.drop off = (ds ++ [58]) ++ rest := by simp [hd]
    have := drop_add_of_drop_eq data off _ _ h1
    simpa [Nat.add_assoc] using this
  have hrem : toInt32 ((data.length : Int) - ((off + ds.length + 1 : Nat) : Int)) =
      (rest.length : Int) := by
    rw [toInt32_of_small] <;> push_cast <;> omega
  unfold ReadString
  simp only [htw, hrem, hdrop, atoi_digits ds hne hdig]
  by_cases hc : digitsFold 0 ds = 0 ∨ rest.length ≤ digitsFold 0 ds
  · rw [if_pos hc, if_pos]
    rcases hc with hc | hc
    · left; rw [hc]; simp
    · right
      have : rest.length < 2 ^ 31 := by omega
      omega
  · rw [if_neg hc, if_neg]
    · have hmin : min (digitsFold 0 ds : Int) (2 ^ 31 - 1) = (digitsFold 0 ds : Int) := by omega
      rw [hmin, Int.toNat_ofNat]
    · omega

theorem decimalInt_bytes (i : Int) : ∀ b ∈ decimalInt i, b = 45 ∨ (48 ≤ b ∧ b ≤ 57) := by
  intro b hb
  cases i with
  | ofNat n =>
    right
    exact (isDigit_iff b).1 (decimal_isDigit n b hb)
  | negSucc n =>
    simp only [decimalInt, List.mem_cons] at hb
    rcases hb with hb | hb
    · left; exact hb
    · right
      exact (isDigit_iff b).1 (decimal_isDigit _ b hb)

/-- What `ReadInteger` does on the plain decimal text of `i` closed by `'e'`. -/
theorem ReadInteger_decimalInt (atofInt : List Nat → Int) (data : List Nat) (off : Nat)
    (i : Int) (rest : List Nat) (hd : data.drop off = decimalInt i ++ 101 :: rest)
    (h1 : -(2 ^ 63) ≤ i) (h2 : i < 2 ^ 63) :
    ReadInteger atofInt data off = (i, off + (decimalInt i).length + 1) := by
  have htw : (data.drop off).takeWhile (fun b => b != 101) = decimalInt i := by
    rw [hd]
    apply takeWhile_append_stop
    intro b hb
    have := decimalInt_bytes i b hb
    omega
  have hany : (decimalInt i).any (fun b => b == 100 || b == 68 || b == 101 || b == 69) = false := by
    rw [List.any_eq_false]
    intro b hb
    have := decimalInt_bytes i b hb
    simp only [Bool.or_eq_true, beq_iff_eq, not_or]
    omega
  unfold ReadInteger
  simp only [htw, hany, _atoi64_decimalInt i h1 h2]
  simp

theorem encodeStr_length (s : List Nat) :
    (encodeStr s).length = (decimal s.length).length + 1 + s.length := by
  simp [encodeStr]
  omega

/-- On the text of a byte string that is followed by at least one more byte,
`ReadString` returns the string and stops right after it. -/
theorem ReadString_encodeStr (data : List Nat) (off : Nat) (s post : List Nat)
    (hd : data.drop off = encodeStr s ++ post) (hpost : post ≠ [])
    (hlen : data.length < 2 ^ 31) :
    ReadString data off = (s, off + (encodeStr s).length) := by
  have hd' : data.drop off = decimal s.length ++ 58 :: (s ++ post) := by
    simp [hd, encodeStr]
  rw [ReadString_digits data off _ _ hd' (decimal_ne_nil _) (decimal_isDigit _) hlen,
    digitsFold_decimal, encodeStr_length]
  have hp : 0 < post.length := List.length_pos.2 hpost
  by_cases h0 : s.length = 0
  · rw [if_pos (Or.inl h0)]
    have : s = [] := List.length_eq_zero.1 h0
    subst this
    simp [Nat.add_assoc]
  · rw [if_neg]
    · simp [Nat.add_assoc]
    · simp only [List.length_append]
      omega

/-! ## The key order and `std::map::insert` -/

theorem strLess_irrefl : ∀ a : List Nat, strLess a a = false := by
  intro a
  induction a with
  | nil => rfl
  | cons x xs ih => simp [strLess, ih]

theorem strLess_asymm : ∀ a b : List Nat, strLess a b = true → strLess b a = false := by
  intro a
  induction a with
  | nil => intro b h; cases b <;> simp [strLess] at h ⊢
  | cons x xs ih =>
    intro b h
    cases b with
    | nil => simp [strLess] at h
    | cons y ys =>
      simp only [strLess] at h ⊢
      by_cases h1 : x < y
      · rw [if_neg (by omega), if_pos h1]
      · rw [if_neg h1] at h
        by_cases h2 : y < x
        · rw [if_pos h2] at h; exact absurd h (by simp)
        · rw [if_neg h2] at h
          rw [if_neg h2, if_neg h1]
          exact ih ys h

theorem strLess_trans : ∀ a b c : List Nat, strLess a b = true → strLess b c = true →
    strLess a c = true := by
  intro a
  induction a with
  | nil =>
    intro b c h1 h2
    cases b with
    | nil => simp [strLess] at h1
    | cons y ys =>
      cases c with
      | nil => simp [strLess] at h2
      | cons z zs => rfl
  | cons x xs ih =>
    intro b c h1 h2
    cases b with
    | nil => simp [strLess] at h1
    | cons y ys =>
      cases c with
      | nil => simp [strLess] at h2
      | cons z zs =>
        simp only [strLess] at h1 h2 ⊢
        by_cases hxy : x < y
        · by_cases hyz : y < z
          · rw [if_pos (by omega)]
          · rw [if_neg hyz] at h2
            by_cases hzy : z < y
            · rw [if_pos hzy] at h2; exact absurd h2 (by simp)
            · rw [if_pos (by omega)]
        · rw [if_neg hxy] at h1
          by_cases hyx : y < x
          · rw [if_pos hyx] at h1; exact absurd h1 (by simp)
          · rw [if_neg hyx] at h1
            have hxy' : x = y := by omega
            subst hxy'
            by_cases hyz : x < z
            · rw [if_pos hyz]
            · rw [if_neg hyz] at h2 ⊢
              by_cases hzy : z < x
              · rw [if_pos hzy] at h2; exact absurd h2 (by simp)
              · rw [if_neg hzy] at h2 ⊢
                exact ih ys zs h1 h2

theorem strLess_total : ∀ a b : List Nat, strLess a b = false → strLess b a = false → a = b := by
  intro a
  induction a with
  | nil => intro b h1 h2; cases b <;> simp [strLess] at h1 ⊢
  | cons x xs ih =>
    intro b h1 h2
    cases b with
    | nil => simp [strLess] at h2
    | cons y ys =>
      simp only [strLess] at h1 h2
      by_cases hxy : x < y
      · rw [if_pos hxy] at h1; exact absurd h1 (by simp)
      · rw [if_neg hxy] at h1
        by_cases hyx : y < x
        · rw [if_pos hyx] at h2; exact absurd h2 (by simp)
        · rw [if_neg hyx] at h1 h2
          rw [if_neg hxy] at h2
          have : x = y := by omega
          subst this
          rw [ih ys h1 h2]

theorem mapInsert_append {V : Type} : ∀ (d : List (List Nat × V)) (k : List Nat) (v : V),
    (∀ e ∈ d, strLess e.1 k = true) → mapInsert d k v = d ++ [(k, v)] := by
  intro d
  induction d with
  | nil => intro k v _; rfl
  | cons e rest ih =>
    intro k v h
    obtain ⟨k', v'⟩ := e
    have h1 : strLess k' k = true := h (k', v') (by simp)
    have h2 : strLess k k' = false := strLess_asymm _ _ h1
    simp only [mapInsert, h1, h2, if_true, Bool.false_eq_true, if_false, List.cons_append]
    rw [ih k v (fun e he => h e (by simp [he]))]

/-- The map after inserting the entries `es` one by one, as the dictionary
loop does. -/
theorem insertAll_sorted {V : Type} : ∀ (es acc : List (List Nat × V)),
    (acc ++ es).Pairwise (fun a b => strLess a.1 b.1 = true) →
    es.foldl (fun d e => mapInsert d e.1 e.2) acc = acc ++ es := by
  intro es
  induction es with
  | nil => intro acc _; simp
  | cons e rest ih =>
    intro acc h
    simp only [List.foldl]
    have hins : mapInsert acc e.1 e.2 = acc ++ [e] := by
      rw [mapInsert_append]
      intro x hx
      rw [List.pairwise_append] at h
      exact h.2.2 x hx e (by simp)
    rw [hins, ih]
    · simp
    · simpa using h

/-! ## `Decode` on the text of a value -/

theorem head_of_drop (data : List Nat) (off b : Nat) (tl : List Nat)
    (h : data.drop off = b :: tl) : off < data.length ∧ data.getD off 0 = b := by
  constructor
  · have := length_of_drop_eq data off _ h (by simp)
    simp only [List.length_cons] at this
    omega
  · rw [getD_eq_headD_drop, h]
    rfl

theorem decimal_head (n : Nat) : ∃ b tl, decimal n = b :: tl ∧ 48 ≤ b ∧ b ≤ 57 := by
  cases h : decimal n with
  | nil => exact absurd h (decimal_ne_nil n)
  | cons b tl =>
    refine ⟨b, tl, rfl, ?_⟩
    exact (isDigit_iff b).1 (decimal_isDigit n b (by simp [h]))

/-- The text of a value starts with the byte that selects its branch in
`Decode`, which is never `'e'`. -/
theorem encode_head (v : Value) : ∃ b tl, encode v = b :: tl ∧
    ((48 ≤ b ∧ b ≤ 57) ∨ b = 105 ∨ b = 108 ∨ b = 100) := by
  cases v with
  | str s =>
    obtain ⟨b, tl, h, hb⟩ := decimal_head s.length
    exact ⟨b, tl ++ 58 :: s, by simp [encode, encodeStr, h], Or.inl hb⟩
  | int i => exact ⟨105, decimalInt i ++ [101], by simp [encode], by simp⟩
  | list items => exact ⟨108, encodeItems items ++ [101], by simp [encode], by simp⟩
  | dict entries => exact ⟨100, encodeEntries entries ++ [101], by simp [encode], by simp⟩

theorem encode_length_pos (v : Value) : 2 ≤ (encode v).length := by
  cases v with
  | str s =>
    obtain ⟨b, tl, h, -⟩ := decimal_head s.length
    simp [encode, encodeStr, h]
    omega
  | int i => simp [encode]
  | list items => simp [encode]
  | dict entries => simp [encode]

theorem Decode_string (atofInt : List Nat → Int) (data : List Nat) (fuel off : Nat)
    (h1 : off < data.length) (h2 : 48 ≤ data.getD off 0 ∧ data.getD off 0 ≤ 57) :
    Decode atofInt data (fuel + 1) off =
      some (some (.dt_string off ((ReadString data off).2 - off) (ReadString data off).1),
        (ReadString data off).2) := by
  simp only [Decode]
  rw [if_neg (by omega), if_pos (by omega)]

theorem Decode_integer (atofInt : List Nat → Int) (data : List Nat) (fuel off : Nat)
    (h1 : off < data.length) (h2 : data.getD off 0 = 105) :
    Decode atofInt data (fuel + 1) off =
      some (some (.dt_integer off ((ReadInteger atofInt data (off + 1)).2 - off)
        (ReadInteger atofInt data (off + 1)).1), (ReadInteger atofInt data (off + 1)).2) := by
  simp only [Decode]
  rw [if_neg (by omega), if_neg (by omega), if_pos h2]

theorem Decode_list (atofInt : List Nat → Int) (data : List Nat) (fuel off : Nat)
    (h1 : off < data.length) (h2 : data.getD off 0 = 108)
    (list : List (Option bt_node)) (off' : Nat)
    (hl : listLoop (Decode atofInt data fuel) data fuel (off + 1) [] = some (list, off')) :
    Decode atofInt data (fuel + 1) off =
      some (some (.dt_list off (off' + 1 - off) list), off' + 1) := by
  simp only [Decode]
  rw [if_neg (by omega), if_neg (by omega), if_neg (by omega), if_pos h2, hl]

theorem Decode_list_none (atofInt : List Nat → Int) (data : List Nat) (fuel off : Nat)
    (h1 : off < data.length) (h2 : data.getD off 0 = 108)
    (hl : listLoop (Decode atofInt data fuel) data fuel (off + 1) [] = none) :
    Decode atofInt data (fuel + 1) off = none := by
  simp only [Decode]
  rw [if_neg (by omega), if_neg (by omega), if_neg (by omega), if_pos h2, hl]

theorem Decode_dictionary (atofInt : List Nat → Int) (data : List Nat) (fuel off : Nat)
    (h1 : off < data.length) (h2 : data.getD off 0 = 100)
    (dict : List (List Nat × Option bt_node)) (off' : Nat)
    (hl : dictLoop (Decode atofInt data fuel) data fuel (off + 1) [] = some (dict, off')) :
    Decode atofInt data (fuel + 1) off =
      some (some (.dt_dictionary off (off' + 1 - off) dict), off' + 1) := by
  simp only [Decode]
  rw [if_neg (by omega), if_neg (by omega), if_neg (by omega), if_neg (by omega), if_pos h2, hl]

/-- The list loop over the texts of `items`, each of them decoded as
expected by the recursive call. -/
theorem listLoop_items (dec : Nat → Option (Option bt_node × Nat)) (data : List Nat) :
    ∀ (items : List Value) (fuel off : Nat) (acc : List (Option bt_node)) (post : List Nat),
      (∀ v ∈ items, ∀ o p, data.drop o = encode v ++ p → p ≠ [] →
        dec o = some (some (treeAt v o), o + (encode v).length)) →
      data.drop off = encodeItems items ++ 101 :: post → items.length < fuel →
      listLoop dec data fuel off acc =
        some (acc ++ itemsAt items off, off + (encodeItems items).length) := by
  intro items
  induction items with
  | nil =>
    intro fuel off acc post _ hd hf
    obtain ⟨m, rfl⟩ : ∃ m, fuel = m + 1 := ⟨fuel - 1, by simp at hf; omega⟩
    simp only [encodeItems, List.nil_append] at hd
    obtain ⟨h1, h2⟩ := head_of_drop data off _ _ hd
    simp only [listLoop]
    rw [if_neg (fun h => h.2 h2)]
    simp [itemsAt, encodeItems]
  | cons v vs ih =>
    intro fuel off acc post hdec hd hf
    obtain ⟨m, rfl⟩ : ∃ m, fuel = m + 1 := ⟨fuel - 1, by simp at hf; omega⟩
    obtain ⟨b, tl, hb, hb'⟩ := encode_head v
    have hd1 : data.drop off = encode v ++ (encodeItems vs ++ 101 :: post) := by
      simp [hd, encodeItems]
    have hd2 : data.drop off = b :: (tl ++ (encodeItems vs ++ 101 :: post)) := by
      rw [hd1, hb]; rfl
    obtain ⟨h1, h2⟩ := head_of_drop data off _ _ hd2
    simp only [listLoop]
    rw [if_pos ⟨h1, by omega⟩, hdec v (by simp) off _ hd1 (by simp)]
    simp only
    rw [ih m _ _ post (fun w hw => hdec w (by simp [hw]))
      (drop_add_of_drop_eq data off _ _ hd1) (by simp at hf; omega)]
    simp [itemsAt, encodeItems, Nat.add_assoc]

/-- The dictionary loop over the texts of `es`, each value decoded as expected
by the recursive call: the entries go through `insert` in text order. -/
theorem dictLoop_entries (dec : Nat → Option (Option bt_node × Nat)) (data : List Nat)
    (hlen : data.length < 2 ^ 31) :
    ∀ (es : List (List Nat × Value)) (fuel off : Nat)
      (acc : List (List Nat × Option bt_node)) (post : List Nat),
      (∀ e ∈ es, ∀ o p, data.drop o = encode e.2 ++ p → p ≠ [] →
        dec o = some (some (treeAt e.2 o), o + (encode e.2).length)) →
      data.drop off = encodeEntries es ++ 101 :: post → es.length < fuel →
      dictLoop dec data fuel off acc =
        some ((entriesAt es off).foldl (fun d e => mapInsert d e.1 e.2) acc,
          off + (encodeEntries es).length) := by
  intro es
  induction es with
  | nil =>
    intro fuel off acc post _ hd hf
    obtain ⟨m, rfl⟩ : ∃ m, fuel = m + 1 := ⟨fuel - 1, by simp at hf; omega⟩
    simp only [encodeEntries, List.nil_append] at hd
    obtain ⟨h1, h2⟩ := head_of_drop data off _ _ hd
    simp only [dictLoop]
    rw [if_neg (fun h => h.2 h2)]
    simp [entriesAt, encodeEntries]
  | cons e es ih =>
    intro fuel off acc post hdec hd hf
    obtain ⟨k, v⟩ := e
    obtain ⟨m, rfl⟩ : ∃ m, fuel = m + 1 := ⟨fuel - 1, by simp at hf; omega⟩
    obtain ⟨b, tl, hb, hb'⟩ := decimal_head k.length
    have hd1 : data.drop off = encodeStr k ++ (encode v ++ (encodeEntries es ++ 101 :: post)) := by
      simp [hd, encodeEntries]
    have hd2 : data.drop off =
        b :: (tl ++ 58 :: k ++ (encode v ++ (encodeEntries es ++ 101 :: post))) := by
      rw [hd1, encodeStr, hb]; simp
    obtain ⟨h1, h2⟩ := head_of_drop data off _ _ hd2
    have hv : data.drop (off + (encodeStr k).length) =
        encode v ++ (encodeEntries es ++ 101 :: post) :=
      drop_add_of_drop_eq data off _ _ hd1
    have hne : encode v ++ (encodeEntries es ++ 101 :: post) ≠ [] := by simp
    simp only [dictLoop]
    rw [if_pos ⟨h1, by omega⟩, ReadString_encodeStr data off k _ hd1 hne hlen]
    simp only
    rw [hdec (k, v) (by simp) _ _ hv (by simp)]
    simp only
    rw [ih m _ _ post (fun w hw => hdec w (by simp [hw]))
      (drop_add_of_drop_eq data _ _ _ hv) (by simp at hf; omega)]
    simp [entriesAt, encodeEntries, Nat.add_assoc]

theorem wfItems_mem : ∀ (items : List Value), wfItems items = true → ∀ v ∈ items, v.wf = true := by
  intro items
  induction items with
  | nil => intro _ v hv; simp at hv
  | cons w ws ih =>
    intro h v hv
    simp only [wfItems, Bool.and_eq_true] at h
    rcases List.mem_cons.1 hv with rfl | hv
    · exact h.1
    · exact ih h.2 v hv

theorem wfEntries_mem : ∀ (es : List (List Nat × Value)), wfEntries es = true →
    ∀ e ∈ es, e.2.wf = true := by
  intro es
  induction es with
  | nil => intro _ e he; simp at he
  | cons w ws ih =>
    intro h e he
    obtain ⟨k, v⟩ := w
    simp only [wfEntries, Bool.and_eq_true] at h
    rcases List.mem_cons.1 he with rfl | he
    · exact h.1
    · exact ih h.2 e he

theorem encodeItems_length : ∀ (items : List Value),
    items.length ≤ (encodeItems items).length ∧
      ∀ v ∈ items, (encode v).length ≤ (encodeItems items).length := by
  intro items
  induction items with
  | nil => simp [encodeItems]
  | cons w ws ih =>
    have hw := encode_length_pos w
    simp only [encodeItems, List.length_append, List.length_cons, List.mem_cons]
    refine ⟨by omega, ?_⟩
    intro v hv
    rcases hv with rfl | hv
    · omega
    · have := ih.2 v hv
      omega

theorem encodeEntries_length : ∀ (es : List (List Nat × Value)),
    es.length ≤ (encodeEntries es).length ∧
      ∀ e ∈ es, (encode e.2).length ≤ (encodeEntries es).length := by
  intro es
  induction es with
  | nil => simp [encodeEntries]
  | cons w ws ih =>
    obtain ⟨k, v⟩ := w
    have hw := encode_length_pos v
    simp only [encodeEntries, List.length_append, List.length_cons, List.mem_cons]
    refine ⟨by omega, ?_⟩
    intro e he
    rcases he with rfl | he
    · simp only
      omega
    · have := ih.2 e he
      omega

theorem entriesAt_keys : ∀ (es : List (List Nat × Value)) (off : Nat),
    (entriesAt es off).map (fun e => e.1) = keysOf es := by
  intro es
  induction es with
  | nil => intro off; rfl
  | cons w ws ih =>
    intro off
    obtain ⟨k, v⟩ := w
    simp [entriesAt, keysOf, ih]

theorem entriesAt_sorted (es : List (List Nat × Value)) (off : Nat)
    (h : (keysOf es).Pairwise (fun a b => strLess a b = true)) :
    (entriesAt es off).Pairwise (fun a b => strLess a.1 b.1 = true) := by
  rw [← entriesAt_keys es off, List.pairwise_map] at h
  exact h

/-- Decoding the text of a well-formed value: with fuel for the length of the
text, `Decode` returns the expected tree and stops right after the text. A
byte string must be followed by at least one more byte. -/
theorem Decode_encode (atofInt : List Nat → Int) (data : List Nat)
    (hlen : data.length < 2 ^ 31) :
    ∀ (fuel : Nat) (v : Value) (off : Nat) (post : List Nat), v.wf = true →
      (encode v).length ≤ fuel → data.drop off = encode v ++ post →
      (∀ s, v = .str s → post ≠ []) →
      Decode atofInt data fuel off = some (some (treeAt v off), off + (encode v).length) := by
  intro fuel
  induction fuel with
  | zero =>
    intro v off post _ hf _ _
    have := encode_length_pos v
    omega
  | succ f ih =>
    intro v off post hwf hf hd hstr
    cases v with
    | str s =>
      simp only [encode] at hd hf ⊢
      obtain ⟨b, tl, hb, hb'⟩ := decimal_head s.length
      have hd2 : data.drop off = b :: (tl ++ 58 :: s ++ post) := by
        rw [hd, encodeStr, hb]; simp
      obtain ⟨h1, h2⟩ := head_of_drop data off _ _ hd2
      rw [Decode_string atofInt data f off h1 (by omega),
        ReadString_encodeStr data off s post hd (hstr s rfl) hlen]
      simp [treeAt]
    | int i =>
      simp only [encode, List.length_cons, List.length_append, List.length_singleton,
        List.length_nil] at hd hf ⊢
      simp only [Value.wf, decide_eq_true_eq] at hwf
      have hd2 : data.drop off = [105] ++ (decimalInt i ++ 101 :: post) := by
        simp [hd]
      obtain ⟨h1, h2⟩ := head_of_drop data off 105 _ hd2
      have hd3 : data.drop (off + 1) = _ := drop_add_of_drop_eq data off _ _ hd2
      rw [Decode_integer atofInt data f off h1 h2,
        ReadInteger_decimalInt atofInt data _ i post hd3 hwf.1 hwf.2]
      simp only [treeAt, List.length_cons, List.length_append, List.length_nil, List.length_singleton]
      simp only [Option.some.injEq, Prod.mk.injEq, bt_node.dt_integer.injEq,
        bt_node.dt_list.injEq, bt_node.dt_dictionary.injEq, true_and, and_true]
      omega
    | list items =>
      simp only [encode, List.length_cons, List.length_append, List.length_singleton,
        List.length_nil] at hd hf ⊢
      simp only [Value.wf] at hwf
      have hd2 : data.drop off = [108] ++ (encodeItems items ++ 101 :: post) := by
        simp [hd]
      obtain ⟨h1, h2⟩ := head_of_drop data off 108 _ hd2
      have hd3 : data.drop (off + 1) = _ := drop_add_of_drop_eq data off _ _ hd2
      have hlens := encodeItems_length items
      have hloop := listLoop_items (Decode atofInt data f) data items f (off + 1) [] post
        (fun v hv o p hdo hp => ih v o p (wfItems_mem items hwf v hv)
          (by have := hlens.2 v hv; omega) hdo (fun _ _ => hp))
        hd3 (by omega)
      rw [Decode_list atofInt data f off h1 h2 _ _ hloop]
      simp only [treeAt, List.nil_append]
      simp only [Option.some.injEq, Prod.mk.injEq, bt_node.dt_integer.injEq,
        bt_node.dt_list.injEq, bt_node.dt_dictionary.injEq, true_and, and_true]
      omega
    | dict es =>
      simp only [encode, List.length_cons, List.length_append, List.length_singleton,
        List.length_nil] at hd hf ⊢
      simp only [Value.wf, Bool.and_eq_true, decide_eq_true_eq] at hwf
      have hd2 : data.drop off = [100] ++ (encodeEntries es ++ 101 :: post) := by
        simp [hd]
      obtain ⟨h1, h2⟩ := head_of_drop data off 100 _ hd2
      have hd3 : data.drop (off + 1) = _ := drop_add_of_drop_eq data off _ _ hd2
      have hlens := encodeEntries_length es
      have hloop := dictLoop_entries (Decode atofInt data f) data hlen es f (off + 1) [] post
        (fun e he o p hdo hp => ih e.2 o p (wfEntries_mem es hwf.1 e he)
          (by have := hlens.2 e he; omega) hdo (fun _ _ => hp))
        hd3 (by omega)
      rw [insertAll_sorted _ [] (by simpa using entriesAt_sorted es (off + 1) hwf.2)] at hloop
      rw [Decode_dictionary atofInt data f off h1 h2 _ _ hloop]
      simp only [treeAt, List.nil_append]
      simp only [Option.some.injEq, Prod.mk.injEq, bt_node.dt_integer.injEq,
        bt_node.dt_list.injEq, bt_node.dt_dictionary.injEq, true_and, and_true]
      omega

/-! ## The expected tree: its value and its spans -/

theorem valueItems_itemsAt : ∀ (items : List Value) (off : Nat),
    (∀ v ∈ items, ∀ o, (treeAt v o).value = v) → valueItems (itemsAt items off) = items := by
  intro items
  induction items with
  | nil => intro off _; rfl
  | cons w ws ih =>
    intro off h
    simp only [itemsAt, valueItems]
    rw [h w (by simp), ih _ (fun v hv => h v (by simp [hv]))]

theorem valueEntries_entriesAt : ∀ (es : List (List Nat × Value)) (off : Nat),
    (∀ e ∈ es, ∀ o, (treeAt e.2 o).value = e.2) → valueEntries (entriesAt es off) = es := by
  intro es
  induction es with
  | nil => intro off _; rfl
  | cons w ws ih =>
    intro off h
    obtain ⟨k, v⟩ := w
    simp only [entriesAt, valueEntries]
    rw [h (k, v) (by simp), ih _ (fun e he => h e (by simp [he]))]

theorem treeAt_value_aux : ∀ (n : Nat) (v : Value), (encode v).length ≤ n →
    ∀ off, (treeAt v off).value = v := by
  intro n
  induction n with
  | zero =>
    intro v h
    have := encode_length_pos v
    omega
  | succ n ih =>
    intro v h off
    cases v with
    | str s => rfl
    | int i => rfl
    | list items =>
      simp only [encode, List.length_cons, List.length_append, List.length_singleton] at h
      simp only [treeAt, bt_node.value]
      rw [valueItems_itemsAt]
      intro v hv o
      exact ih v (by have := (encodeItems_length items).2 v hv; omega) o
    | dict es =>
      simp only [encode, List.length_cons, List.length_append, List.length_singleton] at h
      simp only [treeAt, bt_node.value]
      rw [valueEntries_entriesAt]
      intro e he o
      exact ih e.2 (by have := (encodeEntries_length es).2 e he; omega) o

/-- Dropping the spans of the expected tree gives the value back. -/
theorem treeAt_value (v : Value) (off : Nat) : (treeAt v off).value = v :=
  treeAt_value_aux _ v (Nat.le_refl _) off

theorem treeAt_offset (v : Value) (off : Nat) : (treeAt v off).offset = off := by
  cases v <;> rfl

theorem treeAt_length (v : Value) (off : Nat) : (treeAt v off).length = (encode v).length := by
  cases v <;> simp [treeAt, bt_node.length, encode]

theorem slice_of_drop (data : List Nat) (off : Nat) (xs post : List Nat)
    (h : data.drop off = xs ++ post) : slice data off xs.length = xs := by
  simp [slice, h]

theorem nodesItems_spans (data : List Nat) : ∀ (items : List Value) (off : Nat) (post : List Nat),
    (∀ v ∈ items, ∀ o p, data.drop o = encode v ++ p →
      ∀ x ∈ (treeAt v o).nodes, slice data x.offset x.length = encode x.value) →
    data.drop off = encodeItems items ++ post →
    ∀ x ∈ nodesItems (itemsAt items off), slice data x.offset x.length = encode x.value := by
  intro items
  induction items with
  | nil => intro off post _ _ x hx; simp [itemsAt, nodesItems] at hx
  | cons w ws ih =>
    intro off post h hd x hx
    have hd1 : data.drop off = encode w ++ (encodeItems ws ++ post) := by
      simp [hd, encodeItems]
    simp only [itemsAt, nodesItems, List.mem_append] at hx
    rcases hx with hx | hx
    · exact h w (by simp) off _ hd1 x hx
    · exact ih _ post (fun v hv => h v (by simp [hv])) (drop_add_of_drop_eq data off _ _ hd1) x hx

theorem nodesEntries_spans (data : List Nat) :
    ∀ (es : List (List Nat × Value)) (off : Nat) (post : List Nat),
    (∀ e ∈ es, ∀ o p, data.drop o = encode e.2 ++ p →
      ∀ x ∈ (treeAt e.2 o).nodes, slice data x.offset x.length = encode x.value) →
    data.drop off = encodeEntries es ++ post →
    ∀ x ∈ nodesEntries (entriesAt es off), slice data x.offset x.length = encode x.value := by
  intro es
  induction es with
  | nil => intro off post _ _ x hx; simp [entriesAt, nodesEntries] at hx
  | cons w ws ih =>
    intro off post h hd x hx
    obtain ⟨k, v⟩ := w
    have hd1 : data.drop off = encodeStr k ++ (encode v ++ (encodeEntries ws ++ post)) := by
      simp [hd, encodeEntries]
    have hd2 := drop_add_of_drop_eq data off _ _ hd1
    simp only [entriesAt, nodesEntries, List.mem_append] at hx
    rcases hx with hx | hx
    · exact h (k, v) (by simp) _ _ hd2 x hx
    · exact ih _ post (fun e he => h e (by simp [he]))
        (drop_add_of_drop_eq data _ _ _ hd2) x hx

theorem treeAt_spans_aux (data : List Nat) : ∀ (n : Nat) (v : Value), (encode v).length ≤ n →
    ∀ off post, data.drop off = encode v ++ post →
    ∀ x ∈ (treeAt v off).nodes, slice data x.offset x.length = encode x.value := by
  intro n
  induction n with
  | zero =>
    intro v h
    have := encode_length_pos v
    omega
  | succ n ih =>
    intro v h off post hd x hx
    have hself : slice data (treeAt v off).offset (treeAt v off).length =
        encode (treeAt v off).value := by
      rw [treeAt_offset, treeAt_length, treeAt_value]
      exact slice_of_drop data off _ post hd
    cases v with
    | str s =>
      simp only [treeAt, bt_node.nodes, List.mem_singleton] at hx
      subst hx
      exact hself
    | int i =>
      simp only [treeAt, bt_node.nodes, List.mem_singleton] at hx
      subst hx
      exact hself
    | list items =>
      simp only [encode, List.length_cons, List.length_append, List.length_singleton] at h
      have hx' : x = treeAt (.list items) off ∨ x ∈ nodesItems (itemsAt items (off + 1)) := by
        simpa [treeAt, bt_node.nodes] using hx
      rcases hx' with rfl | hx'
      · exact hself
      · have hd2 : data.drop off = [108] ++ (encodeItems items ++ (101 :: post)) := by
          simp [hd, encode]
        have hd3 : data.drop (off + 1) = _ := drop_add_of_drop_eq data off _ _ hd2
        exact nodesItems_spans data items (off + 1) _
          (fun v hv o p hdo => ih v (by have := (encodeItems_length items).2 v hv; omega) o p hdo)
          hd3 x hx'
    | dict es =>
      simp only [encode, List.length_cons, List.length_append, List.length_singleton] at h
      have hx' : x = treeAt (.dict es) off ∨ x ∈ nodesEntries (entriesAt es (off + 1)) := by
        simpa [treeAt, bt_node.nodes] using hx
      rcases hx' with rfl | hx'
      · exact hself
      · have hd2 : data.drop off = [100] ++ (encodeEntries es ++ (101 :: post)) := by
          simp [hd, encode]
        have hd3 : data.drop (off + 1) = _ := drop_add_of_drop_eq data off _ _ hd2
        exact nodesEntries_spans data es (off + 1) _
          (fun e he o p hdo => ih e.2 (by have := (encodeEntries_length es).2 e he; omega) o p hdo)
          hd3 x hx'

/-- Every node of the expected tree spans exactly the text of its value. -/
theorem treeAt_spans (data : List Nat) (v : Value) (off : Nat) (post : List Nat)
    (hd : data.drop off = encode v ++ post) :
    ∀ x ∈ (treeAt v off).nodes, slice data x.offset x.length = encode x.value :=
  treeAt_spans_aux data _ v (Nat.le_refl _) off post hd

/-! ## Duplicate keys: `insert` keeps the first entry -/

theorem strLess_ne (a b : List Nat) (h : strLess a b = true) : a ≠ b := by
  intro e
  subst e
  rw [strLess_irrefl] at h
  exact absurd h (by simp)

theorem mapInsert_mem {V : Type} : ∀ (d : List (List Nat × V)) (k : List Nat) (v : V),
    KeySorted d → ∀ e, e ∈ mapInsert d k v ↔ (e ∈ d ∨ (e = (k, v) ∧ ∀ x ∈ d, x.1 ≠ k)) := by
  intro d
  induction d with
  | nil => intro k v _ e; simp [mapInsert]
  | cons x rest ih =>
    intro k v hs e
    obtain ⟨k', v'⟩ := x
    have hs' : KeySorted rest := (List.pairwise_cons.1 hs).2
    have hlt : ∀ y ∈ rest, strLess k' y.1 = true := (List.pairwise_cons.1 hs).1
    simp only [mapInsert]
    by_cases h1 : strLess k k' = true
    · rw [if_pos h1]
      have hno : ∀ y ∈ (k', v') :: rest, y.1 ≠ k := by
        intro y hy
        rcases List.mem_cons.1 hy with rfl | hy
        · exact fun e => strLess_ne _ _ h1 e.symm
        · exact fun e => strLess_ne _ _ (strLess_trans _ _ _ h1 (hlt y hy)) e.symm
      constructor
      · intro he
        rcases List.mem_cons.1 he with rfl | he
        · exact Or.inr ⟨rfl, hno⟩
        · exact Or.inl he
      · intro he
        rcases he with he | ⟨rfl, -⟩
        · exact List.mem_cons_of_mem _ he
        · exact List.mem_cons_self _ _
    · rw [if_neg h1]
      by_cases h2 : strLess k' k = true
      · rw [if_pos h2, List.mem_cons, ih k v hs' e]
        have hne : k' ≠ k := strLess_ne _ _ h2
        constructor
        · intro he
          rcases he with rfl | he | ⟨rfl, hno⟩
          · exact Or.inl (List.mem_cons_self _ _)
          · exact Or.inl (List.mem_cons_of_mem _ he)
          · refine Or.inr ⟨rfl, ?_⟩
            intro y hy
            rcases List.mem_cons.1 hy with rfl | hy
            · exact hne
            · exact hno y hy
        · intro he
          rcases he with he | ⟨rfl, hno⟩
          · rcases List.mem_cons.1 he with rfl | he
            · exact Or.inl rfl
            · exact Or.inr (Or.inl he)
          · exact Or.inr (Or.inr ⟨rfl, fun y hy => hno y (List.mem_cons_of_mem _ hy)⟩)
      · rw [if_neg h2]
        have hk : k = k' := strLess_total _ _ (by simpa using h1) (by simpa using h2)
        constructor
        · intro he
          exact Or.inl he
        · intro he
          rcases he with he | ⟨-, hno⟩
          · exact he
          · exact absurd hk.symm (hno (k', v') (List.mem_cons_self _ _))

theorem mapInsert_sorted {V : Type} : ∀ (d : List (List Nat × V)) (k : List Nat) (v : V),
    KeySorted d → KeySorted (mapInsert d k v) := by
  intro d
  induction d with
  | nil => intro k v _; simp [mapInsert, KeySorted]
  | cons x rest ih =>
    intro k v hs
    obtain ⟨k', v'⟩ := x
    have hs' : KeySorted rest := (List.pairwise_cons.1 hs).2
    have hlt : ∀ y ∈ rest, strLess k' y.1 = true := (List.pairwise_cons.1 hs).1
    simp only [mapInsert]
    by_cases h1 : strLess k k' = true
    · rw [if_pos h1]
      refine List.pairwise_cons.2 ⟨?_, hs⟩
      intro y hy
      rcases List.mem_cons.1 hy with rfl | hy
      · exact h1
      · exact strLess_trans _ _ _ h1 (hlt y hy)
    · rw [if_neg h1]
      by_cases h2 : strLess k' k = true
      · rw [if_pos h2]
        refine List.pairwise_cons.2 ⟨?_, ih k v hs'⟩
        intro y hy
        rcases (mapInsert_mem rest k v hs' y).1 hy with hy | ⟨rfl, -⟩
        · exact hlt y hy
        · exact h2
      · rw [if_neg h2]
        exact hs

theorem insertAll_facts {V : Type} : ∀ (xs acc : List (List Nat × V)), KeySorted acc →
    KeySorted (xs.foldl (fun d e => mapInsert d e.1 e.2) acc) ∧
    (∀ e ∈ acc, e ∈ xs.foldl (fun d e => mapInsert d e.1 e.2) acc) ∧
    (∀ e ∈ xs.foldl (fun d e => mapInsert d e.1 e.2) acc,
      e ∈ acc ∨ (e ∈ xs ∧ ∀ y ∈ acc, y.1 ≠ e.1)) := by
  intro xs
  induction xs with
  | nil => intro acc hs; simp [hs]
  | cons x rest ih =>
    intro acc hs
    simp only [List.foldl]
    obtain ⟨h1, h2, h3⟩ := ih (mapInsert acc x.1 x.2) (mapInsert_sorted acc x.1 x.2 hs)
    refine ⟨h1, ?_, ?_⟩
    · intro e he
      exact h2 e ((mapInsert_mem acc x.1 x.2 hs e).2 (Or.inl he))
    · intro e he
      rcases h3 e he with he' | ⟨he', hno⟩
      · rcases (mapInsert_mem acc x.1 x.2 hs e).1 he' with he'' | ⟨rfl, hno'⟩
        · exact Or.inl he''
        · exact Or.inr ⟨List.mem_cons_self _ _, hno'⟩
      · refine Or.inr ⟨List.mem_cons_of_mem _ he', ?_⟩
        intro y hy
        exact hno y ((mapInsert_mem acc x.1 x.2 hs y).2 (Or.inl hy))

/-- After inserting `xs1 ++ (k, v) :: xs2` into the empty map, where no key of
`xs1` is `k`, the map holds `(k, v)` and no other entry for `k`. -/
theorem insertAll_first {V : Type} (xs1 xs2 : List (List Nat × V)) (k : List Nat) (v : V)
    (hno : ∀ e ∈ xs1, e.1 ≠ k) :
    (k, v) ∈ (xs1 ++ (k, v) :: xs2).foldl (fun d e => mapInsert d e.1 e.2) [] ∧
    ∀ e ∈ (xs1 ++ (k, v) :: xs2).foldl (fun d e => mapInsert d e.1 e.2) [], e.1 = k →
      e = (k, v) := by
  rw [List.foldl_append, List.foldl_cons]
  obtain ⟨s1, -, m1⟩ := insertAll_facts xs1 ([] : List (List Nat × V)) (by simp [KeySorted])
  have hk1 : ∀ y ∈ xs1.foldl (fun d e => mapInsert d e.1 e.2) [], y.1 ≠ k := by
    intro y hy
    rcases m1 y hy with h | ⟨h, -⟩
    · simp at h
    · exact hno y h
  have s2 := mapInsert_sorted _ k v s1
  have hin : (k, v) ∈ mapInsert (xs1.foldl (fun d e => mapInsert d e.1 e.2) []) k v :=
    (mapInsert_mem _ k v s1 _).2 (Or.inr ⟨rfl, hk1⟩)
  obtain ⟨-, k3, m3⟩ := insertAll_facts xs2 _ s2
  refine ⟨k3 _ hin, ?_⟩
  intro e he hek
  rcases m3 e he with h | ⟨-, h⟩
  · rcases (mapInsert_mem _ k v s1 e).1 h with h' | ⟨h', -⟩
    · exact absurd hek (hk1 e h')
    · exact h'
  · exact absurd hek.symm (h (k, v) hin)

theorem entriesAt_append : ∀ (es1 es2 : List (List Nat × Value)) (off : Nat),
    entriesAt (es1 ++ es2) off =
      entriesAt es1 off ++ entriesAt es2 (off + (encodeEntries es1).length) := by
  intro es1
  induction es1 with
  | nil => intro es2 off; simp [entriesAt, encodeEntries]
  | cons x rest ih =>
    intro es2 off
    obtain ⟨k, v⟩ := x
    have e : (k, v) :: rest ++ es2 = (k, v) :: (rest ++ es2) := rfl
    rw [e]
    simp only [entriesAt, encodeEntries, List.length_append, List.cons_append]
    rw [ih]
    simp only [Nat.add_assoc]

theorem entriesAt_key_mem : ∀ (es : List (List Nat × Value)) (off : Nat),
    ∀ e ∈ entriesAt es off, ∃ x ∈ es, x.1 = e.1 := by
  intro es
  induction es with
  | nil => intro off e he; simp [entriesAt] at he
  | cons x rest ih =>
    intro off e he
    obtain ⟨k, v⟩ := x
    simp only [entriesAt, List.mem_cons] at he
    rcases he with rfl | he
    · exact ⟨(k, v), by simp, rfl⟩
    · obtain ⟨y, hy, hye⟩ := ih _ e he
      exact ⟨y, by simp [hy], hye⟩

/-! ## The magnet string when the hash can be taken -/

theorem hex02x_flatMap_length (l : List Nat) : (l.flatMap hex02x).length = 2 * l.length := by
  induction l with
  | nil => rfl
  | cons b bs ih =>
    simp only [List.flatMap_cons, List.length_append, ih, hex02x, List.length_cons,
      List.length_nil]
    omega

theorem hexLower_mem (n : Nat) : hexLower n ∈ "0123456789abcdef".toList := by
  unfold hexLower
  by_cases h : n < 16
  · interval_cases n <;> decide
  · have : "0123456789abcdef".toList.getD n '0' = '0' := by
      rw [List.getD_eq_default]
      have : "0123456789abcdef".toList.length = 16 := by decide
      omega
    rw [this]
    decide

/-- The hash text is made of lower-case hexadecimal digits, two per byte. -/
theorem hashText_digits (l : List Nat) :
    (l.flatMap hex02x).length = 2 * l.length ∧
      ∀ c ∈ l.flatMap hex02x, c ∈ "0123456789abcdef".toList := by
  refine ⟨hex02x_flatMap_length l, ?_⟩
  intro c hc
  obtain ⟨b, -, hb⟩ := List.mem_flatMap.1 hc
  simp only [hex02x, List.mem_cons, List.mem_singleton, List.not_mem_nil, or_false] at hb
  rcases hb with rfl | rfl <;> exact hexLower_mem _

/-- With the info span inside the buffer and every tracker byte encodable,
`Magnet` is the prefix, the hash text of the info bytes, then the encoded
trackers. -/
theorem Magnet_of_info (sha1 : List Nat → List Nat) (data : List Nat) (m_root : Option bt_node)
    (offset length : Nat) (dict : List (List Nat × Option bt_node))
    (list : List (List Nat)) (trackers : wstring)
    (hinfo : Search (bytes "info") m_root = some (.dt_dictionary offset length dict))
    (hin : offset + length ≤ data.length)
    (hsha : (sha1 (slice data offset length)).length = 20)
    (hcol : collectAnnounce m_root = some list)
    (henc : encodeList (unique (sort list)) = some trackers) :
    Magnet sha1 data m_root =
      some ("magnet:?xt=urn:btih:".toList ++
        (sha1 (slice data offset length)).flatMap hex02x ++ trackers) := by
  have hne : (sha1 (slice data offset length)).flatMap hex02x ≠ [] := by
    intro h
    have := hex02x_flatMap_length (sha1 (slice data offset length))
    rw [h, hsha] at this
    simp at this
  have hcalc : CalcInfoHash sha1 data m_root =
      some ((sha1 (slice data offset length)).flatMap hex02x) := by
    unfold CalcInfoHash
    rw [hinfo]
    simp only [if_pos hin]
  unfold Magnet
  rw [hcalc]
  simp only [if_neg hne, hcol, henc]

/-- Without an info dictionary `Magnet` is the empty string. -/
theorem Magnet_without_info (sha1 : List Nat → List Nat) (data : List Nat)
    (m_root : Option bt_node)
    (hinfo : ∀ o l d, Search (bytes "info") m_root ≠ some (.dt_dictionary o l d)) :
    Magnet sha1 data m_root = some [] := by
  have hcalc : CalcInfoHash sha1 data m_root = some [] := by
    unfold CalcInfoHash
    split
    · rename_i o l d h
      exact absurd h (hinfo o l d)
    · rfl
  unfold Magnet
  rw [hcalc]
  simp

/-- With an info dictionary, and a digest of 20 bytes, `Magnet` is not the
empty string. -/
theorem Magnet_with_info (sha1 : List Nat → List Nat) (data : List Nat)
    (m_root : Option bt_node) (offset length : Nat) (dict : List (List Nat × Option bt_node))
    (hinfo : Search (bytes "info") m_root = some (.dt_dictionary offset length dict))
    (hsha : (sha1 (slice data offset length)).length = 20) :
    Magnet sha1 data m_root ≠ some [] := by
  have hne : (sha1 (slice data offset length)).flatMap hex02x ≠ [] := by
    intro h
    have := hex02x_flatMap_length (sha1 (slice data offset length))
    rw [h, hsha] at this
    simp at this
  unfold Magnet CalcInfoHash
  rw [hinfo]
  by_cases hin : offset + length ≤ data.length
  · simp only [if_pos hin, if_neg hne]
    split
    · simp
    · split
      · simp
      · simp
  · simp only [if_neg hin]
    simp

/-! ## Claims about concrete buffers -/

theorem listLoop_lx (atofInt : List Nat → Int) (n : Nat) :
    ∀ (fuel : Nat) (acc : List (Option bt_node)),
      listLoop (Decode atofInt (bytes "lx") n) (bytes "lx") fuel 1 acc = none := by
  intro fuel
  induction fuel with
  | zero => intro acc; rfl
  | succ f ih =>
    intro acc
    have hc : 1 < (bytes "lx").length ∧ (bytes "lx").getD 1 0 ≠ 101 := by decide
    simp only [listLoop]
    rw [if_pos hc]
    cases n with
    | zero => rfl
    | succ m =>
      have hd : Decode atofInt (bytes "lx") (m + 1) 1 = some (none, 1) := rfl
      rw [hd]
      exact ih _

/-- C3 (failing input): on the two bytes `lx` the call `Decode` never returns,
whatever the fuel: the byte `x` starts no value, the inner `Decode` returns
no node without moving the cursor, and the list loop runs again at the same
position. `Read` of that file does not return either. -/
theorem C3_list_loop_never_returns (atofInt : List Nat → Int) (fuel : Nat) :
    Decode atofInt (bytes "lx") fuel 0 = none ∧ Read atofInt fuel (bytes "lx") = none := by
  have hdec : Decode atofInt (bytes "lx") fuel 0 = none := by
    cases fuel with
    | zero => rfl
    | succ f =>
      exact Decode_list_none atofInt (bytes "lx") f 0 (by decide) (by decide)
        (listLoop_lx atofInt f f [])
  refine ⟨hdec, ?_⟩
  unfold Read
  rw [if_neg (by decide), hdec]

/-- C4 (failing input): the 8-byte buffer `d4:infod` decodes (fuel 3 or more)
to a root dictionary of span offset 0, length 10, whose `info` node has
offset 7 and length 2: both spans end past the 8 bytes of the buffer, the
file is accepted by `Read`, and the range given to the hash is outside
`m_data`. -/
theorem C4_span_past_end (atofInt : List Nat → Int) (sha1 : List Nat → List Nat) (fuel : Nat) :
    (bytes "d4:infod").length = 8 ∧
    Decode atofInt (bytes "d4:infod") (fuel + 3) 0 =
      some (some (.dt_dictionary 0 10 [(bytes "info", some (.dt_dictionary 7 2 []))]), 10) ∧
    Read atofInt (fuel + 3) (bytes "d4:infod") = some true ∧
    Search (bytes "info") (some (.dt_dictionary 0 10 [(bytes "info", some (.dt_dictionary 7 2 []))]))
      = some (.dt_dictionary 7 2 []) ∧
    ¬ (7 + 2 ≤ (bytes "d4:infod").length) ∧
    CalcInfoHash sha1 (bytes "d4:infod")
      (some (.dt_dictionary 0 10 [(bytes "info", some (.dt_dictionary 7 2 []))])) = none := by
  have hdec : Decode atofInt (bytes "d4:infod") 3 0 =
      some (some (.dt_dictionary 0 10 [(bytes "info", some (.dt_dictionary 7 2 []))]), 10) := rfl
  have hdec' := Decode_mono atofInt _ 3 (fuel + 3) 0 _ (by omega) hdec
  refine ⟨rfl, hdec', ?_, rfl, by decide, rfl⟩
  unfold Read
  rw [if_neg (by decide), hdec']
  rfl

/-- C5 (failing input): for the accepted file `d4:infod` the lookup of `info`
finds a dictionary, yet `Magnet` returns no string at all: the info span,
offset 7 and length 2, leaves the 8-byte buffer, so the hashed range is not a
range of the buffer. -/
theorem C5_magnet_on_truncated_info (atofInt : List Nat → Int) (sha1 : List Nat → List Nat)
    (fuel : Nat) :
    ∃ root, Decode atofInt (bytes "d4:infod") (fuel + 3) 0 = some (some root, 10) ∧
      Read atofInt (fuel + 3) (bytes "d4:infod") = some true ∧
      Search (bytes "info") (some root) = some (.dt_dictionary 7 2 []) ∧
      Magnet sha1 (bytes "d4:infod") (some root) = none := by
  have hdec : Decode atofInt (bytes "d4:infod") 3 0 =
      some (some (.dt_dictionary 0 10 [(bytes "info", some (.dt_dictionary 7 2 []))]), 10) := rfl
  have hdec' := Decode_mono atofInt _ 3 (fuel + 3) 0 _ (by omega) hdec
  refine ⟨_, hdec', ?_, rfl, rfl⟩
  unfold Read
  rw [if_neg (by decide), hdec']
  rfl

/-- C6 (failing input): the buffer `3:abc`, a valid string whose last byte is
the last byte of the buffer, decodes to an empty String node of length 2
with the cursor left at 2, right after the `':'`: the test
`str_len >= size - m_offset` also rejects a string that ends exactly at the
end of the buffer. -/
theorem C6_string_at_end_of_buffer (atofInt : List Nat → Int) (fuel : Nat) :
    ReadString (bytes "3:abc") 0 = ([], 2) ∧
    Decode atofInt (bytes "3:abc") (fuel + 1) 0 = some (some (.dt_string 0 2 []), 2) := by
  have hdec : Decode atofInt (bytes "3:abc") 1 0 = some (some (.dt_string 0 2 []), 2) := rfl
  exact ⟨rfl, Decode_mono atofInt _ 1 (fuel + 1) 0 _ (by omega) hdec⟩

/-! ## Claims about all inputs of a shape -/

theorem size_lt_of_le_ceiling (n : Nat) (h : n ≤ 5 * MEGABYTE) : n < 2 ^ 31 := by
  simp only [MEGABYTE] at h
  omega

/-- Round trip when the native stack has room to spare: for a well-formed
value whose root is a non-empty dictionary (keys of every dictionary strictly
ascending, integers within 64 bits, text of at most 5 MiB), `Decode` with fuel
for the length of the text returns the expected tree and stops at the end of
the text, `Read` accepts the file, the tree without its spans is the value,
and every node of the tree spans exactly the standard text of its own value.
The fuel pays for the nesting here; `DecodeOnStack` counts the frames. -/
theorem Decode_roundtrip (atofInt : List Nat → Int) (es : List (List Nat × Value)) (fuel : Nat)
    (hne : es ≠ []) (hwf : (Value.dict es).wf = true)
    (hsize : (encode (.dict es)).length ≤ 5 * MEGABYTE)
    (hfuel : (encode (.dict es)).length ≤ fuel) :
    Decode atofInt (encode (.dict es)) fuel 0 =
      some (some (treeAt (.dict es) 0), (encode (.dict es)).length) ∧
    Read atofInt fuel (encode (.dict es)) = some true ∧
    (treeAt (.dict es) 0).value = .dict es ∧
    ∀ n ∈ (treeAt (.dict es) 0).nodes,
      slice (encode (.dict es)) n.offset n.length = encode n.value := by
  have hdec : Decode atofInt (encode (.dict es)) fuel 0 =
      some (some (treeAt (.dict es) 0), (encode (.dict es)).length) := by
    have := Decode_encode atofInt (encode (.dict es)) (size_lt_of_le_ceiling _ hsize) fuel
      (.dict es) 0 [] hwf hfuel (by simp) (fun s h => by cases h)
    simpa using this
  refine ⟨hdec, ?_, treeAt_value _ _, treeAt_spans _ (.dict es) 0 [] (by simp)⟩
  have hpos := encode_length_pos (.dict es)
  unfold Read
  rw [if_neg (by omega), hdec]
  cases es with
  | nil => exact absurd rfl hne
  | cons e rest =>
    obtain ⟨k, v⟩ := e
    simp [treeAt, entriesAt]

/-- C7: a digit run `ds` followed by `':'` and fewer bytes than the number it
declares (buffer of at most 5 MiB) reads as the empty string: `ReadString`
leaves the cursor right after the `':'`, `Decode` returns an empty String
node whose span is the digits and the `':'`, and an enclosing list loop goes
on from that cursor with the node appended. -/
theorem C7_truncated_string (atofInt : List Nat → Int) (pre ds rest : List Nat)
    (fuel fuel' : Nat) (acc : List (Option bt_node))
    (hne : ds ≠ []) (hdig : ∀ b ∈ ds, isDigit b = true)
    (hlong : rest.length < digitsFold 0 ds)
    (hsize : (pre ++ (ds ++ 58 :: rest)).length ≤ 5 * MEGABYTE) :
    ReadString (pre ++ (ds ++ 58 :: rest)) pre.length = ([], pre.length + ds.length + 1) ∧
    Decode atofInt (pre ++ (ds ++ 58 :: rest)) (fuel + 1) pre.length =
      some (some (.dt_string pre.length (ds.length + 1) []), pre.length + ds.length + 1) ∧
    listLoop (Decode atofInt (pre ++ (ds ++ 58 :: rest)) (fuel + 1)) (pre ++ (ds ++ 58 :: rest))
        (fuel' + 1) pre.length acc =
      listLoop (Decode atofInt (pre ++ (ds ++ 58 :: rest)) (fuel + 1)) (pre ++ (ds ++ 58 :: rest))
        fuel' (pre.length + ds.length + 1)
        (acc ++ [some (.dt_string pre.length (ds.length + 1) [])]) := by
  have hd : (pre ++ (ds ++ 58 :: rest)).drop pre.length = ds ++ 58 :: rest := by simp
  have hrs : ReadString (pre ++ (ds ++ 58 :: rest)) pre.length =
      ([], pre.length + ds.length + 1) := by
    rw [ReadString_digits _ _ ds rest hd hne hdig (size_lt_of_le_ceiling _ hsize),
      if_pos (Or.inr (Nat.le_of_lt hlong))]
  obtain ⟨b, tl, rfl⟩ : ∃ b tl, ds = b :: tl := by
    cases ds with
    | nil => exact absurd rfl hne
    | cons b tl => exact ⟨b, tl, rfl⟩
  have hb := (isDigit_iff b).1 (hdig b (by simp))
  obtain ⟨h1, h2⟩ := head_of_drop _ _ b _ hd
  have hdec : Decode atofInt (pre ++ (b :: tl ++ 58 :: rest)) (fuel + 1) pre.length =
      some (some (.dt_string pre.length ((b :: tl).length + 1) []),
        pre.length + (b :: tl).length + 1) := by
    rw [Decode_string atofInt _ fuel _ h1 (by omega), hrs]
    simp only [Option.some.injEq, Prod.mk.injEq, bt_node.dt_string.injEq, true_and, and_true]
    omega
  refine ⟨hrs, hdec, ?_⟩
  simp only [listLoop]
  rw [if_pos ⟨h1, by omega⟩, hdec]

/-- Witness of C7: `le` followed by `9:ab`, the string starting at offset 2. -/
theorem C7_truncated_string_witness :
    ([57] : List Nat) ≠ [] ∧ (∀ b ∈ ([57] : List Nat), isDigit b = true) ∧
    ([97, 98] : List Nat).length < digitsFold 0 [57] ∧
    ReadString ([108, 101] ++ ([57] ++ 58 :: [97, 98])) 2 = ([], 2 + 1 + 1) :=
  ⟨by simp, by decide, by decide,
    (C7_truncated_string (fun _ => 0) [108, 101] [57] [97, 98] 0 0 [] (by simp) (by decide)
      (by decide) (by decide)).1⟩

/-- C8: for every integer `N` of the signed 64-bit range, the token
`i<N>e` with `N` in plain decimal, wherever it stands in the buffer, decodes
(any fuel of 1 or more) to an Integer node of value `N` whose length is the
length of the decimal text plus 2, the cursor being left right after the
closing `'e'`. -/
theorem C8_integer (atofInt : List Nat → Int) (pre post : List Nat) (N : Int) (fuel : Nat)
    (h1 : -(2 ^ 63) ≤ N) (h2 : N < 2 ^ 63) :
    Decode atofInt (pre ++ (105 :: (decimalInt N ++ 101 :: post))) (fuel + 1) pre.length =
      some (some (.dt_integer pre.length ((decimalInt N).length + 2) N),
        pre.length + ((decimalInt N).length + 2)) := by
  have hd : (pre ++ (105 :: (decimalInt N ++ 101 :: post))).drop pre.length =
      [105] ++ (decimalInt N ++ 101 :: post) := by simp
  obtain ⟨h3, h4⟩ := head_of_drop _ _ 105 _ hd
  have hd3 : (pre ++ (105 :: (decimalInt N ++ 101 :: post))).drop (pre.length + 1) = _ :=
    drop_add_of_drop_eq _ _ _ _ hd
  rw [Decode_integer atofInt _ fuel _ h3 h4,
    ReadInteger_decimalInt atofInt _ _ N post hd3 h1 h2]
  simp only [Option.some.injEq, Prod.mk.injEq, bt_node.dt_integer.injEq, true_and, and_true]
  omega

/-- Witness of C8: the token `i-42e` inside the list `li-42ee`. -/
theorem C8_integer_witness :
    -(2 ^ 63) ≤ (-42 : Int) ∧ (-42 : Int) < 2 ^ 63 ∧
    Decode (fun _ => 0) ([108] ++ (105 :: (decimalInt (-42) ++ 101 :: [101]))) (0 + 1)
        ([108] : List Nat).length =
      some (some (.dt_integer ([108] : List Nat).length ((decimalInt (-42)).length + 2) (-42)),
        ([108] : List Nat).length + ((decimalInt (-42)).length + 2)) :=
  ⟨by decide, by decide, C8_integer (fun _ => 0) [108] [101] (-42) 0 (by decide) (by decide)⟩

/-! ## Duplicate keys and lookup -/

/-- C9 (counterexample): in `d1:ai1e1:ai2ee` the key `a` occurs twice, first
with the integer 1 and last with the integer 2; the decoded dictionary has one
entry for `a`, the node of the first occurrence (offset 4, value 1), and the
lookup of `a` does not give the node of the last occurrence (offset 10,
value 2). -/
theorem C9_counterexample :
    Decode (fun _ => 0) (bytes "d1:ai1e1:ai2ee") 4 0 =
      some (some (.dt_dictionary 0 14 [(bytes "a", some (.dt_integer 4 3 1))]), 14) ∧
    Search (bytes "a") (some (.dt_dictionary 0 14 [(bytes "a", some (.dt_integer 4 3 1))])) ≠
      some (.dt_integer 10 3 2) := by
  refine ⟨rfl, ?_⟩
  have h : Search (bytes "a") (some (.dt_dictionary 0 14 [(bytes "a", some (.dt_integer 4 3 1))]))
      = some (.dt_integer 4 3 1) := rfl
  rw [h]
  intro e
  injection e with e
  injection e with e1 e2 e3
  exact absurd e1 (by decide)

/-- C9 (amended): first write wins. For the text of a dictionary whose entries
are `es1`, then `(k, v)`, then `es2`, where no key of `es1` is `k` (the keys
may come in any order and repeat, `k` possibly again in `es2`; the values
are well-formed, the text has at most 5 MiB), `Decode` with fuel for the
length returns a dictionary that holds for `k` the node of that first
occurrence and no other entry with key `k`. -/
theorem C9_first_write_wins (atofInt : List Nat → Int) (es1 es2 : List (List Nat × Value))
    (k : List Nat) (v : Value) (fuel : Nat)
    (hno : ∀ e ∈ es1, e.1 ≠ k)
    (hwf : wfEntries (es1 ++ (k, v) :: es2) = true)
    (hsize : (encode (.dict (es1 ++ (k, v) :: es2))).length ≤ 5 * MEGABYTE)
    (hfuel : (encode (.dict (es1 ++ (k, v) :: es2))).length ≤ fuel) :
    ∃ dict, Decode atofInt (encode (.dict (es1 ++ (k, v) :: es2))) fuel 0 =
        some (some (.dt_dictionary 0 (encode (.dict (es1 ++ (k, v) :: es2))).length dict),
          (encode (.dict (es1 ++ (k, v) :: es2))).length) ∧
      (k, some (treeAt v (1 + (encodeEntries es1).length + (encodeStr k).length))) ∈ dict ∧
      ∀ e ∈ dict, e.1 = k →
        e = (k, some (treeAt v (1 + (encodeEntries es1).length + (encodeStr k).length))) := by
  have hlen := size_lt_of_le_ceiling _ hsize
  simp only [encode, List.length_cons, List.length_append, List.length_singleton] at hfuel hlen ⊢
  obtain ⟨f, rfl⟩ : ∃ f, fuel = f + 1 := ⟨fuel - 1, by omega⟩
  have hd : (100 :: (encodeEntries (es1 ++ (k, v) :: es2) ++ [101])).drop 0 =
      [100] ++ (encodeEntries (es1 ++ (k, v) :: es2) ++ 101 :: []) := by simp
  obtain ⟨h1, h2⟩ := head_of_drop _ 0 100 _ hd
  have hd3 : (100 :: (encodeEntries (es1 ++ (k, v) :: es2) ++ [101])).drop (0 + 1) = _ :=
    drop_add_of_drop_eq _ 0 _ _ hd
  have hlens := encodeEntries_length (es1 ++ (k, v) :: es2)
  have hloop := dictLoop_entries
    (Decode atofInt (100 :: (encodeEntries (es1 ++ (k, v) :: es2) ++ [101])) f) _
    (by simpa using hlen) (es1 ++ (k, v) :: es2) f (0 + 1) [] []
    (fun e he o p hdo hp => Decode_encode atofInt _ (by simpa using hlen) f e.2 o p
      (wfEntries_mem _ hwf e he) (by have := hlens.2 e he; omega) hdo (fun _ _ => hp))
    hd3 (by omega)
  have hno' : ∀ e ∈ entriesAt es1 (0 + 1), e.1 ≠ k := by
    intro e he
    obtain ⟨x, hx, hxe⟩ := entriesAt_key_mem es1 _ e he
    rw [← hxe]
    exact hno x hx
  have hfirst := insertAll_first (entriesAt es1 (0 + 1))
    (entriesAt es2 (0 + 1 + (encodeEntries es1).length + (encodeStr k).length + (encode v).length))
    k (some (treeAt v (0 + 1 + (encodeEntries es1).length + (encodeStr k).length))) hno'
  have hsplit : entriesAt (es1 ++ (k, v) :: es2) (0 + 1) =
      entriesAt es1 (0 + 1) ++
        (k, some (treeAt v (0 + 1 + (encodeEntries es1).length + (encodeStr k).length))) ::
          entriesAt es2
            (0 + 1 + (encodeEntries es1).length + (encodeStr k).length + (encode v).length) := by
    rw [entriesAt_append]
    simp only [entriesAt]
  rw [← hsplit] at hfirst
  have e0 : 0 + 1 + (encodeEntries es1).length + (encodeStr k).length =
      1 + (encodeEntries es1).length + (encodeStr k).length := by omega
  rw [e0] at hfirst
  refine ⟨(entriesAt (es1 ++ (k, v) :: es2) (0 + 1)).foldl (fun d e => mapInsert d e.1 e.2) [],
    ?_, hfirst⟩
  rw [Decode_dictionary atofInt _ f 0 h1 h2 _ _ hloop]
  simp only [Option.some.injEq, Prod.mk.injEq, bt_node.dt_dictionary.injEq, true_and, and_true]
  simp only [List.length_nil]
  omega

/-- Witness of C9 (amended): the dictionary text `d1:ai1e1:ai2ee`. -/
theorem C9_first_write_wins_witness :
    encode (.dict ([] ++ (bytes "a", Value.int 1) :: [(bytes "a", Value.int 2)])) =
      bytes "d1:ai1e1:ai2ee" ∧
    (∀ e ∈ ([] : List (List Nat × Value)), e.1 ≠ bytes "a") ∧
    wfEntries ([] ++ (bytes "a", Value.int 1) :: [(bytes "a", Value.int 2)]) = true ∧
    ∃ dict, Decode (fun _ => 0)
        (encode (.dict ([] ++ (bytes "a", Value.int 1) :: [(bytes "a", Value.int 2)]))) 14 0 =
        some (some (.dt_dictionary 0
          (encode (.dict ([] ++ (bytes "a", Value.int 1) :: [(bytes "a", Value.int 2)]))).length
            dict),
          (encode (.dict ([] ++ (bytes "a", Value.int 1) :: [(bytes "a", Value.int 2)]))).length) ∧
      (bytes "a", some (treeAt (Value.int 1)
        (1 + (encodeEntries []).length + (encodeStr (bytes "a")).length))) ∈ dict ∧
      ∀ e ∈ dict, e.1 = bytes "a" →
        e = (bytes "a", some (treeAt (Value.int 1)
          (1 + (encodeEntries []).length + (encodeStr (bytes "a")).length))) :=
  ⟨by decide, by simp, by decide,
    C9_first_write_wins (fun _ => 0) [] [(bytes "a", Value.int 2)] (bytes "a") (Value.int 1) 14
      (by simp) (by decide) (by decide) (by decide)⟩

/-- C10 (counterexample): `d4:infoe` decodes to a dictionary that has the key
`info` with a null value; the key equals the name `info`, yet `Search` returns
no node. -/
theorem C10_counterexample :
    Decode (fun _ => 0) (bytes "d4:infoe") 3 0 =
      some (some (.dt_dictionary 0 8 [(bytes "info", none)]), 8) ∧
    (∃ e ∈ [(bytes "info", (none : Option bt_node))],
      (c_str e.1).map tolower = (c_str (bytes "info")).map tolower) ∧
    Search (bytes "info") (some (.dt_dictionary 0 8 [(bytes "info", none)])) = none :=
  ⟨rfl, ⟨(bytes "info", none), by simp, rfl⟩, rfl⟩

theorem stricmpEq_iff (a b : List Nat) :
    stricmpEq a b = true ↔ (c_str a).map tolower = (c_str b).map tolower := by
  simp [stricmpEq]

/-- C10 (amended): for a non-empty name, `Search` returns the value slot of
the first entry, in the stored (ascending) order, whose key equals the name
after ASCII case folding, both taken up to their first NUL byte: the node in
that slot, or nothing when the slot is null; it returns nothing when no key
matches. `Announce` and `announce` are the same key. -/
theorem C10_search_first_match (nodeName : List Nat) (offset length : Nat)
    (dict : List (List Nat × Option bt_node)) (hname : c_str nodeName ≠ []) :
    (∀ d1 d2 key node, dict = d1 ++ (key, node) :: d2 →
      (c_str key).map tolower = (c_str nodeName).map tolower →
      (∀ e ∈ d1, (c_str e.1).map tolower ≠ (c_str nodeName).map tolower) →
      Search nodeName (some (.dt_dictionary offset length dict)) = node) ∧
    ((∀ e ∈ dict, (c_str e.1).map tolower ≠ (c_str nodeName).map tolower) →
      Search nodeName (some (.dt_dictionary offset length dict)) = none) ∧
    stricmpEq (bytes "Announce") (bytes "announce") = true := by
  refine ⟨?_, ?_, by decide⟩
  · intro d1 d2 key node hdict hkey hfirst
    subst hdict
    have hfind : (d1 ++ (key, node) :: d2).find? (fun item => stricmpEq item.1 nodeName) =
        some (key, node) := by
      induction d1 with
      | nil =>
        simp only [List.nil_append, List.find?_cons]
        rw [(stricmpEq_iff key nodeName).2 hkey]
      | cons x rest ih =>
        have hx : stricmpEq x.1 nodeName = false := by
          rw [← Bool.not_eq_true, stricmpEq_iff]
          exact hfirst x (by simp)
        simp only [List.cons_append, List.find?_cons, hx]
        exact ih (fun e he => hfirst e (by simp [he]))
    simp only [Search, if_neg hname, hfind]
  · intro hnone
    have hfind : dict.find? (fun item => stricmpEq item.1 nodeName) = none := by
      rw [List.find?_eq_none]
      intro e he
      rw [stricmpEq_iff]
      exact hnone e he
    simp only [Search, if_neg hname, hfind]

/-- Witness of C10 (amended): the name `INFO` in a dictionary with the keys
`announce` and `info`. -/
theorem C10_search_first_match_witness :
    c_str (bytes "INFO") ≠ [] ∧
    Search (bytes "INFO") (some (.dt_dictionary 0 0
      ([(bytes "announce", none)] ++ (bytes "info", some (.dt_integer 1 3 7)) :: []))) =
      some (.dt_integer 1 3 7) :=
  ⟨by decide,
    (C10_search_first_match (bytes "INFO") 0 0
      ([(bytes "announce", none)] ++ (bytes "info", some (.dt_integer 1 3 7)) :: [])
      (by decide)).1 [(bytes "announce", none)] [] (bytes "info") (some (.dt_integer 1 3 7)) rfl
      (by decide) (by decide)⟩

/-! ## The cursor only moves forward -/

theorem ReadString_cursor (data : List Nat) (off : Nat) : off < (ReadString data off).2 := by
  unfold ReadString
  simp only
  split_ifs <;> simp only <;> omega

theorem ReadInteger_cursor (atofInt : List Nat → Int) (data : List Nat) (off : Nat) :
    off < (ReadInteger atofInt data off).2 := by
  unfold ReadInteger
  simp only
  split_ifs <;> simp only <;> omega

theorem listLoop_cursor (dec : Nat → Option (Option bt_node × Nat)) (data : List Nat)
    (hdec : ∀ o r o', dec o = some (r, o') → o ≤ o') :
    ∀ (fuel off : Nat) (acc l : List (Option bt_node)) (off' : Nat),
      listLoop dec data fuel off acc = some (l, off') → off ≤ off' := by
  intro fuel
  induction fuel with
  | zero => intro off acc l off' h; simp [listLoop] at h
  | succ f ih =>
    intro off acc l off' h
    simp only [listLoop] at h
    split at h
    · cases hd : dec off with
      | none => simp [hd] at h
      | some p =>
        obtain ⟨val, o1⟩ := p
        rw [hd] at h
        have h1 := hdec off val o1 hd
        have h2 := ih o1 _ l off' h
        omega
    · simp only [Option.some.injEq, Prod.mk.injEq] at h
      omega

theorem dictLoop_cursor (dec : Nat → Option (Option bt_node × Nat)) (data : List Nat)
    (hdec : ∀ o r o', dec o = some (r, o') → o ≤ o') :
    ∀ (fuel off : Nat) (acc d : List (List Nat × Option bt_node)) (off' : Nat),
      dictLoop dec data fuel off acc = some (d, off') → off ≤ off' := by
  intro fuel
  induction fuel with
  | zero => intro off acc d off' h; simp [dictLoop] at h
  | succ f ih =>
    intro off acc d off' h
    simp only [dictLoop] at h
    split at h
    · cases hd : dec (ReadString data off).2 with
      | none => simp [hd] at h
      | some p =>
        obtain ⟨val, o1⟩ := p
        simp only [hd] at h
        have h0 := ReadString_cursor data off
        have h1 := hdec _ val o1 hd
        have h2 := ih o1 _ d off' h
        omega
    · simp only [Option.some.injEq, Prod.mk.injEq] at h
      omega

/-- The cursor after `Decode`: unchanged when no node is returned, strictly
greater when a node is returned. -/
theorem Decode_cursor (atofInt : List Nat → Int) (data : List Nat) :
    ∀ (fuel off : Nat) (r : Option bt_node) (off' : Nat),
      Decode atofInt data fuel off = some (r, off') →
      (r = none → off' = off) ∧ (r ≠ none → off < off') := by
  intro fuel
  induction fuel with
  | zero => intro off r off' h; simp [Decode] at h
  | succ f ih =>
    intro off r off' h
    have hle : ∀ o r o', Decode atofInt data f o = some (r, o') → o ≤ o' := by
      intro o r o' ho
      have := ih o r o' ho
      by_cases hr : r = none
      · have := this.1 hr; omega
      · have := this.2 hr; omega
    simp only [Decode] at h
    split_ifs at h with h1 h2 h3 h4 h5
    · simp only [Option.some.injEq, Prod.mk.injEq] at h
      obtain ⟨rfl, rfl⟩ := h
      simp
    · simp only [Option.some.injEq, Prod.mk.injEq] at h
      obtain ⟨rfl, rfl⟩ := h
      have := ReadString_cursor data off
      simp [this]
    · simp only [Option.some.injEq, Prod.mk.injEq] at h
      obtain ⟨rfl, rfl⟩ := h
      have := ReadInteger_cursor atofInt data (off + 1)
      refine ⟨by simp, fun _ => by omega⟩
    · cases hl : listLoop (Decode atofInt data f) data f (off + 1) [] with
      | none => simp [hl] at h
      | some p =>
        obtain ⟨l, o1⟩ := p
        rw [hl] at h
        simp only [Option.some.injEq, Prod.mk.injEq] at h
        obtain ⟨rfl, rfl⟩ := h
        have := listLoop_cursor _ data hle f (off + 1) [] l o1 hl
        refine ⟨by simp, fun _ => by omega⟩
    · cases hl : dictLoop (Decode atofInt data f) data f (off + 1) [] with
      | none => simp [hl] at h
      | some p =>
        obtain ⟨d, o1⟩ := p
        rw [hl] at h
        simp only [Option.some.injEq, Prod.mk.injEq] at h
        obtain ⟨rfl, rfl⟩ := h
        have := dictLoop_cursor _ data hle f (off + 1) [] d o1 hl
        refine ⟨by simp, fun _ => by omega⟩
    · simp only [Option.some.injEq, Prod.mk.injEq] at h
      obtain ⟨rfl, rfl⟩ := h
      simp

/-- A list loop whose recursive call returns no node at a position where the
loop condition holds never returns. -/
theorem listLoop_stuck (dec : Nat → Option (Option bt_node × Nat)) (data : List Nat) (off : Nat)
    (hc : off < data.length ∧ data.getD off 0 ≠ 101)
    (hd : dec off = some (none, off) ∨ dec off = none) :
    ∀ (fuel : Nat) (acc : List (Option bt_node)), listLoop dec data fuel off acc = none := by
  intro fuel
  induction fuel with
  | zero => intro acc; rfl
  | succ f ih =>
    intro acc
    simp only [listLoop]
    rw [if_pos hc]
    rcases hd with hd | hd
    · rw [hd]
      exact ih _
    · rw [hd]

/-! ## The shape of decoded trees -/

theorem itemsInv_append (data : List Nat) : ∀ (acc : List (Option bt_node)) (n : bt_node),
    itemsInv data acc = true → nodeInv data n = true → itemsInv data (acc ++ [some n]) = true := by
  intro acc
  induction acc with
  | nil => intro n _ hn; simp [itemsInv, hn]
  | cons x rest ih =>
    intro n h hn
    cases x with
    | none => simp [itemsInv] at h
    | some m =>
      simp only [itemsInv, Bool.and_eq_true, List.cons_append] at h ⊢
      exact ⟨h.1, ih n h.2 hn⟩

theorem entriesInv_cons (data : List Nat) (k : List Nat) (v : Option bt_node)
    (rest : List (List Nat × Option bt_node)) :
    entriesInv data ((k, v) :: rest) = true ↔
      (∀ n, v = some n → nodeInv data n = true) ∧ entriesInv data rest = true := by
  cases v with
  | none => simp [entriesInv]
  | some m => simp [entriesInv]

theorem entriesInv_mapInsert (data : List Nat) :
    ∀ (d : List (List Nat × Option bt_node)) (k : List Nat) (v : Option bt_node),
    entriesInv data d = true → (∀ n, v = some n → nodeInv data n = true) →
    entriesInv data (mapInsert d k v) = true := by
  intro d
  induction d with
  | nil =>
    intro k v _ hv
    simp only [mapInsert]
    exact (entriesInv_cons data k v []).2 ⟨hv, rfl⟩
  | cons x rest ih =>
    intro k v h hv
    obtain ⟨k', v'⟩ := x
    have hx := (entriesInv_cons data k' v' rest).1 h
    simp only [mapInsert]
    split_ifs
    · exact (entriesInv_cons data k v _).2 ⟨hv, h⟩
    · exact (entriesInv_cons data k' v' _).2 ⟨hx.1, ih k v hx.2 hv⟩
    · exact h

theorem entriesInv_mem (data : List Nat) : ∀ (d : List (List Nat × Option bt_node)),
    entriesInv data d = true → ∀ k n, (k, some n) ∈ d → nodeInv data n = true := by
  intro d
  induction d with
  | nil => intro _ k n h; simp at h
  | cons x rest ih =>
    intro h k n hmem
    obtain ⟨k', v'⟩ := x
    have hx := (entriesInv_cons data k' v' rest).1 h
    rcases List.mem_cons.1 hmem with he | he
    · injection he with e1 e2
      exact hx.1 n e2.symm
    · exact ih hx.2 k n he

theorem itemsInv_mem (data : List Nat) : ∀ (items : List (Option bt_node)),
    itemsInv data items = true → ∀ c ∈ items, ∃ n, c = some n ∧ nodeInv data n = true := by
  intro items
  induction items with
  | nil => intro _ c h; simp at h
  | cons x rest ih =>
    intro h c hc
    cases x with
    | none => simp [itemsInv] at h
    | some m =>
      simp only [itemsInv, Bool.and_eq_true] at h
      rcases List.mem_cons.1 hc with rfl | hc
      · exact ⟨m, rfl, h.1⟩
      · exact ih h.2 c hc

theorem listLoop_inv (dec : Nat → Option (Option bt_node × Nat)) (data : List Nat)
    (hinv : ∀ o n o', dec o = some (some n, o') → nodeInv data n = true)
    (hnull : ∀ o o', dec o = some (none, o') → o' = o) :
    ∀ (fuel off : Nat) (acc l : List (Option bt_node)) (off' : Nat),
      listLoop dec data fuel off acc = some (l, off') → itemsInv data acc = true →
      itemsInv data l = true := by
  intro fuel
  induction fuel with
  | zero => intro off acc l off' h; simp [listLoop] at h
  | succ f ih =>
    intro off acc l off' h hacc
    simp only [listLoop] at h
    split at h
    · rename_i hc
      cases hd : dec off with
      | none => simp [hd] at h
      | some p =>
        obtain ⟨val, o1⟩ := p
        rw [hd] at h
        cases val with
        | none =>
          have h1 := hnull off o1 hd
          subst h1
          simp only [listLoop_stuck dec data o1 hc (Or.inl hd)] at h
          exact absurd h (by simp)
        | some n =>
          simp only at h
          exact ih o1 _ l off' h (itemsInv_append data acc n hacc (hinv off n o1 hd))
    · simp only [Option.some.injEq, Prod.mk.injEq] at h
      rw [← h.1]
      exact hacc

theorem dictLoop_inv (dec : Nat → Option (Option bt_node × Nat)) (data : List Nat)
    (hinv : ∀ o n o', dec o = some (some n, o') → nodeInv data n = true) :
    ∀ (fuel off : Nat) (acc d : List (List Nat × Option bt_node)) (off' : Nat),
      dictLoop dec data fuel off acc = some (d, off') → entriesInv data acc = true →
      entriesInv data d = true := by
  intro fuel
  induction fuel with
  | zero => intro off acc d off' h; simp [dictLoop] at h
  | succ f ih =>
    intro off acc d off' h hacc
    simp only [dictLoop] at h
    split at h
    · cases hd : dec (ReadString data off).2 with
      | none => simp [hd] at h
      | some p =>
        obtain ⟨val, o1⟩ := p
        simp only [hd] at h
        refine ih o1 _ d off' h (entriesInv_mapInsert data acc _ val hacc ?_)
        intro n hn
        subst hn
        exact hinv _ n o1 hd
    · simp only [Option.some.injEq, Prod.mk.injEq] at h
      rw [← h.1]
      exact hacc

/-- Every node that `Decode` returns has the shape `nodeInv`: in particular
no list below it has a null child. -/
theorem Decode_inv (atofInt : List Nat → Int) (data : List Nat) :
    ∀ (fuel off : Nat) (n : bt_node) (off' : Nat),
      Decode atofInt data fuel off = some (some n, off') → nodeInv data n = true := by
  intro fuel
  induction fuel with
  | zero => intro off n off' h; simp [Decode] at h
  | succ f ih =>
    intro off n off' h
    have hle : ∀ o r o', Decode atofInt data f o = some (r, o') → o ≤ o' := by
      intro o r o' ho
      have := Decode_cursor atofInt data f o r o' ho
      by_cases hr : r = none
      · have := this.1 hr; omega
      · have := this.2 hr; omega
    have hnull : ∀ o o', Decode atofInt data f o = some (none, o') → o' = o :=
      fun o o' ho => (Decode_cursor atofInt data f o none o' ho).1 rfl
    simp only [Decode] at h
    split_ifs at h with h1 h2 h3 h4 h5
    · simp at h
    · simp only [Option.some.injEq, Prod.mk.injEq] at h
      obtain ⟨rfl, rfl⟩ := h
      have := ReadString_cursor data off
      simp only [nodeInv, Bool.and_eq_true, decide_eq_true_eq, isDigit_iff]
      exact ⟨⟨by omega, by omega⟩, by omega⟩
    · simp only [Option.some.injEq, Prod.mk.injEq] at h
      obtain ⟨rfl, rfl⟩ := h
      have := ReadInteger_cursor atofInt data (off + 1)
      simp only [nodeInv, Bool.and_eq_true, decide_eq_true_eq, beq_iff_eq]
      exact ⟨⟨by omega, by omega⟩, h3⟩
    · cases hl : listLoop (Decode atofInt data f) data f (off + 1) [] with
      | none => simp [hl] at h
      | some p =>
        obtain ⟨l, o1⟩ := p
        rw [hl] at h
        simp only [Option.some.injEq, Prod.mk.injEq] at h
        obtain ⟨rfl, rfl⟩ := h
        have hc := listLoop_cursor _ data hle f (off + 1) [] l o1 hl
        have hi := listLoop_inv _ data (fun o n o' ho => ih o n o' ho) hnull f (off + 1) [] l o1
          hl rfl
        simp only [nodeInv, Bool.and_eq_true, decide_eq_true_eq, beq_iff_eq]
        exact ⟨⟨⟨by omega, by omega⟩, h4⟩, hi⟩
    · cases hl : dictLoop (Decode atofInt data f) data f (off + 1) [] with
      | none => simp [hl] at h
      | some p =>
        obtain ⟨d, o1⟩ := p
        rw [hl] at h
        simp only [Option.some.injEq, Prod.mk.injEq] at h
        obtain ⟨rfl, rfl⟩ := h
        have hc := dictLoop_cursor _ data hle f (off + 1) [] d o1 hl
        have hi := dictLoop_inv _ data (fun o n o' ho => ih o n o' ho) f (off + 1) [] d o1
          hl rfl
        simp only [nodeInv, Bool.and_eq_true, decide_eq_true_eq, beq_iff_eq]
        exact ⟨⟨⟨by omega, by omega⟩, h5⟩, hi⟩
    · simp at h

/-! ## Sorting and removing duplicates -/

theorem strLess_of_le_of_ne (a b : List Nat) (h : strLess b a = false) (hne : a ≠ b) :
    strLess a b = true := by
  by_contra hc
  exact hne (strLess_total a b (by simpa using hc) h)

theorem strLess_of_lt_of_le (a t x : List Nat) (h1 : strLess a t = true)
    (h2 : strLess x t = false) : strLess a x = true := by
  by_contra hc
  have hc' : strLess a x = false := by simpa using hc
  by_cases hxa : strLess x a = true
  · rw [strLess_trans x a t hxa h1] at h2
    exact absurd h2 (by simp)
  · have : a = x := strLess_total a x hc' (by simpa using hxa)
    subst this
    rw [h1] at h2
    exact absurd h2 (by simp)

theorem strLess_le_trans (s t u : List Nat) (h1 : strLess t s = false)
    (h2 : strLess u t = false) : strLess u s = false := by
  by_contra hc
  have hc' : strLess u s = true := by simpa using hc
  by_cases hst : s = t
  · subst hst
    rw [hc'] at h2
    exact absurd h2 (by simp)
  · have hlt := strLess_of_le_of_ne s t h1 hst
    rw [strLess_trans u s t hc' hlt] at h2
    exact absurd h2 (by simp)

theorem mem_sortedInsert (s x : List Nat) : ∀ (l : List (List Nat)),
    x ∈ sortedInsert s l ↔ x = s ∨ x ∈ l := by
  intro l
  induction l with
  | nil => simp [sortedInsert]
  | cons t rest ih =>
    simp only [sortedInsert]
    split_ifs
    · simp only [List.mem_cons, ih]
      tauto
    · simp only [List.mem_cons]

theorem mem_sort (x : List Nat) : ∀ (l : List (List Nat)), x ∈ sort l ↔ x ∈ l := by
  intro l
  induction l with
  | nil => simp [sort]
  | cons s rest ih => simp only [sort, mem_sortedInsert, ih, List.mem_cons]

theorem sortedInsert_sorted (s : List Nat) : ∀ (l : List (List Nat)),
    l.Pairwise (fun a b => strLess b a = false) →
    (sortedInsert s l).Pairwise (fun a b => strLess b a = false) := by
  intro l
  induction l with
  | nil => intro _; simp [sortedInsert]
  | cons t rest ih =>
    intro h
    have ht := List.pairwise_cons.1 h
    simp only [sortedInsert]
    split_ifs with hts
    · refine List.pairwise_cons.2 ⟨?_, ih ht.2⟩
      intro x hx
      rcases (mem_sortedInsert s x rest).1 hx with rfl | hx
      · exact strLess_asymm _ _ hts
      · exact ht.1 x hx
    · have hts' : strLess t s = false := by simpa using hts
      refine List.pairwise_cons.2 ⟨?_, h⟩
      intro x hx
      rcases List.mem_cons.1 hx with rfl | hx
      · exact hts'
      · exact strLess_le_trans s t x hts' (ht.1 x hx)

theorem sort_sorted : ∀ (l : List (List Nat)),
    (sort l).Pairwise (fun a b => strLess b a = false) := by
  intro l
  induction l with
  | nil => simp [sort]
  | cons s rest ih => exact sortedInsert_sorted s _ ih

theorem unique_cons_cons (s t : List Nat) (rest : List (List Nat)) :
    unique (s :: t :: rest) = if s = t then unique (t :: rest) else s :: unique (t :: rest) := by
  simp only [unique]

theorem mem_unique (x : List Nat) : ∀ (l : List (List Nat)), x ∈ unique l ↔ x ∈ l := by
  intro l
  induction l with
  | nil => simp [unique]
  | cons s rest ih =>
    cases rest with
    | nil => simp [unique]
    | cons t rest' =>
      rw [unique_cons_cons]
      split_ifs with hst
      · subst hst
        rw [ih]
        simp
      · simp only [List.mem_cons, ih]

theorem unique_sorted : ∀ (l : List (List Nat)),
    l.Pairwise (fun a b => strLess b a = false) →
    (unique l).Pairwise (fun a b => strLess a b = true) := by
  intro l
  induction l with
  | nil => intro _; simp [unique]
  | cons s rest ih =>
    intro h
    have hs := List.pairwise_cons.1 h
    cases rest with
    | nil => simp [unique]
    | cons t rest' =>
      rw [unique_cons_cons]
      split_ifs with hst
      · exact ih hs.2
      · refine List.pairwise_cons.2 ⟨?_, ih hs.2⟩
        intro x hx
        have hx' := (mem_unique x _).1 hx
        have hlt : strLess s t = true := strLess_of_le_of_ne s t (hs.1 t (by simp)) hst
        rcases List.mem_cons.1 hx' with rfl | hx''
        · exact hlt
        · exact strLess_of_lt_of_le s t x hlt ((List.pairwise_cons.1 hs.2).1 x hx'')

/-- Two strictly ascending lists with the same members are the same list. -/
theorem ascending_ext : ∀ (l1 l2 : List (List Nat)),
    l1.Pairwise (fun a b => strLess a b = true) → l2.Pairwise (fun a b => strLess a b = true) →
    (∀ x, x ∈ l1 ↔ x ∈ l2) → l1 = l2 := by
  intro l1
  induction l1 with
  | nil =>
    intro l2 _ _ h
    cases l2 with
    | nil => rfl
    | cons b rest => exact absurd ((h b).2 (by simp)) (by simp)
  | cons a rest1 ih =>
    intro l2 h1 h2 h
    cases l2 with
    | nil => exact absurd ((h a).1 (by simp)) (by simp)
    | cons b rest2 =>
      have p1 := List.pairwise_cons.1 h1
      have p2 := List.pairwise_cons.1 h2
      have hab : a = b := by
        rcases List.mem_cons.1 ((h a).1 (by simp)) with e | ha
        · exact e
        · rcases List.mem_cons.1 ((h b).2 (by simp)) with e | hb
          · exact e.symm
          · have := strLess_asymm _ _ (p1.1 b hb)
            rw [p2.1 a ha] at this
            exact absurd this (by simp)
      subst hab
      have htail : ∀ x, x ∈ rest1 ↔ x ∈ rest2 := by
        intro x
        constructor
        · intro hx
          rcases List.mem_cons.1 ((h x).1 (List.mem_cons_of_mem _ hx)) with e | hx2
          · exact absurd e.symm (strLess_ne _ _ (p1.1 x hx))
          · exact hx2
        · intro hx
          rcases List.mem_cons.1 ((h x).2 (List.mem_cons_of_mem _ hx)) with e | hx1
          · exact absurd e.symm (strLess_ne _ _ (p2.1 x hx))
          · exact hx1
      rw [ih rest2 p1.2 p2.2 htail]

/-- The trackers after `sort` and `unique` depend only on the set of the
collected strings. -/
theorem unique_sort_ext (l1 l2 : List (List Nat)) (h : ∀ x, x ∈ l1 ↔ x ∈ l2) :
    unique (sort l1) = unique (sort l2) := by
  apply ascending_ext _ _ (unique_sorted _ (sort_sorted l1)) (unique_sorted _ (sort_sorted l2))
  intro x
  rw [mem_unique, mem_unique, mem_sort, mem_sort]
  exact h x

/-! ## Percent-encoding of 7-bit text -/

theorem encodeChar_ascii (b : Nat) (h : b < 128) : encodeChar b = some (percentByte b) := by
  unfold encodeChar percentByte
  rw [if_neg (by omega)]
  split_ifs <;> rfl

theorem encodeItem_ascii : ∀ (s : List Nat), (∀ b ∈ s, b < 128) →
    encodeItem s = some (s.flatMap percentByte) := by
  intro s
  induction s with
  | nil => intro _; rfl
  | cons b rest ih =>
    intro h
    simp only [encodeItem, encodeChar_ascii b (h b (by simp)),
      ih (fun c hc => h c (by simp [hc])), List.flatMap_cons]

theorem encodeItem_high : ∀ (s : List Nat), (∃ b ∈ s, 128 ≤ b) → encodeItem s = none := by
  intro s
  induction s with
  | nil => intro h; obtain ⟨b, hb, -⟩ := h; simp at hb
  | cons c rest ih =>
    intro h
    obtain ⟨b, hb, hb2⟩ := h
    simp only [encodeItem]
    rcases List.mem_cons.1 hb with rfl | hb'
    · have : encodeChar b = none := by
        unfold encodeChar
        rw [if_pos (by omega)]
      rw [this]
    · rw [ih ⟨b, hb', hb2⟩]
      cases encodeChar c <;> rfl

/-! ## Lookup and tracker collection on decoded trees -/

mutual
theorem nodeInv_nodes (m_data : List Nat) : ∀ (n : bt_node), nodeInv m_data n = true →
    ∀ x ∈ n.nodes, nodeInv m_data x = true
  | .dt_string o l s, h, x, hx => by
    simp only [bt_node.nodes, List.mem_singleton] at hx
    subst hx; exact h
  | .dt_integer o l i, h, x, hx => by
    simp only [bt_node.nodes, List.mem_singleton] at hx
    subst hx; exact h
  | .dt_list o l items, h, x, hx => by
    simp only [bt_node.nodes, List.mem_cons] at hx
    rcases hx with rfl | hx
    · exact h
    · simp only [nodeInv, Bool.and_eq_true] at h
      exact itemsInv_nodes m_data items h.2 x hx
  | .dt_dictionary o l d, h, x, hx => by
    simp only [bt_node.nodes, List.mem_cons] at hx
    rcases hx with rfl | hx
    · exact h
    · simp only [nodeInv, Bool.and_eq_true] at h
      exact entriesInv_nodes m_data d h.2 x hx
theorem itemsInv_nodes (m_data : List Nat) : ∀ (items : List (Option bt_node)),
    itemsInv m_data items = true → ∀ x ∈ nodesItems items, nodeInv m_data x = true
  | [], _, x, hx => by simp [nodesItems] at hx
  | none :: rest, h, x, hx => by simp [itemsInv] at h
  | some n :: rest, h, x, hx => by
    simp only [itemsInv, Bool.and_eq_true] at h
    simp only [nodesItems, List.mem_append] at hx
    rcases hx with hx | hx
    · exact nodeInv_nodes m_data n h.1 x hx
    · exact itemsInv_nodes m_data rest h.2 x hx
theorem entriesInv_nodes (m_data : List Nat) : ∀ (d : List (List Nat × Option bt_node)),
    entriesInv m_data d = true → ∀ x ∈ nodesEntries d, nodeInv m_data x = true
  | [], _, x, hx => by simp [nodesEntries] at hx
  | (_, none) :: rest, h, x, hx => by
    simp only [entriesInv] at h
    simp only [nodesEntries] at hx
    exact entriesInv_nodes m_data rest h x hx
  | (_, some n) :: rest, h, x, hx => by
    simp only [entriesInv, Bool.and_eq_true] at h
    simp only [nodesEntries, List.mem_append] at hx
    rcases hx with hx | hx
    · exact nodeInv_nodes m_data n h.1 x hx
    · exact entriesInv_nodes m_data rest h.2 x hx
end

mutual
theorem announceItem_leaves (m_data : List Nat) : ∀ (n : bt_node) (acc : List (List Nat)),
    nodeInv m_data n = true → announceItem n acc = some (acc ++ stringLeaves n)
  | .dt_string o l s, acc, _ => by simp [announceItem, stringLeaves]
  | .dt_integer o l i, acc, _ => by simp [announceItem, stringLeaves]
  | .dt_list o l items, acc, h => by
    simp only [nodeInv, Bool.and_eq_true] at h
    simp only [announceItem, stringLeaves]
    exact announceItems_leaves m_data items acc h.2
  | .dt_dictionary o l d, acc, _ => by simp [announceItem, stringLeaves]
theorem announceItems_leaves (m_data : List Nat) : ∀ (items : List (Option bt_node))
    (acc : List (List Nat)),
    itemsInv m_data items = true → announceItems items acc = some (acc ++ stringLeavesItems items)
  | [], acc, _ => by simp [announceItems, stringLeavesItems]
  | none :: rest, acc, h => by simp [itemsInv] at h
  | some n :: rest, acc, h => by
    simp only [itemsInv, Bool.and_eq_true] at h
    simp only [announceItems, stringLeavesItems]
    rw [announceItem_leaves m_data n acc h.1]
    simp only
    rw [announceItems_leaves m_data rest _ h.2, List.append_assoc]
end

theorem Search_mem (nodeName : List Nat) (m_root : Option bt_node) (n : bt_node)
    (h : Search nodeName m_root = some n) :
    ∃ o l dict k, m_root = some (.dt_dictionary o l dict) ∧ (k, some n) ∈ dict := by
  unfold Search at h
  split at h
  · rename_i o l dict
    split_ifs at h
    split at h
    · rename_i k node hfind
      subst h
      exact ⟨o, l, dict, k, rfl, List.mem_of_find?_eq_some hfind⟩
    · exact absurd h (by simp)
  · exact absurd h (by simp)

/-- A node found by `Search` under a root of the decoded shape has that
shape too. -/
theorem Search_inv (data : List Nat) (nodeName : List Nat) (root n : bt_node)
    (hroot : nodeInv data root = true) (h : Search nodeName (some root) = some n) :
    nodeInv data n = true := by
  obtain ⟨o, l, dict, k, hr, hmem⟩ := Search_mem nodeName _ n h
  injection hr with hr
  subst hr
  simp only [nodeInv, Bool.and_eq_true] at hroot
  exact entriesInv_mem data dict hroot.2 k n hmem

/-- On a root of the decoded shape the collection of `Magnet` comes back and
gives the announce strings of the specification. -/
theorem collectAnnounce_inv (data : List Nat) (root : bt_node)
    (hroot : nodeInv data root = true) :
    collectAnnounce (some root) = some (announceStrings (some root)) := by
  unfold collectAnnounce announceStrings
  cases hs : Search (bytes "announce-list") (some root) with
  | none => simp
  | some n =>
    have hn := Search_inv data _ root n hroot hs
    cases n with
    | dt_list o l items =>
      simp only [nodeInv, Bool.and_eq_true] at hn
      simp only [GetAnnounceList]
      rw [announceItems_leaves data items _ hn.2]
    | dt_string o l s => simp
    | dt_integer o l i => simp
    | dt_dictionary o l d => simp

/-! ## The first two bytes decide whether the root dictionary is empty -/

theorem mapInsert_ne_nil {V : Type} (d : List (List Nat × V)) (k : List Nat) (v : V) :
    mapInsert d k v ≠ [] := by
  cases d with
  | nil => simp [mapInsert]
  | cons x rest =>
    obtain ⟨k', v'⟩ := x
    simp only [mapInsert]
    split_ifs <;> simp

theorem dictLoop_ne_nil (dec : Nat → Option (Option bt_node × Nat)) (data : List Nat) :
    ∀ (fuel off : Nat) (acc d : List (List Nat × Option bt_node)) (off' : Nat),
      dictLoop dec data fuel off acc = some (d, off') → acc ≠ [] → d ≠ [] := by
  intro fuel
  induction fuel with
  | zero => intro off acc d off' h; simp [dictLoop] at h
  | succ f ih =>
    intro off acc d off' h hacc
    simp only [dictLoop] at h
    split at h
    · cases hd : dec (ReadString data off).2 with
      | none => simp [hd] at h
      | some p =>
        obtain ⟨val, o1⟩ := p
        simp only [hd] at h
        exact ih o1 _ d off' h (mapInsert_ne_nil _ _ _)
    · simp only [Option.some.injEq, Prod.mk.injEq] at h
      rw [← h.1]
      exact hacc

/-- The dictionary loop started on the empty map returns a non-empty map
exactly when its condition holds at the start. -/
theorem dictLoop_nonempty_iff (dec : Nat → Option (Option bt_node × Nat)) (data : List Nat)
    (fuel off : Nat) (d : List (List Nat × Option bt_node)) (off' : Nat)
    (h : dictLoop dec data fuel off [] = some (d, off')) :
    d ≠ [] ↔ (off < data.length ∧ data.getD off 0 ≠ 101) := by
  cases fuel with
  | zero => simp [dictLoop] at h
  | succ f =>
    simp only [dictLoop] at h
    split at h
    · rename_i hc
      cases hd : dec (ReadString data off).2 with
      | none => simp [hd] at h
      | some p =>
        obtain ⟨val, o1⟩ := p
        simp only [hd] at h
        exact ⟨fun _ => hc, fun _ => dictLoop_ne_nil dec data f o1 _ d off' h (mapInsert_ne_nil _ _ _)⟩
    · rename_i hc
      simp only [Option.some.injEq, Prod.mk.injEq] at h
      rw [← h.1]
      exact ⟨fun hne => absurd rfl hne, fun hc' => absurd hc' hc⟩

/-! ## Claims about the trackers and their encoding -/

/-- The list that the encode loop of `Magnet` walks, `unique (sort list)`,
is strictly ascending in the byte order, has no repetition, and has exactly
the members of the collected list; `Magnet` is the prefix, the hash text and
the encoding of that list when the encoding comes back. -/
theorem sort_unique_spec (list : List (List Nat)) :
    (unique (sort list)).Pairwise (fun a b => strLess a b = true) ∧
    (unique (sort list)).Nodup ∧
    (∀ s, s ∈ unique (sort list) ↔ s ∈ list) ∧
    unique (sort [bytes "http://b", bytes "http://a", bytes "http://a"]) =
      [bytes "http://a", bytes "http://b"] ∧
    unique (sort [bytes "http://a", bytes "HTTP://A", bytes "http://a"]) =
      [bytes "HTTP://A", bytes "http://a"] ∧
    (∀ (sha1 : List Nat → List Nat) (data : List Nat) (m_root : Option bt_node)
      (hashCode : wstring), CalcInfoHash sha1 data m_root = some hashCode → hashCode ≠ [] →
      collectAnnounce m_root = some list →
      Magnet sha1 data m_root = (encodeList (unique (sort list))).map
        (fun trackers => "magnet:?xt=urn:btih:".toList ++ hashCode ++ trackers)) := by
  have hs := unique_sorted _ (sort_sorted list)
  refine ⟨hs, ?_, ?_, by decide, by decide, ?_⟩
  · exact hs.imp (fun h => strLess_ne _ _ h)
  · intro s
    rw [mem_unique, mem_sort]
  · intro sha1 data m_root hashCode hcalc hne hcol
    unfold Magnet
    rw [hcalc]
    simp only [if_neg hne, hcol]
    cases encodeList (unique (sort list)) <;> rfl

/-- C12 (failing input): the accepted file `d8:announce1:<0x80>4:infodee` has
the tracker made of the single byte `0x80`. The encode loop gives no text for
that byte (`ch` is a negative `char`, whose `%02X` text does not fit `d`), so
`Magnet` returns no string, where the claim has `&tr=%80`. The 7-bit example
`http://a.b:80/x` encodes as claimed. -/
theorem C12_high_byte_not_encoded (atofInt : List Nat → Int) (fuel : Nat) :
    Decode atofInt highByteTorrent (fuel + 4) 0 =
      some (some (.dt_dictionary 0 23 [(bytes "announce", some (.dt_string 11 3 [128])),
        (bytes "info", some (.dt_dictionary 20 2 []))]), 23) ∧
    Read atofInt (fuel + 4) highByteTorrent = some true ∧
    collectAnnounce (some (.dt_dictionary 0 23 [(bytes "announce", some (.dt_string 11 3 [128])),
        (bytes "info", some (.dt_dictionary 20 2 []))])) = some [[128]] ∧
    encodeChar 128 = none ∧
    encodeList (unique (sort [[128]])) = none ∧
    Magnet (fun _ => List.replicate 20 0) highByteTorrent
      (some (.dt_dictionary 0 23 [(bytes "announce", some (.dt_string 11 3 [128])),
        (bytes "info", some (.dt_dictionary 20 2 []))])) = none ∧
    encodeItem (bytes "http://a.b:80/x") = some "http%3A%2F%2Fa%2Eb%3A80%2Fx".toList := by
  have hdec : Decode atofInt highByteTorrent 4 0 =
      some (some (.dt_dictionary 0 23 [(bytes "announce", some (.dt_string 11 3 [128])),
        (bytes "info", some (.dt_dictionary 20 2 []))]), 23) := rfl
  have hdec' := Decode_mono atofInt _ 4 (fuel + 4) 0 _ (by omega) hdec
  refine ⟨hdec', ?_, rfl, rfl, rfl, rfl, by decide⟩
  unfold Read
  rw [if_neg (by decide), hdec']
  rfl

/-- C14 (failing input): for `i1e3e` the digit run ends at the first `'e'`:
the node has the value 1 and the length 3, and the cursor is left at 3, in
front of `3e`, whatever `atof` does. With the upper-case marker, `i1E3e`, the
whole text `1E3` goes to `atof` and the cursor is left at 5. -/
theorem C14_lower_case_exponent (atofInt : List Nat → Int) (fuel : Nat) :
    Decode atofInt (bytes "i1e3e") (fuel + 1) 0 = some (some (.dt_integer 0 3 1), 3) ∧
    Decode atofInt (bytes "i1E3e") (fuel + 1) 0 =
      some (some (.dt_integer 0 5 (atofInt (bytes "1E3"))), 5) := by
  have h1 : Decode atofInt (bytes "i1e3e") 1 0 = some (some (.dt_integer 0 3 1), 3) := rfl
  have h2 : Decode atofInt (bytes "i1E3e") 1 0 =
      some (some (.dt_integer 0 5 (atofInt (bytes "1E3"))), 5) := rfl
  exact ⟨Decode_mono atofInt _ 1 (fuel + 1) 0 _ (by omega) h1,
    Decode_mono atofInt _ 1 (fuel + 1) 0 _ (by omega) h2⟩

/-! ## Claims about `Read` and the cursor -/

/-- Within the size limits `Read` returns the test `acceptRoot` of the root
that `Decode` returns. -/
theorem Read_eq_acceptRoot (atofInt : List Nat → Int) (fuel : Nat) (file : List Nat)
    (h0 : 0 < file.length) (h1 : file.length ≤ 5 * MEGABYTE) :
    Read atofInt fuel file = (Decode atofInt file fuel 0).map (fun r => acceptRoot r.1) := by
  unfold Read
  rw [if_neg (by omega)]
  cases hd : Decode atofInt file fuel 0 with
  | none => rfl
  | some p =>
    obtain ⟨root, off⟩ := p
    cases root with
    | none => rfl
    | some n => cases n <;> rfl

theorem acceptRoot_iff (root : Option bt_node) :
    acceptRoot root = true ↔ ∃ o l dict, root = some (.dt_dictionary o l dict) ∧ dict ≠ [] := by
  constructor
  · intro h
    cases root with
    | none => simp [acceptRoot] at h
    | some n =>
      cases n with
      | dt_dictionary o l dict =>
        refine ⟨o, l, dict, rfl, ?_⟩
        intro e
        subst e
        simp [acceptRoot] at h
      | dt_string o l s => simp [acceptRoot] at h
      | dt_integer o l i => simp [acceptRoot] at h
      | dt_list o l items => simp [acceptRoot] at h
  · rintro ⟨o, l, dict, rfl, hne⟩
    cases dict with
    | nil => exact absurd rfl hne
    | cons x rest => rfl

/-- C13: for a file within the size limits, `Read` returns true exactly when
`Decode` returns a root node that is a dictionary with at least one entry,
and false for every other root that `Decode` returns; a list, a string, an
integer, the empty dictionary `de` and a first byte that starts no value all
give false. -/
theorem C13_top_level_acceptance (atofInt : List Nat → Int) (fuel : Nat) (file : List Nat)
    (h0 : 0 < file.length) (h1 : file.length ≤ 5 * MEGABYTE) :
    (Read atofInt fuel file = some true ↔
      ∃ o l dict off, Decode atofInt file fuel 0 = some (some (.dt_dictionary o l dict), off) ∧
        dict ≠ []) ∧
    (∀ root off, Decode atofInt file fuel 0 = some (root, off) →
      (¬ ∃ o l dict, root = some (.dt_dictionary o l dict) ∧ dict ≠ []) →
      Read atofInt fuel file = some false) ∧
    Read atofInt 3 (bytes "l1:ae") = some false ∧
    Read atofInt 3 (bytes "1:a") = some false ∧
    Read atofInt 3 (bytes "i5e") = some false ∧
    Read atofInt 3 (bytes "de") = some false ∧
    Read atofInt 3 (bytes "x") = some false := by
  have hr := Read_eq_acceptRoot atofInt fuel file h0 h1
  refine ⟨?_, ?_, rfl, rfl, rfl, rfl, rfl⟩
  · rw [hr]
    constructor
    · intro h
      cases hd : Decode atofInt file fuel 0 with
      | none => rw [hd] at h; simp at h
      | some p =>
        obtain ⟨root, off⟩ := p
        rw [hd] at h
        simp only [Option.map_some', Option.some.injEq] at h
        obtain ⟨o, l, dict, rfl, hne⟩ := (acceptRoot_iff root).1 h
        exact ⟨o, l, dict, off, rfl, hne⟩
    · rintro ⟨o, l, dict, off, hd, hne⟩
      rw [hd]
      simp only [Option.map_some', Option.some.injEq]
      exact (acceptRoot_iff _).2 ⟨o, l, dict, rfl, hne⟩
  · intro root off hd hno
    rw [hr, hd]
    simp only [Option.map_some', Option.some.injEq]
    cases hacc : acceptRoot root with
    | false => rfl
    | true => exact absurd ((acceptRoot_iff root).1 hacc) hno

/-- Witness of C13: the file `d1:ae`, fuel 3. -/
theorem C13_top_level_acceptance_witness :
    0 < (bytes "d1:ae").length ∧ (bytes "d1:ae").length ≤ 5 * MEGABYTE ∧
    (Read (fun _ => 0) 3 (bytes "d1:ae") = some true ↔
      ∃ o l dict off, Decode (fun _ => 0) (bytes "d1:ae") 3 0 =
        some (some (.dt_dictionary o l dict), off) ∧ dict ≠ []) :=
  ⟨by decide, by decide,
    (C13_top_level_acceptance (fun _ => 0) 3 (bytes "d1:ae") (by decide) (by decide)).1⟩

theorem oneString_length (n : Nat) :
    (encode (.dict [([97], .str (List.replicate n 0))])).length = (decimal n).length + n + 6 := by
  have h1 : (decimal 1).length = 1 := by decide
  simp only [encode, encodeEntries, encodeStr, List.length_cons, List.length_append,
    List.length_replicate, List.length_nil, List.length_singleton, h1]
  omega

/-- The file made of one key and a string of `n` zero bytes is accepted when
it is within the ceiling. -/
theorem Read_oneString (atofInt : List Nat → Int) (n fuel : Nat)
    (hsize : (encode (.dict [([97], .str (List.replicate n 0))])).length ≤ 5 * MEGABYTE)
    (hfuel : (encode (.dict [([97], .str (List.replicate n 0))])).length ≤ fuel) :
    Read atofInt fuel (encode (.dict [([97], .str (List.replicate n 0))])) = some true := by
  have hwf : (Value.dict [([97], .str (List.replicate n 0))]).wf = true := by
    simp [Value.wf, wfEntries, keysOf]
  have hpos := encode_length_pos (.dict [([97], .str (List.replicate n 0))])
  have hdec := Decode_encode atofInt (encode (.dict [([97], .str (List.replicate n 0))]))
    (size_lt_of_le_ceiling _ hsize) fuel (.dict [([97], .str (List.replicate n 0))]) 0 []
    hwf hfuel (by simp) (fun s h => by cases h)
  rw [Read_eq_acceptRoot atofInt _ _ (by omega) hsize, hdec]
  simp [treeAt, entriesAt, acceptRoot]

theorem ceilingValue_length : (encode ceilingValue).length = 5 * MEGABYTE := by
  have hd : (decimal 5242867).length = 7 := by decide
  have := oneString_length 5242867
  rw [hd] at this
  exact this

/-- C15: a file of length 0 and a file longer than 5 MiB make `Read` return
false whatever the contents and without any step of `Decode` (also with no
fuel at all); a file of exactly 5 MiB passes the guard, `Read` returns the
test of the root that `Decode` returns, and there is such a file that `Read`
accepts. The constant `MEGABYTE` is 1048576. -/
theorem C15_size_guard (atofInt : List Nat → Int) (fuel : Nat) (file : List Nat) :
    ((file.length = 0 ∨ 5 * MEGABYTE < file.length) →
      Read atofInt fuel file = some false ∧ Read atofInt 0 file = some false) ∧
    (file.length = 5 * MEGABYTE →
      Read atofInt fuel file = (Decode atofInt file fuel 0).map (fun r => acceptRoot r.1)) ∧
    ((encode ceilingValue).length = 5 * MEGABYTE ∧
      Read atofInt (5 * MEGABYTE) (encode ceilingValue) = some true) ∧
    5 * MEGABYTE = 5242880 := by
  have hlen := ceilingValue_length
  refine ⟨?_, ?_, ⟨hlen, ?_⟩, by decide⟩
  · intro h
    have hall : ∀ f, Read atofInt f file = some false := by
      intro f
      unfold Read
      rw [if_pos (by omega)]
    exact ⟨hall fuel, hall 0⟩
  · intro h
    exact Read_eq_acceptRoot atofInt fuel file (by rw [h]; decide) (by omega)
  · exact Read_oneString atofInt 5242867 (5 * MEGABYTE) (by rw [← hlen]; exact Nat.le_refl _)
      (by rw [← hlen]; exact Nat.le_refl _)

/-- Witness of C15: the empty file. -/
theorem C15_size_guard_witness :
    (([] : List Nat).length = 0 ∨ 5 * MEGABYTE < ([] : List Nat).length) ∧
    Read (fun _ => 0) 7 [] = some false :=
  ⟨Or.inl rfl, ((C15_size_guard (fun _ => 0) 7 []).1 (Or.inl rfl)).1⟩

/-- C16: a call of `Decode` that returns leaves the cursor at or after the
position it started from, and strictly after it when it returns a node;
`ReadString` and `ReadInteger` always leave it strictly after. -/
theorem C16_cursor_never_rewinds (atofInt : List Nat → Int) (data : List Nat)
    (fuel off : Nat) (r : Option bt_node) (off' : Nat)
    (h : Decode atofInt data fuel off = some (r, off')) :
    off ≤ off' ∧ (r ≠ none → off < off') ∧
    (∀ o, o < (ReadString data o).2) ∧ (∀ o, o < (ReadInteger atofInt data o).2) := by
  have hc := Decode_cursor atofInt data fuel off r off' h
  refine ⟨?_, hc.2, ReadString_cursor data, ReadInteger_cursor atofInt data⟩
  by_cases hr : r = none
  · have := hc.1 hr; omega
  · have := hc.2 hr; omega

/-- Witness of C16: `Decode` on `li7ee` from the start. -/
theorem C16_cursor_never_rewinds_witness :
    Decode (fun _ => 0) (bytes "li7ee") 3 0 =
      some (some (.dt_list 0 5 [some (.dt_integer 1 3 7)]), 5) ∧ 0 ≤ 5 :=
  ⟨rfl, (C16_cursor_never_rewinds (fun _ => 0) (bytes "li7ee") 3 0
    (some (.dt_list 0 5 [some (.dt_integer 1 3 7)])) 5 rfl).1⟩

/-- C20: when `Decode` returns on a buffer, the root is a non-empty dictionary
exactly when the buffer has at least two bytes, the first `'d'` and the second
not `'e'`; for a file within the size limits `Read` then returns true exactly
in that case. -/
theorem C20_first_two_bytes (atofInt : List Nat → Int) (fuel : Nat) (file : List Nat)
    (root : Option bt_node) (off : Nat)
    (h : Decode atofInt file fuel 0 = some (root, off)) :
    ((∃ o l dict, root = some (.dt_dictionary o l dict) ∧ dict ≠ []) ↔
      (2 ≤ file.length ∧ file.getD 0 0 = 100 ∧ file.getD 1 0 ≠ 101)) ∧
    (0 < file.length → file.length ≤ 5 * MEGABYTE →
      (Read atofInt fuel file = some true ↔
        (2 ≤ file.length ∧ file.getD 0 0 = 100 ∧ file.getD 1 0 ≠ 101))) := by
  have key : (∃ o l dict, root = some (.dt_dictionary o l dict) ∧ dict ≠ []) ↔
      (2 ≤ file.length ∧ file.getD 0 0 = 100 ∧ file.getD 1 0 ≠ 101) := by
    cases fuel with
    | zero => simp [Decode] at h
    | succ f =>
      simp only [Decode] at h
      split_ifs at h with h1 h2 h3 h4 h5
      · simp only [Option.some.injEq, Prod.mk.injEq] at h
        obtain ⟨rfl, rfl⟩ := h
        constructor
        · rintro ⟨o, l, dict, hr, -⟩; exact absurd hr (by simp)
        · rintro ⟨hlen, -, -⟩; omega
      · simp only [Option.some.injEq, Prod.mk.injEq] at h
        obtain ⟨rfl, rfl⟩ := h
        constructor
        · rintro ⟨o, l, dict, hr, -⟩; exact absurd hr (by simp)
        · rintro ⟨-, hb, -⟩; omega
      · simp only [Option.some.injEq, Prod.mk.injEq] at h
        obtain ⟨rfl, rfl⟩ := h
        constructor
        · rintro ⟨o, l, dict, hr, -⟩; exact absurd hr (by simp)
        · rintro ⟨-, hb, -⟩; omega
      · cases hl : listLoop (Decode atofInt file f) file f (0 + 1) [] with
        | none => simp [hl] at h
        | some p =>
          obtain ⟨l, o1⟩ := p
          rw [hl] at h
          simp only [Option.some.injEq, Prod.mk.injEq] at h
          obtain ⟨rfl, rfl⟩ := h
          constructor
          · rintro ⟨o, l, dict, hr, -⟩; exact absurd hr (by simp)
          · rintro ⟨-, hb, -⟩; omega
      · cases hl : dictLoop (Decode atofInt file f) file f (0 + 1) [] with
        | none => simp [hl] at h
        | some p =>
          obtain ⟨d, o1⟩ := p
          rw [hl] at h
          simp only [Option.some.injEq, Prod.mk.injEq] at h
          obtain ⟨rfl, rfl⟩ := h
          have hiff := dictLoop_nonempty_iff _ file f (0 + 1) d o1 hl
          constructor
          · rintro ⟨o, l, dict, hr, hne⟩
            simp only [Option.some.injEq, bt_node.dt_dictionary.injEq] at hr
            obtain ⟨-, -, rfl⟩ := hr
            have := hiff.1 hne
            exact ⟨by omega, h5, this.2⟩
          · rintro ⟨hlen, -, hb⟩
            exact ⟨_, _, d, rfl, hiff.2 ⟨by omega, hb⟩⟩
      · simp only [Option.some.injEq, Prod.mk.injEq] at h
        obtain ⟨rfl, rfl⟩ := h
        constructor
        · rintro ⟨o, l, dict, hr, -⟩; exact absurd hr (by simp)
        · rintro ⟨-, hb, -⟩; exact absurd hb h5
  refine ⟨key, ?_⟩
  intro h0 h1
  rw [Read_eq_acceptRoot atofInt fuel file h0 h1, h]
  simp only [Option.map_some', Option.some.injEq]
  rw [acceptRoot_iff]
  exact key

/-- Witness of C20: the malformed file `dxx`, which `Read` accepts. -/
theorem C20_first_two_bytes_witness :
    Decode (fun _ => 0) (bytes "dxx") 3 0 =
      some (some (.dt_dictionary 0 5 [([], none)]), 5) ∧
    0 < (bytes "dxx").length ∧ (bytes "dxx").length ≤ 5 * MEGABYTE ∧
    (Read (fun _ => 0) 3 (bytes "dxx") = some true ↔
      (2 ≤ (bytes "dxx").length ∧ (bytes "dxx").getD 0 0 = 100 ∧ (bytes "dxx").getD 1 0 ≠ 101)) :=
  ⟨rfl, by decide, by decide,
    (C20_first_two_bytes (fun _ => 0) 3 (bytes "dxx")
      (some (.dt_dictionary 0 5 [([], none)])) 5 rfl).2 (by decide) (by decide)⟩

/-! ## Claims about decoded documents -/

/-- C17: for every decoded document the strings that `Magnet` collects are
the announce strings of the specification: the string under `announce` when
the lookup finds a String, then the string leaves of the List found under
`announce-list`, depth-first in list order through nested lists of any
depth, integers and dictionaries giving nothing; the collection always comes
back. -/
theorem C17_announce_collection (atofInt : List Nat → Int) (data : List Nat) (fuel : Nat)
    (root : bt_node) (off : Nat)
    (h : Decode atofInt data fuel 0 = some (some root, off)) :
    collectAnnounce (some root) = some (announceStrings (some root)) :=
  collectAnnounce_inv data root (Decode_inv atofInt data fuel 0 root off h)

/-- Witness of C17: `announceTorrent` gives `z`, `a`, `b`. -/
theorem C17_announce_collection_witness :
    Decode (fun _ => 0) announceTorrent 6 0 = some (some announceTorrentRoot, 54) ∧
    announceStrings (some announceTorrentRoot) = [bytes "z", bytes "a", bytes "b"] ∧
    collectAnnounce (some announceTorrentRoot) = some (announceStrings (some announceTorrentRoot)) :=
  ⟨rfl, by decide,
    C17_announce_collection (fun _ => 0) announceTorrent 6 announceTorrentRoot 54 rfl⟩

/-- C18: in the tree that `Decode` returns, every List node at any depth has
only present children, and `GetAnnounceList` comes back on every node of the
tree; a dictionary can hold a null value: `d1:ae` decodes to the key `a` with
no node, and `Search` of `a` returns nothing. -/
theorem C18_list_children_present (atofInt : List Nat → Int) (data : List Nat)
    (fuel off : Nat) (root : bt_node) (off' : Nat)
    (h : Decode atofInt data fuel off = some (some root, off')) :
    (∀ x ∈ root.nodes, ∀ o l items, x = .dt_list o l items → ∀ c ∈ items, c ≠ none) ∧
    (∀ x ∈ root.nodes, ∀ list, GetAnnounceList (some x) list ≠ none) ∧
    Decode atofInt (bytes "d1:ae") 3 0 = some (some (.dt_dictionary 0 5 [(bytes "a", none)]), 5) ∧
    Search (bytes "a") (some (.dt_dictionary 0 5 [(bytes "a", none)])) = none := by
  have hroot := Decode_inv atofInt data fuel off root off' h
  refine ⟨?_, ?_, rfl, rfl⟩
  · intro x hx o l items hxe c hc
    have hxi := nodeInv_nodes data root hroot x hx
    subst hxe
    simp only [nodeInv, Bool.and_eq_true] at hxi
    obtain ⟨n, hn, -⟩ := itemsInv_mem data items hxi.2 c hc
    rw [hn]
    simp
  · intro x hx list
    have hxi := nodeInv_nodes data root hroot x hx
    cases x with
    | dt_list o l items =>
      simp only [nodeInv, Bool.and_eq_true] at hxi
      simp only [GetAnnounceList]
      rw [announceItems_leaves data items list hxi.2]
      simp
    | dt_string o l s => simp [GetAnnounceList]
    | dt_integer o l i => simp [GetAnnounceList]
    | dt_dictionary o l d => simp [GetAnnounceList]

/-- Witness of C18: the list inside `announceTorrent`. -/
theorem C18_list_children_present_witness :
    Decode (fun _ => 0) announceTorrent 6 0 = some (some announceTorrentRoot, 54) ∧
    (∀ x ∈ announceTorrentRoot.nodes, ∀ o l items, x = .dt_list o l items →
      ∀ c ∈ items, c ≠ none) :=
  ⟨rfl, (C18_list_children_present (fun _ => 0) announceTorrent 6 0 announceTorrentRoot 54 rfl).1⟩

theorem nodeInv_head (data : List Nat) (n : bt_node) (h : nodeInv data n = true) :
    n.offset < data.length ∧ 1 ≤ n.length ∧
      (isDict n = true ↔ data.getD n.offset 0 = 100) := by
  cases n with
  | dt_string o l s =>
    simp only [nodeInv, Bool.and_eq_true, decide_eq_true_eq, isDigit_iff] at h
    simp only [bt_node.offset, bt_node.length, isDict]
    refine ⟨h.1.1, h.1.2, ?_⟩
    constructor
    · intro e; exact absurd e (by simp)
    · intro e; omega
  | dt_integer o l i =>
    simp only [nodeInv, Bool.and_eq_true, decide_eq_true_eq, beq_iff_eq] at h
    simp only [bt_node.offset, bt_node.length, isDict]
    refine ⟨h.1.1, h.1.2, ?_⟩
    constructor
    · intro e; exact absurd e (by simp)
    · intro e; omega
  | dt_list o l items =>
    simp only [nodeInv, Bool.and_eq_true, decide_eq_true_eq, beq_iff_eq] at h
    simp only [bt_node.offset, bt_node.length, isDict]
    refine ⟨h.1.1.1, h.1.1.2, ?_⟩
    constructor
    · intro e; exact absurd e (by simp)
    · intro e; omega
  | dt_dictionary o l d =>
    simp only [nodeInv, Bool.and_eq_true, decide_eq_true_eq, beq_iff_eq] at h
    simp only [bt_node.offset, bt_node.length, isDict]
    refine ⟨h.1.1.1, h.1.1.2, ?_⟩
    exact ⟨fun _ => h.1.2, fun _ => trivial⟩

theorem slice_headD (data : List Nat) (o l : Nat) (hl : 1 ≤ l) :
    (slice data o l).headD 0 = data.getD o 0 := by
  rw [getD_eq_headD_drop]
  unfold slice
  cases data.drop o with
  | nil => simp
  | cons b rest =>
    obtain ⟨m, rfl⟩ : ∃ m, l = m + 1 := ⟨l - 1, by omega⟩
    rfl

theorem CalcInfoHash_of_node (sha1 : List Nat → List Nat) (data : List Nat)
    (m_root : Option bt_node) (info : bt_node)
    (h : Search (bytes "info") m_root = some info) :
    CalcInfoHash sha1 data m_root =
      if isDict info = true then
        (if info.offset + info.length ≤ data.length then
          some ((sha1 (slice data info.offset info.length)).flatMap hex02x)
        else none)
      else some [] := by
  unfold CalcInfoHash
  rw [h]
  cases info <;> simp [isDict, bt_node.offset, bt_node.length]

/-- Two decoded documents whose info nodes span, inside their buffers,
equal byte sequences and whose collected announce strings have the same
members give the same result of `Magnet`, a string or none. -/
theorem Magnet_same_result (atofInt : List Nat → Int)
    (sha1 : List Nat → List Nat) (data1 data2 : List Nat) (fuel1 fuel2 : Nat)
    (root1 root2 : bt_node) (end1 end2 : Nat) (info1 info2 : bt_node)
    (list1 list2 : List (List Nat))
    (hd1 : Decode atofInt data1 fuel1 0 = some (some root1, end1))
    (hd2 : Decode atofInt data2 fuel2 0 = some (some root2, end2))
    (hi1 : Search (bytes "info") (some root1) = some info1)
    (hi2 : Search (bytes "info") (some root2) = some info2)
    (hin1 : info1.offset + info1.length ≤ data1.length)
    (hin2 : info2.offset + info2.length ≤ data2.length)
    (hs : slice data1 info1.offset info1.length = slice data2 info2.offset info2.length)
    (hc1 : collectAnnounce (some root1) = some list1)
    (hc2 : collectAnnounce (some root2) = some list2)
    (hset : ∀ s, s ∈ list1 ↔ s ∈ list2) :
    Magnet sha1 data1 (some root1) = Magnet sha1 data2 (some root2) := by
  have hn1 := nodeInv_head data1 info1
    (Search_inv data1 _ root1 info1 (Decode_inv atofInt data1 fuel1 0 root1 end1 hd1) hi1)
  have hn2 := nodeInv_head data2 info2
    (Search_inv data2 _ root2 info2 (Decode_inv atofInt data2 fuel2 0 root2 end2 hd2) hi2)
  have hb : data1.getD info1.offset 0 = data2.getD info2.offset 0 := by
    rw [← slice_headD data1 _ _ hn1.2.1, ← slice_headD data2 _ _ hn2.2.1, hs]
  have hdict : isDict info1 = isDict info2 := by
    cases h1 : isDict info1 with
    | true =>
      have := hn1.2.2.1 h1
      rw [hb] at this
      exact (hn2.2.2.2 this).symm
    | false =>
      cases h2 : isDict info2 with
      | false => rfl
      | true =>
        have := hn2.2.2.1 h2
        rw [← hb] at this
        rw [hn1.2.2.2 this] at h1
        exact absurd h1 (by simp)
  have hcalc : CalcInfoHash sha1 data1 (some root1) = CalcInfoHash sha1 data2 (some root2) := by
    rw [CalcInfoHash_of_node sha1 data1 _ info1 hi1, CalcInfoHash_of_node sha1 data2 _ info2 hi2,
      hdict, if_pos hin1, if_pos hin2, hs]
  unfold Magnet
  simp only [hcalc, hc1, hc2, unique_sort_ext list1 list2 hset]

/-! ## The hash text read back -/

theorem hexDigitValue_hexLower (n : Nat) (h : n < 16) : hexDigitValue (hexLower n) = some n := by
  interval_cases n <;> rfl

/-- The hash text of `CalcInfoHash` read back as lower-case hexadecimal, two
digits for a byte and the high digit first, gives the bytes it was written
from. -/
theorem unhexLower_hex02x : ∀ (l : List Nat), (∀ b ∈ l, b < 256) →
    unhexLower (l.flatMap hex02x) = some l := by
  intro l
  induction l with
  | nil => intro _; rfl
  | cons b rest ih =>
    intro h
    have hb : b < 256 := h b (by simp)
    have hrest := ih (fun c hc => h c (by simp [hc]))
    have hcons : (b :: rest).flatMap hex02x =
        hexLower (b / 16 % 16) :: hexLower (b % 16) :: rest.flatMap hex02x := by
      simp [List.flatMap, hex02x]
    rw [hcons]
    simp only [unhexLower]
    rw [hexDigitValue_hexLower _ (Nat.mod_lt _ (by decide)),
      hexDigitValue_hexLower _ (Nat.mod_lt _ (by decide)), hrest]
    simp only [Option.some.injEq, List.cons.injEq, and_true]
    omega

/-- C1: the buffer `d4:infod4:name3:abce8:announce20:http://tracker.test/e` decodes,
with fuel 4 or more, to a root dictionary whose `info` value is a dictionary
holding `name` = "abc", and `Read` accepts it; the info node spans offset 7,
length 13, the bytes `d4:name3:abce`; and `Magnet` returns
`magnet:?xt=urn:btih:`, the hash text of the SHA-1 of those bytes, then
`&tr=http%3A%2F%2Ftracker%2Etest%2F`. The hash text has 40 characters and,
the digest being bytes, reads back as lower-case hexadecimal to the 20 bytes
of the digest, high digit first; for the digest
`0c3b1833b425f70628722acc387340ffe0214cf5` of these 13 bytes it is that
text. -/
theorem C1_minimal_torrent (atofInt : List Nat → Int) (sha1 : List Nat → List Nat)
    (fuel : Nat) (hsha : (sha1 (bytes "d4:name3:abce")).length = 20) (hfuel : 4 ≤ fuel) :
    Decode atofInt minimalTorrent fuel 0 = some (some minimalTorrentRoot, minimalTorrent.length) ∧
    Read atofInt fuel minimalTorrent = some true ∧
    Search (bytes "info") (some minimalTorrentRoot) =
      some (.dt_dictionary 7 13 [(bytes "name", some (.dt_string 14 5 (bytes "abc")))]) ∧
    Search (bytes "name") (Search (bytes "info") (some minimalTorrentRoot)) =
      some (.dt_string 14 5 (bytes "abc")) ∧
    slice minimalTorrent 7 13 = bytes "d4:name3:abce" ∧
    Magnet sha1 minimalTorrent (some minimalTorrentRoot) =
      some ("magnet:?xt=urn:btih:".toList ++ (sha1 (bytes "d4:name3:abce")).flatMap hex02x ++
        "&tr=http%3A%2F%2Ftracker%2Etest%2F".toList) ∧
    ((sha1 (bytes "d4:name3:abce")).flatMap hex02x).length = 40 ∧
    ((∀ b ∈ sha1 (bytes "d4:name3:abce"), b < 256) →
      unhexLower ((sha1 (bytes "d4:name3:abce")).flatMap hex02x) =
        some (sha1 (bytes "d4:name3:abce"))) ∧
    (sha1 (bytes "d4:name3:abce") = infoDigest →
      Magnet sha1 minimalTorrent (some minimalTorrentRoot) =
        some ("magnet:?xt=urn:btih:0c3b1833b425f70628722acc387340ffe0214cf5".toList ++
          "&tr=http%3A%2F%2Ftracker%2Etest%2F".toList)) := by
  have hdec : Decode atofInt minimalTorrent 4 0 =
      some (some minimalTorrentRoot, minimalTorrent.length) := rfl
  have hdec' := Decode_mono atofInt minimalTorrent 4 fuel 0 _ hfuel hdec
  have hsl : slice minimalTorrent 7 13 = bytes "d4:name3:abce" := rfl
  have hmag : Magnet sha1 minimalTorrent (some minimalTorrentRoot) =
      some ("magnet:?xt=urn:btih:".toList ++ (sha1 (bytes "d4:name3:abce")).flatMap hex02x ++
        "&tr=http%3A%2F%2Ftracker%2Etest%2F".toList) := by
    have h := Magnet_of_info sha1 minimalTorrent (some minimalTorrentRoot) 7 13
      [(bytes "name", some (.dt_string 14 5 (bytes "abc")))] [bytes "http://tracker.test/"]
      "&tr=http%3A%2F%2Ftracker%2Etest%2F".toList rfl (by decide) (by rw [hsl]; exact hsha)
      rfl rfl
    rw [hsl] at h
    exact h
  refine ⟨hdec', ?_, rfl, rfl, hsl, hmag, ?_, ?_, ?_⟩
  · unfold Read
    rw [if_neg (by decide), hdec']
    rfl
  · rw [hex02x_flatMap_length, hsha]
  · exact unhexLower_hex02x _
  · intro hd
    rw [hmag, hd]
    rfl

/-- Witness of C1: with the SHA-1 digest of `d4:name3:abce` as the digest,
fuel 4, the magnet string in full. -/
theorem C1_minimal_torrent_witness :
    ((fun _ => infoDigest : List Nat → List Nat) (bytes "d4:name3:abce")).length = 20 ∧
    4 ≤ 4 ∧
    Magnet (fun _ => infoDigest) minimalTorrent (some minimalTorrentRoot) =
      some ("magnet:?xt=urn:btih:0c3b1833b425f70628722acc387340ffe0214cf5".toList ++
          "&tr=http%3A%2F%2Ftracker%2Etest%2F".toList) ∧
    unhexLower "0c3b1833b425f70628722acc387340ffe0214cf5".toList = some infoDigest :=
  ⟨by decide, by decide,
    (C1_minimal_torrent (fun _ => 0) (fun _ => infoDigest) 4 (by decide)
      (by decide)).2.2.2.2.2.2.2.2 rfl,
    by decide⟩

/-! ## `Decode` on a bounded stack -/

theorem DecodeOnStack_string (atofInt : List Nat → Int) (data : List Nat) (fuel frames off : Nat)
    (h1 : off < data.length) (h2 : 48 ≤ data.getD off 0 ∧ data.getD off 0 ≤ 57) :
    DecodeOnStack atofInt data fuel (frames + 1) off =
      some (some (.dt_string off ((ReadString data off).2 - off) (ReadString data off).1),
        (ReadString data off).2) := by
  simp only [DecodeOnStack]
  rw [if_neg (by omega), if_pos (by omega)]

theorem DecodeOnStack_integer (atofInt : List Nat → Int) (data : List Nat)
    (fuel frames off : Nat) (h1 : off < data.length) (h2 : data.getD off 0 = 105) :
    DecodeOnStack atofInt data fuel (frames + 1) off =
      some (some (.dt_integer off ((ReadInteger atofInt data (off + 1)).2 - off)
        (ReadInteger atofInt data (off + 1)).1), (ReadInteger atofInt data (off + 1)).2) := by
  simp only [DecodeOnStack]
  rw [if_neg (by omega), if_neg (by omega), if_pos h2]

theorem DecodeOnStack_list (atofInt : List Nat → Int) (data : List Nat) (fuel frames off : Nat)
    (h1 : off < data.length) (h2 : data.getD off 0 = 108)
    (r : Option (List (Option bt_node) × Nat))
    (hl : listLoop (DecodeOnStack atofInt data fuel frames) data fuel (off + 1) [] = r) :
    DecodeOnStack atofInt data fuel (frames + 1) off =
      r.map (fun p => (some (.dt_list off (p.2 + 1 - off) p.1), p.2 + 1)) := by
  simp only [DecodeOnStack]
  rw [if_neg (by omega), if_neg (by omega), if_neg (by omega), if_pos h2, hl]
  cases r with
  | none => rfl
  | some p => rfl

theorem DecodeOnStack_dictionary (atofInt : List Nat → Int) (data : List Nat)
    (fuel frames off : Nat) (h1 : off < data.length) (h2 : data.getD off 0 = 100)
    (r : Option (List (List Nat × Option bt_node) × Nat))
    (hl : dictLoop (DecodeOnStack atofInt data fuel frames) data fuel (off + 1) [] = r) :
    DecodeOnStack atofInt data fuel (frames + 1) off =
      r.map (fun p => (some (.dt_dictionary off (p.2 + 1 - off) p.1), p.2 + 1)) := by
  simp only [DecodeOnStack]
  rw [if_neg (by omega), if_neg (by omega), if_neg (by omega), if_neg (by omega), if_pos h2, hl]
  cases r with
  | none => rfl
  | some p => rfl

/-- Whatever `Decode` returns on a stack of `frames` calls, with `fuel` for
its loops, it returns with the fuel `fuel + frames`: the two functions differ
only where the bounded stack overflows. -/
theorem DecodeOnStack_Decode (atofInt : List Nat → Int) (data : List Nat) (fuel : Nat) :
    ∀ (frames off : Nat) r, DecodeOnStack atofInt data fuel frames off = some r →
      Decode atofInt data (fuel + frames) off = some r := by
  intro frames
  induction frames with
  | zero => intro off r hr; simp [DecodeOnStack] at hr
  | succ n ih =>
    intro off r hr
    have hdec : ∀ off r, DecodeOnStack atofInt data fuel n off = some r →
        Decode atofInt data (fuel + n) off = some r := ih
    rw [← Nat.add_assoc]
    simp only [DecodeOnStack] at hr
    simp only [Decode]
    split_ifs at hr ⊢ with h1 h2 h3 h4 h5
    · exact hr
    · exact hr
    · exact hr
    · cases hl : listLoop (DecodeOnStack atofInt data fuel n) data fuel (off + 1) [] with
      | none => simp [hl] at hr
      | some p =>
        rw [hl] at hr
        rw [listLoop_mono data hdec fuel (fuel + n) _ _ _ (by omega) hl]
        exact hr
    · cases hl : dictLoop (DecodeOnStack atofInt data fuel n) data fuel (off + 1) [] with
      | none => simp [hl] at hr
      | some p =>
        rw [hl] at hr
        rw [dictLoop_mono data hdec fuel (fuel + n) _ _ _ (by omega) hl]
        exact hr
    · exact hr

theorem depthItems_mem : ∀ (items : List Value), ∀ v ∈ items, v.depth ≤ depthItems items := by
  intro items
  induction items with
  | nil => intro v hv; simp at hv
  | cons w ws ih =>
    intro v hv
    simp only [depthItems]
    rcases List.mem_cons.1 hv with rfl | hv
    · omega
    · have := ih v hv
      omega

theorem depthEntries_mem : ∀ (es : List (List Nat × Value)),
    ∀ e ∈ es, e.2.depth ≤ depthEntries es := by
  intro es
  induction es with
  | nil => intro e he; simp at he
  | cons w ws ih =>
    intro e he
    obtain ⟨k, v⟩ := w
    simp only [depthEntries]
    rcases List.mem_cons.1 he with rfl | he
    · simp only
      omega
    · have := ih e he
      omega

theorem depth_pos (v : Value) : 1 ≤ v.depth := by
  cases v <;> simp [Value.depth]

/-- Decoding the text of a well-formed value on a stack with room for its
depth, with fuel for the length of the text: `Decode` returns the expected
tree and stops right after the text. -/
theorem DecodeOnStack_encode (atofInt : List Nat → Int) (data : List Nat) (fuel : Nat)
    (hlen : data.length < 2 ^ 31) :
    ∀ (frames : Nat) (v : Value) (off : Nat) (post : List Nat), v.wf = true →
      v.depth ≤ frames → (encode v).length ≤ fuel → data.drop off = encode v ++ post →
      (∀ s, v = .str s → post ≠ []) →
      DecodeOnStack atofInt data fuel frames off =
        some (some (treeAt v off), off + (encode v).length) := by
  intro frames
  induction frames with
  | zero =>
    intro v off post _ hdp _ _ _
    have := depth_pos v
    omega
  | succ f ih =>
    intro v off post hwf hdp hf hd hstr
    cases v with
    | str s =>
      simp only [encode] at hd hf ⊢
      obtain ⟨b, tl, hb, hb'⟩ := decimal_head s.length
      have hd2 : data.drop off = b :: (tl ++ 58 :: s ++ post) := by
        rw [hd, encodeStr, hb]; simp
      obtain ⟨h1, h2⟩ := head_of_drop data off _ _ hd2
      rw [DecodeOnStack_string atofInt data fuel f off h1 (by omega),
        ReadString_encodeStr data off s post hd (hstr s rfl) hlen]
      simp [treeAt]
    | int i =>
      simp only [encode, List.length_cons, List.length_append, List.length_singleton,
        List.length_nil] at hd hf ⊢
      simp only [Value.wf, decide_eq_true_eq] at hwf
      have hd2 : data.drop off = [105] ++ (decimalInt i ++ 101 :: post) := by
        simp [hd]
      obtain ⟨h1, h2⟩ := head_of_drop data off 105 _ hd2
      have hd3 : data.drop (off + 1) = _ := drop_add_of_drop_eq data off _ _ hd2
      rw [DecodeOnStack_integer atofInt data fuel f off h1 h2,
        ReadInteger_decimalInt atofInt data _ i post hd3 hwf.1 hwf.2]
      simp only [treeAt, List.length_cons, List.length_append, List.length_nil, List.length_singleton]
      simp only [Option.some.injEq, Prod.mk.injEq, bt_node.dt_integer.injEq,
        bt_node.dt_list.injEq, bt_node.dt_dictionary.injEq, true_and, and_true]
      omega
    | list items =>
      simp only [encode, List.length_cons, List.length_append, List.length_singleton,
        List.length_nil] at hd hf ⊢
      simp only [Value.wf] at hwf
      simp only [Value.depth] at hdp
      have hd2 : data.drop off = [108] ++ (encodeItems items ++ 101 :: post) := by
        simp [hd]
      obtain ⟨h1, h2⟩ := head_of_drop data off 108 _ hd2
      have hd3 : data.drop (off + 1) = _ := drop_add_of_drop_eq data off _ _ hd2
      have hlens := encodeItems_length items
      have hloop := listLoop_items (DecodeOnStack atofInt data fuel f) data items fuel
        (off + 1) [] post
        (fun v hv o p hdo hp => ih v o p (wfItems_mem items hwf v hv)
          (by have := depthItems_mem items v hv; omega)
          (by have := hlens.2 v hv; omega) hdo (fun _ _ => hp))
        hd3 (by omega)
      rw [DecodeOnStack_list atofInt data fuel f off h1 h2 _ hloop]
      simp only [treeAt, List.nil_append, Option.map]
      simp only [Option.some.injEq, Prod.mk.injEq, bt_node.dt_integer.injEq,
        bt_node.dt_list.injEq, bt_node.dt_dictionary.injEq, true_and, and_true]
      omega
    | dict es =>
      simp only [encode, List.length_cons, List.length_append, List.length_singleton,
        List.length_nil] at hd hf ⊢
      simp only [Value.wf, Bool.and_eq_true, decide_eq_true_eq] at hwf
      simp only [Value.depth] at hdp
      have hd2 : data.drop off = [100] ++ (encodeEntries es ++ 101 :: post) := by
        simp [hd]
      obtain ⟨h1, h2⟩ := head_of_drop data off 100 _ hd2
      have hd3 : data.drop (off + 1) = _ := drop_add_of_drop_eq data off _ _ hd2
      have hlens := encodeEntries_length es
      have hloop := dictLoop_entries (DecodeOnStack atofInt data fuel f) data hlen es fuel
        (off + 1) [] post
        (fun e he o p hdo hp => ih e.2 o p (wfEntries_mem es hwf.1 e he)
          (by have := depthEntries_mem es e he; omega)
          (by have := hlens.2 e he; omega) hdo (fun _ _ => hp))
        hd3 (by omega)
      rw [insertAll_sorted _ [] (by simpa using entriesAt_sorted es (off + 1) hwf.2)] at hloop
      rw [DecodeOnStack_dictionary atofInt data fuel f off h1 h2 _ hloop]
      simp only [treeAt, List.nil_append, Option.map]
      simp only [Option.some.injEq, Prod.mk.injEq, bt_node.dt_integer.injEq,
        bt_node.dt_list.injEq, bt_node.dt_dictionary.injEq, true_and, and_true]
      omega

/-- Round trip on a bounded stack: for a well-formed value whose root is a
non-empty dictionary and whose text has at most 5 MiB, a stack with room for
the depth of the value and fuel for the length of the text give the expected
tree, and `Read` accepts the file. -/
theorem DecodeOnStack_roundtrip (atofInt : List Nat → Int) (es : List (List Nat × Value))
    (fuel frames : Nat) (hne : es ≠ []) (hwf : (Value.dict es).wf = true)
    (hsize : (encode (.dict es)).length ≤ 5 * MEGABYTE)
    (hframes : (Value.dict es).depth ≤ frames)
    (hfuel : (encode (.dict es)).length ≤ fuel) :
    DecodeOnStack atofInt (encode (.dict es)) fuel frames 0 =
      some (some (treeAt (.dict es) 0), (encode (.dict es)).length) ∧
    ReadOnStack atofInt fuel frames (encode (.dict es)) = some true := by
  have hdec : DecodeOnStack atofInt (encode (.dict es)) fuel frames 0 =
      some (some (treeAt (.dict es) 0), (encode (.dict es)).length) := by
    have := DecodeOnStack_encode atofInt (encode (.dict es)) fuel
      (size_lt_of_le_ceiling _ hsize) frames (.dict es) 0 [] hwf hframes hfuel (by simp)
      (fun s h => by cases h)
    simpa using this
  refine ⟨hdec, ?_⟩
  have hpos := encode_length_pos (.dict es)
  unfold ReadOnStack
  rw [if_neg (by omega), hdec]
  cases es with
  | nil => exact absurd rfl hne
  | cons e rest =>
    obtain ⟨k, v⟩ := e
    simp [treeAt, entriesAt]

theorem nestedLists_encode_succ (n : Nat) :
    encode (nestedLists (n + 1)) = 108 :: (encode (nestedLists n) ++ [101]) := by
  simp [nestedLists, encode, encodeItems]

theorem nestedLists_length (n : Nat) : (encode (nestedLists n)).length = 2 * n + 2 := by
  induction n with
  | zero => rfl
  | succ n ih =>
    rw [nestedLists_encode_succ]
    simp only [List.length_cons, List.length_append, List.length_singleton, List.length_nil, ih]
    omega

theorem nestedLists_wf (n : Nat) : (nestedLists n).wf = true := by
  induction n with
  | zero => rfl
  | succ n ih => simp [nestedLists, Value.wf, wfItems, ih]

theorem nestedLists_depth (n : Nat) : (nestedLists n).depth = n + 1 := by
  induction n with
  | zero => rfl
  | succ n ih => simp [nestedLists, Value.depth, depthItems, ih]

theorem deepValue_encode (n : Nat) :
    encode (deepValue n) = bytes "d1:a" ++ (encode (nestedLists n) ++ [101]) := by
  simp [deepValue, encode, encodeEntries, encodeStr, bytes, decimal]
  rfl

theorem deepValue_length (n : Nat) : (encode (deepValue n)).length = 2 * n + 7 := by
  rw [deepValue_encode]
  simp only [List.length_append, nestedLists_length]
  simp [bytes]
  omega

theorem deepValue_wf (n : Nat) : (deepValue n).wf = true := by
  simp [deepValue, Value.wf, wfEntries, keysOf, nestedLists_wf]

theorem deepValue_depth (n : Nat) : (deepValue n).depth = n + 2 := by
  simp [deepValue, Value.depth, depthEntries, nestedLists_depth]

/-- A stack with room for at most `n` nested calls overflows on the text of
`nestedLists n`, which takes `n + 1` of them. -/
theorem DecodeOnStack_nestedLists (atofInt : List Nat → Int) (data : List Nat) (fuel : Nat) :
    ∀ (frames n off : Nat) (post : List Nat), frames ≤ n →
      data.drop off = encode (nestedLists n) ++ post →
      DecodeOnStack atofInt data fuel frames off = none := by
  intro frames
  induction frames with
  | zero => intro n off post _ _; rfl
  | succ f ih =>
    intro n off post hle hd
    obtain ⟨m, rfl⟩ : ∃ m, n = m + 1 := ⟨n - 1, by omega⟩
    rw [nestedLists_encode_succ] at hd
    have hd2 : data.drop off = [108] ++ (encode (nestedLists m) ++ ([101] ++ post)) := by
      simp [hd]
    obtain ⟨h1, h2⟩ := head_of_drop data off 108 _ hd2
    have hd3 : data.drop (off + 1) = encode (nestedLists m) ++ ([101] ++ post) :=
      drop_add_of_drop_eq data off _ _ hd2
    have hin := ih m (off + 1) _ (by omega) hd3
    have hloop : listLoop (DecodeOnStack atofInt data fuel f) data fuel (off + 1) [] = none := by
      cases fuel with
      | zero => rfl
      | succ g =>
        obtain ⟨b, tl, hb, hb'⟩ := encode_head (nestedLists m)
        have hd4 : data.drop (off + 1) = b :: (tl ++ ([101] ++ post)) := by
          rw [hd3, hb]; rfl
        obtain ⟨h3, h4⟩ := head_of_drop data (off + 1) _ _ hd4
        simp only [listLoop]
        rw [if_pos ⟨h3, by omega⟩, hin]
    rw [DecodeOnStack_list atofInt data fuel f off h1 h2 _ hloop]
    rfl

/-- A stack with room for at most `n + 1` nested calls overflows on the text
of `deepValue n`, a file of `2 * n + 7` bytes. -/
theorem DecodeOnStack_deepValue (atofInt : List Nat → Int) (fuel frames n : Nat)
    (hle : frames ≤ n + 1) (hlen : (encode (deepValue n)).length < 2 ^ 31) :
    DecodeOnStack atofInt (encode (deepValue n)) fuel frames 0 = none := by
  cases frames with
  | zero => rfl
  | succ f =>
    have hd : (encode (deepValue n)).drop 0 =
        [100] ++ (encodeEntries [([97], nestedLists n)] ++ 101 :: []) := by
      simp [deepValue, encode]
    obtain ⟨h1, h2⟩ := head_of_drop _ 0 100 _ hd
    have hd1 : (encode (deepValue n)).drop (0 + 1) =
        encodeStr [97] ++ (encode (nestedLists n) ++ [101]) := by
      have h := drop_add_of_drop_eq _ 0 _ _ hd
      simp only [List.length_singleton] at h
      rw [h]
      simp [encodeEntries]
    have hrs := ReadString_encodeStr (encode (deepValue n)) (0 + 1) [97] _ hd1 (by simp) hlen
    have hd2 : (encode (deepValue n)).drop (0 + 1 + (encodeStr [97]).length) =
        encode (nestedLists n) ++ [101] := drop_add_of_drop_eq _ _ _ _ hd1
    have hin := DecodeOnStack_nestedLists atofInt (encode (deepValue n)) fuel f n _ _
      (by omega) hd2
    have hloop : dictLoop (DecodeOnStack atofInt (encode (deepValue n)) fuel f)
        (encode (deepValue n)) fuel (0 + 1) [] = none := by
      cases fuel with
      | zero => rfl
      | succ g =>
        have hd3 : (encode (deepValue n)).drop (0 + 1) =
            49 :: ([58, 97] ++ (encode (nestedLists n) ++ [101])) := by
          rw [hd1]; rfl
        obtain ⟨h3, h4⟩ := head_of_drop _ (0 + 1) _ _ hd3
        simp only [dictLoop]
        rw [if_pos ⟨h3, by omega⟩, hrs]
        simp only
        rw [hin]
    rw [DecodeOnStack_dictionary atofInt _ fuel f 0 h1 h2 _ hloop]
    rfl

/-- C2 (failing input): the file `d1:a`, then `n + 1` times `l`, `n + 1` times
`e`, and `e` is the standard text of a well-formed value whose root is a
dictionary with the one key `a`; it has `2 * n + 7` bytes, within the 5 MiB
ceiling. `Decode` calls itself once for every nested list, on the native
stack, so on a stack with room for at most `n + 1` nested calls the stack
overflows before `Read` has a tree, whatever the fuel of the loops is. With
room for `n + 2` calls the tree the claim describes comes back, as it does
from `Decode` with its fuel. -/
theorem C2_deep_nesting_overflows (atofInt : List Nat → Int) (n frames fuel : Nat)
    (hsize : (encode (deepValue n)).length ≤ 5 * MEGABYTE) (hframes : frames ≤ n + 1) :
    (deepValue n).wf = true ∧
    (encode (deepValue n)).length = 2 * n + 7 ∧
    DecodeOnStack atofInt (encode (deepValue n)) fuel frames 0 = none ∧
    ReadOnStack atofInt fuel frames (encode (deepValue n)) = none ∧
    DecodeOnStack atofInt (encode (deepValue n)) (fuel + (2 * n + 7)) (n + 2) 0 =
      some (some (treeAt (deepValue n) 0), 2 * n + 7) ∧
    Decode atofInt (encode (deepValue n)) (fuel + (2 * n + 7)) 0 =
      some (some (treeAt (deepValue n) 0), 2 * n + 7) := by
  have hl := deepValue_length n
  have hlen := size_lt_of_le_ceiling _ hsize
  have hnone := DecodeOnStack_deepValue atofInt fuel frames n hframes hlen
  refine ⟨deepValue_wf n, hl, hnone, ?_, ?_, ?_⟩
  · unfold ReadOnStack
    rw [if_neg (by omega), hnone]
  · have := DecodeOnStack_encode atofInt (encode (deepValue n)) (fuel + (2 * n + 7)) hlen
      (n + 2) (deepValue n) 0 [] (deepValue_wf n) (by rw [deepValue_depth]) (by omega)
      (by simp) (fun s h => by cases h)
    rw [this, hl]
    simp
  · have := Decode_encode atofInt (encode (deepValue n)) hlen (fuel + (2 * n + 7))
      (deepValue n) 0 [] (deepValue_wf n) (by omega) (by simp) (fun s h => by cases h)
    rw [this, hl]
    simp

/-- Witness of C2: two nested lists under the key `a`, the 11 bytes
`d1:allleeee`, on a stack with room for three nested calls. -/
theorem C2_deep_nesting_overflows_witness :
    (encode (deepValue 2)).length ≤ 5 * MEGABYTE ∧ 3 ≤ 2 + 1 ∧
    encode (deepValue 2) = bytes "d1:allleeee" ∧
    DecodeOnStack (fun _ => 0) (encode (deepValue 2)) 11 3 0 = none ∧
    ReadOnStack (fun _ => 0) 11 3 (encode (deepValue 2)) = none :=
  ⟨by decide, by decide, by decide,
    (C2_deep_nesting_overflows (fun _ => 0) 2 3 11 (by decide) (by decide)).2.2.1,
    (C2_deep_nesting_overflows (fun _ => 0) 2 3 11 (by decide) (by decide)).2.2.2.1⟩

/-! ## What `Magnet` emits for the trackers -/

theorem encodeList_ascii : ∀ (list : List (List Nat)), (∀ s ∈ list, ∀ b ∈ s, b < 128) →
    encodeList list = some (list.flatMap (fun s => "&tr=".toList ++ s.flatMap percentByte)) := by
  intro list
  induction list with
  | nil => intro _; rfl
  | cons s rest ih =>
    intro h
    simp only [encodeList]
    rw [encodeItem_ascii s (h s (by simp)), ih (fun t ht => h t (by simp [ht]))]
    simp [List.flatMap]

theorem encodeList_high : ∀ (list : List (List Nat)), (∃ s ∈ list, ∃ b ∈ s, 128 ≤ b) →
    encodeList list = none := by
  intro list
  induction list with
  | nil => intro h; obtain ⟨s, hs, -⟩ := h; simp at hs
  | cons t rest ih =>
    intro h
    obtain ⟨s, hs, hb⟩ := h
    simp only [encodeList]
    rcases List.mem_cons.1 hs with rfl | hs
    · rw [encodeItem_high s hb]
    · rw [ih ⟨s, hs, hb⟩]
      cases encodeItem t <;> rfl

/-- With a hash text and every collected string of 7-bit bytes, `Magnet` is
the prefix, the hash text, and then for each string of `unique (sort list)`,
in that order, `&tr=` and the string percent-encoded. -/
theorem Magnet_trackers (sha1 : List Nat → List Nat) (data : List Nat)
    (m_root : Option bt_node) (hashCode : wstring) (list : List (List Nat))
    (hcalc : CalcInfoHash sha1 data m_root = some hashCode) (hne : hashCode ≠ [])
    (hcol : collectAnnounce m_root = some list) (h7 : ∀ s ∈ list, ∀ b ∈ s, b < 128) :
    Magnet sha1 data m_root =
      some ("magnet:?xt=urn:btih:".toList ++ hashCode ++
        (unique (sort list)).flatMap (fun s => "&tr=".toList ++ s.flatMap percentByte)) := by
  have henc := encodeList_ascii (unique (sort list))
    (fun s hs => h7 s ((mem_sort s list).1 ((mem_unique s (sort list)).1 hs)))
  unfold Magnet
  rw [hcalc]
  simp only [if_neg hne, hcol, henc]

/-- With a hash text and a collected string that holds a byte from `0x80`
on, `Magnet` returns no string. -/
theorem Magnet_high_byte (sha1 : List Nat → List Nat) (data : List Nat)
    (m_root : Option bt_node) (hashCode : wstring) (list : List (List Nat))
    (hcalc : CalcInfoHash sha1 data m_root = some hashCode) (hne : hashCode ≠ [])
    (hcol : collectAnnounce m_root = some list) (h8 : ∃ s ∈ list, ∃ b ∈ s, 128 ≤ b) :
    Magnet sha1 data m_root = none := by
  obtain ⟨s, hs, hb⟩ := h8
  have henc := encodeList_high (unique (sort list))
    ⟨s, (mem_unique s (sort list)).2 ((mem_sort s list).2 hs), hb⟩
  unfold Magnet
  rw [hcalc]
  simp only [if_neg hne, hcol, henc]

theorem hashText_ne_nil (digest : List Nat) (h : digest.length = 20) :
    digest.flatMap hex02x ≠ [] := by
  intro he
  have := hex02x_flatMap_length digest
  rw [he, h] at this
  simp at this

/-- C11 (failing input): the accepted file
`d13:announce-listl1:b1:<0x80>e4:infodee` has the collected strings `b` and the
single byte `0x80`, two distinct strings in ascending order. `Magnet` emits
neither: the encode loop has no text for the byte `0x80` (`ch` is a negative
`char`, whose `%02X` text does not fit `d`), and no string comes back. For
`sortTorrent`, whose collected strings `http://b`, `http://a`, `http://a` are
of 7-bit bytes, `Magnet` emits `http://a`, then `http://b`, each once. -/
theorem C11_tracker_with_high_byte (atofInt : List Nat → Int) (sha1 : List Nat → List Nat)
    (fuel : Nat) (hsha : (sha1 (bytes "de")).length = 20) :
    Decode atofInt highByteListTorrent (fuel + 5) 0 = some (some highByteListRoot, 34) ∧
    Read atofInt (fuel + 5) highByteListTorrent = some true ∧
    collectAnnounce (some highByteListRoot) = some [[98], [128]] ∧
    unique (sort [[98], [128]]) = [[98], [128]] ∧
    slice highByteListTorrent 31 2 = bytes "de" ∧
    Magnet sha1 highByteListTorrent (some highByteListRoot) = none ∧
    Decode atofInt sortTorrent (fuel + 6) 0 = some (some sortTorrentRoot, 58) ∧
    collectAnnounce (some sortTorrentRoot) =
      some [bytes "http://b", bytes "http://a", bytes "http://a"] ∧
    Magnet sha1 sortTorrent (some sortTorrentRoot) =
      some ("magnet:?xt=urn:btih:".toList ++ (sha1 (bytes "de")).flatMap hex02x ++
        "&tr=http%3A%2F%2Fa&tr=http%3A%2F%2Fb".toList) := by
  have hdec : Decode atofInt highByteListTorrent 5 0 =
      some (some highByteListRoot, 34) := rfl
  have hdec' := Decode_mono atofInt _ 5 (fuel + 5) 0 _ (by omega) hdec
  have hdec2 : Decode atofInt sortTorrent 6 0 = some (some sortTorrentRoot, 58) := rfl
  have hdec2' := Decode_mono atofInt _ 6 (fuel + 6) 0 _ (by omega) hdec2
  have hne := hashText_ne_nil _ hsha
  refine ⟨hdec', ?_, rfl, by decide, rfl, ?_, hdec2', rfl, ?_⟩
  · unfold Read
    rw [if_neg (by decide), hdec']
    rfl
  · exact Magnet_high_byte sha1 highByteListTorrent (some highByteListRoot) _ [[98], [128]]
      rfl hne rfl ⟨[128], by simp, 128, by simp, by decide⟩
  · have h := Magnet_trackers sha1 sortTorrent (some sortTorrentRoot) _
      [bytes "http://b", bytes "http://a", bytes "http://a"] rfl hne rfl (by decide)
    rw [h]
    rfl

/-- Witness of C11: a constant digest of 20 bytes. -/
theorem C11_tracker_with_high_byte_witness :
    ((fun _ => List.replicate 20 0 : List Nat → List Nat) (bytes "de")).length = 20 ∧
    Magnet (fun _ => List.replicate 20 0) highByteListTorrent (some highByteListRoot) = none ∧
    Magnet (fun _ => List.replicate 20 0) sortTorrent (some sortTorrentRoot) =
      some ("magnet:?xt=urn:btih:0000000000000000000000000000000000000000".toList ++
        "&tr=http%3A%2F%2Fa&tr=http%3A%2F%2Fb".toList) :=
  ⟨by decide,
    (C11_tracker_with_high_byte (fun _ => 0) (fun _ => List.replicate 20 0) 0
      (by decide)).2.2.2.2.2.1,
    (C11_tracker_with_high_byte (fun _ => 0) (fun _ => List.replicate 20 0) 0
      (by decide)).2.2.2.2.2.2.2.2⟩

/-! ## Documents with the same info bytes and the same trackers -/

/-- Two decoded documents whose info nodes span, inside their buffers, equal
byte sequences and whose collected announce strings have the same members,
all of 7-bit bytes, give the same string: `Magnet` returns a string for both,
and it is the same one. -/
theorem Magnet_same_string (atofInt : List Nat → Int)
    (sha1 : List Nat → List Nat) (data1 data2 : List Nat) (fuel1 fuel2 : Nat)
    (root1 root2 : bt_node) (end1 end2 : Nat) (info1 info2 : bt_node)
    (list1 list2 : List (List Nat))
    (hd1 : Decode atofInt data1 fuel1 0 = some (some root1, end1))
    (hd2 : Decode atofInt data2 fuel2 0 = some (some root2, end2))
    (hi1 : Search (bytes "info") (some root1) = some info1)
    (hi2 : Search (bytes "info") (some root2) = some info2)
    (hin1 : info1.offset + info1.length ≤ data1.length)
    (hin2 : info2.offset + info2.length ≤ data2.length)
    (hs : slice data1 info1.offset info1.length = slice data2 info2.offset info2.length)
    (hc1 : collectAnnounce (some root1) = some list1)
    (hc2 : collectAnnounce (some root2) = some list2)
    (hset : ∀ s, s ∈ list1 ↔ s ∈ list2)
    (h7 : ∀ s ∈ list1, ∀ b ∈ s, b < 128) :
    ∃ text, Magnet sha1 data1 (some root1) = some text ∧
      Magnet sha1 data2 (some root2) = some text := by
  have heq := Magnet_same_result atofInt sha1 data1 data2 fuel1 fuel2 root1 root2 end1 end2
    info1 info2 list1 list2 hd1 hd2 hi1 hi2 hin1 hin2 hs hc1 hc2 hset
  have hsome : ∃ text, Magnet sha1 data1 (some root1) = some text := by
    have hcalc := CalcInfoHash_of_node sha1 data1 (some root1) info1 hi1
    rw [if_pos hin1] at hcalc
    have henc := encodeList_ascii (unique (sort list1))
      (fun s hs => h7 s ((mem_sort s list1).1 ((mem_unique s (sort list1)).1 hs)))
    unfold Magnet
    rw [hcalc]
    by_cases hdict : isDict info1 = true
    · rw [if_pos hdict]
      simp only [hc1, henc]
      split_ifs
      · exact ⟨_, rfl⟩
      · exact ⟨_, rfl⟩
    · rw [if_neg hdict]
      exact ⟨[], by simp⟩
  obtain ⟨text, ht⟩ := hsome
  exact ⟨text, ht, by rw [← heq, ht]⟩

/-- C19 (failing input): the accepted files `d8:announce1:<0x80>4:infodee` and
`d13:announce-listll1:<0x80>el1:<0x80>ee4:infodee` have info nodes that span
the same bytes `de`, and the same set of collected strings, the single byte
`0x80`, once under `announce` and twice in nested lists. `Magnet` returns no
string for either: the encode loop has no text for the byte `0x80` (`ch` is
a negative `char`, whose `%02X` text does not fit `d`). For `splitTorrent`
and `flatTorrent`, whose trackers are of 7-bit bytes and differ in order,
multiplicity, nesting and key, `Magnet` returns one and the same string. -/
theorem C19_documents_with_high_byte (atofInt : List Nat → Int) (sha1 : List Nat → List Nat)
    (fuel : Nat) (hsha : (sha1 (bytes "de")).length = 20) :
    Decode atofInt highByteTorrent (fuel + 4) 0 = some (some highByteTorrentRoot, 23) ∧
    Decode atofInt highByteNestedTorrent (fuel + 5) 0 = some (some highByteNestedRoot, 38) ∧
    Read atofInt (fuel + 4) highByteTorrent = some true ∧
    Read atofInt (fuel + 5) highByteNestedTorrent = some true ∧
    Search (bytes "info") (some highByteTorrentRoot) = some (.dt_dictionary 20 2 []) ∧
    Search (bytes "info") (some highByteNestedRoot) = some (.dt_dictionary 35 2 []) ∧
    slice highByteTorrent 20 2 = bytes "de" ∧
    slice highByteNestedTorrent 35 2 = bytes "de" ∧
    collectAnnounce (some highByteTorrentRoot) = some [[128]] ∧
    collectAnnounce (some highByteNestedRoot) = some [[128], [128]] ∧
    Magnet sha1 highByteTorrent (some highByteTorrentRoot) = none ∧
    Magnet sha1 highByteNestedTorrent (some highByteNestedRoot) = none ∧
    Decode atofInt splitTorrent (fuel + 5) 0 = some (some splitTorrentRoot, 72) ∧
    Decode atofInt flatTorrent (fuel + 5) 0 = some (some flatTorrentRoot, 48) ∧
    collectAnnounce (some splitTorrentRoot) =
      some [bytes "http://a", bytes "http://b", bytes "http://a"] ∧
    collectAnnounce (some flatTorrentRoot) = some [bytes "http://a", bytes "http://b"] ∧
    Magnet sha1 splitTorrent (some splitTorrentRoot) =
      some ("magnet:?xt=urn:btih:".toList ++ (sha1 (bytes "de")).flatMap hex02x ++
        "&tr=http%3A%2F%2Fa&tr=http%3A%2F%2Fb".toList) ∧
    Magnet sha1 flatTorrent (some flatTorrentRoot) =
      some ("magnet:?xt=urn:btih:".toList ++ (sha1 (bytes "de")).flatMap hex02x ++
        "&tr=http%3A%2F%2Fa&tr=http%3A%2F%2Fb".toList) := by
  have hdec1 : Decode atofInt highByteTorrent 4 0 = some (some highByteTorrentRoot, 23) := rfl
  have hdec1' := Decode_mono atofInt _ 4 (fuel + 4) 0 _ (by omega) hdec1
  have hdec2 : Decode atofInt highByteNestedTorrent 5 0 =
      some (some highByteNestedRoot, 38) := rfl
  have hdec2' := Decode_mono atofInt _ 5 (fuel + 5) 0 _ (by omega) hdec2
  have hdec3 : Decode atofInt splitTorrent 5 0 = some (some splitTorrentRoot, 72) := rfl
  have hdec3' := Decode_mono atofInt _ 5 (fuel + 5) 0 _ (by omega) hdec3
  have hdec4 : Decode atofInt flatTorrent 5 0 = some (some flatTorrentRoot, 48) := rfl
  have hdec4' := Decode_mono atofInt _ 5 (fuel + 5) 0 _ (by omega) hdec4
  have hne := hashText_ne_nil _ hsha
  refine ⟨hdec1', hdec2', ?_, ?_, rfl, rfl, rfl, rfl, rfl, rfl, ?_, ?_, hdec3', hdec4',
    rfl, rfl, ?_, ?_⟩
  · unfold Read
    rw [if_neg (by decide), hdec1']
    rfl
  · unfold Read
    rw [if_neg (by decide), hdec2']
    rfl
  · exact Magnet_high_byte sha1 highByteTorrent (some highByteTorrentRoot) _ [[128]]
      rfl hne rfl ⟨[128], by simp, 128, by simp, by decide⟩
  · exact Magnet_high_byte sha1 highByteNestedTorrent (some highByteNestedRoot) _
      [[128], [128]] rfl hne rfl ⟨[128], by simp, 128, by simp, by decide⟩
  · have h := Magnet_trackers sha1 splitTorrent (some splitTorrentRoot) _
      [bytes "http://a", bytes "http://b", bytes "http://a"] rfl hne rfl (by decide)
    rw [h]
    rfl
  · have h := Magnet_trackers sha1 flatTorrent (some flatTorrentRoot) _
      [bytes "http://a", bytes "http://b"] rfl hne rfl (by decide)
    rw [h]
    rfl

/-- Witness of C19: a constant digest of 20 bytes. -/
theorem C19_documents_with_high_byte_witness :
    ((fun _ => List.replicate 20 0 : List Nat → List Nat) (bytes "de")).length = 20 ∧
    Magnet (fun _ => List.replicate 20 0) highByteTorrent (some highByteTorrentRoot) = none ∧
    Magnet (fun _ => List.replicate 20 0) highByteNestedTorrent (some highByteNestedRoot) =
      none :=
  ⟨by decide,
    (C19_documents_with_high_byte (fun _ => 0) (fun _ => List.replicate 20 0) 0
      (by decide)).2.2.2.2.2.2.2.2.2.2.1,
    (C19_documents_with_high_byte (fun _ => 0) (fun _ => List.replicate 20 0) 0
      (by decide)).2.2.2.2.2.2.2.2.2.2.2.1⟩

end TorrentInfo
